import Mathlib

/-!
# hapiness: a reader for HPI archives

A shallow embedding of `archive_util.cpp`, `decompress_util.cpp` and
`string_util.cpp`.

Conventions of the embedding:

* a `char` is a `byte` (its unsigned value, `Fin 256`); a `std::string` and a
  `std::vector<char>` are `List byte`;
* `uint32_t`, `uint8_t` and `size_t` values are `Nat`; `size_t` has 64 bits and
  a reduction modulo `2^w` is written wherever the C++ arithmetic can wrap;
* a function that can throw, touch memory outside an object, or loop returns
  an `Outcome`: `ok`, `throw e` (the exception and the `snprintf` site that
  raised it), `oob` (an access outside the object: undefined behaviour) or
  `diverge` (the fuel of a loop or recursion ran out);
* `std::istream` is a value: the bytes, the position and the fail state;
* records inside a buffer are little-endian (`reinterpret_cast` on x86).
-/

namespace util

/-! ## Bytes, memory and outcomes -/

/-- One `char` of storage, as its unsigned value. -/
abbrev byte := Fin 256

/-- Conversion to `uint8_t`: the low eight bits. -/
def u8 (n : Nat) : byte := ⟨n % 256, Nat.mod_lt n (by decide)⟩

/-- Modulus of `uint32_t` arithmetic. -/
def U32 : Nat := 2 ^ 32

/-- Modulus of `size_t` arithmetic. -/
def SIZE : Nat := 2 ^ 64

/-- The value of `std::string::npos`. -/
def npos : Nat := 2 ^ 64 - 1

/-- Every `throw` of the program: one constructor per `snprintf` site, with the
numbers the message prints, plus `boost::bad_get`. -/
inductive exception where
  | unterminated_entry_name
  | path_data_offset (data_end size : Nat)
  | file_data_offset (data_end size : Nat)
  | dir_entry_list_offset (size : Nat)
  | invalid_magic (magic : Nat)
  | unsupported_version (version : Nat)
  | root_dir_offset (root_end directory_size : Nat)
  | invalid_compression_type (compression_type : Nat)
  | chunk_magic (magic i : Nat)
  | extracted_size (extracted expected i : Nat)
  | chunk_checksum (checksum i : Nat)
  | chunk_size_mismatch (decompressed compressed i : Nat)
  | chunk_compression_type (compression_type i : Nat)
  | lz77_expected_tag
  | lz77_expected_byte
  | lz77_literal_overflow
  | lz77_expected_window
  | lz77_window_overflow
  | zlib_init_failed
  | zlib_inflation_failed
  | bad_get
  deriving DecidableEq, Repr

/-- What a call does: return a value, throw, access memory outside an object,
or never come back. -/
inductive Outcome (α : Type) where
  | ok (a : α)
  | throw (e : exception)
  | oob
  | diverge
  deriving DecidableEq, Repr

/-- Sequencing: the first outcome that is not `ok` ends the computation. -/
def Outcome.bind {α β : Type} (x : Outcome α) (f : α → Outcome β) : Outcome β :=
  match x with
  | .ok a => f a
  | .throw e => .throw e
  | .oob => .oob
  | .diverge => .diverge

instance : Monad Outcome where
  pure := Outcome.ok
  bind := Outcome.bind

/-- A read through a pointer: outside the object it is `oob`. -/
def load {α : Type} (x : Option α) : Outcome α :=
  match x with
  | some a => .ok a
  | none => .oob

/-- The write of `bytes` into `mem` starting at index `ofs`. Writing nothing
touches nothing; a write that leaves `mem` is `oob`. -/
def store (mem : List byte) (ofs : Nat) (bytes : List byte) : Outcome (List byte) :=
  if bytes = [] then .ok mem
  else if ofs + bytes.length ≤ mem.length then
    .ok (mem.take ofs ++ bytes ++ mem.drop (ofs + bytes.length))
  else .oob

/-- A little-endian `uint16_t`. -/
def le16 (b0 b1 : byte) : Nat := b0.val + 256 * b1.val

/-- A little-endian `uint32_t`. -/
def le32 (b0 b1 b2 b3 : byte) : Nat :=
  b0.val + 256 * b1.val + 65536 * b2.val + 16777216 * b3.val

/-- The `uint8_t` stored at `ofs`. -/
def load_u8 (mem : List byte) (ofs : Nat) : Option Nat :=
  (mem[ofs]?).map Fin.val

/-- The `uint32_t` stored at `ofs .. ofs + 4`. -/
def load_u32 (mem : List byte) (ofs : Nat) : Option Nat :=
  match mem[ofs]?, mem[ofs + 1]?, mem[ofs + 2]?, mem[ofs + 3]? with
  | some b0, some b1, some b2, some b3 => some (le32 b0 b1 b2 b3)
  | _, _, _, _ => none

/-! ## On-disk records (`#pragma pack(1)`) -/

def HPI_MAGIC_NUMBER : Nat := 0x49504148
def HPI_VERSION_NUMBER : Nat := 0x00010000
def HPI_BANK_MAGIC_NUMBER : Nat := 0x4B4E4142
def HPI_CHUNK_MAGIC_NUMBER : Nat := 0x48535153

def COMPRESSION_TYPE_NULL : Nat := 0
def COMPRESSION_TYPE_LZ77 : Nat := 1
def COMPRESSION_TYPE_ZLIB : Nat := 2

structure hpi_version where
  magic : Nat
  version : Nat
  deriving DecidableEq, Repr

structure hpi_header where
  directory_size : Nat
  header_key : Nat
  start : Nat
  deriving DecidableEq, Repr

structure hpi_path_data where
  number_of_entries : Nat
  entry_list_offset : Nat
  deriving DecidableEq, Repr

structure hpi_file_data where
  data_offset : Nat
  file_size : Nat
  compression_type : Nat
  deriving DecidableEq, Repr

structure hpi_arch_entry where
  name_offset : Nat
  data_offset : Nat
  is_path : Nat
  deriving DecidableEq, Repr

structure hpi_chunk where
  magic : Nat
  version : Nat
  compression_type : Nat
  encoded : Nat
  compressed_size : Nat
  decompressed_size : Nat
  checksum : Nat
  deriving DecidableEq, Repr

def sizeof_hpi_version : Nat := 8
def sizeof_hpi_header : Nat := 12
def sizeof_hpi_path_data : Nat := 8
def sizeof_hpi_file_data : Nat := 9
def sizeof_hpi_arch_entry : Nat := 9
def sizeof_hpi_chunk : Nat := 19

/-- The `hpi_version` whose object representation starts at `ofs`. -/
def load_hpi_version (mem : List byte) (ofs : Nat) : Option hpi_version :=
  match load_u32 mem ofs, load_u32 mem (ofs + 4) with
  | some magic, some version => some ⟨magic, version⟩
  | _, _ => none

/-- The `hpi_header` whose object representation starts at `ofs`. -/
def load_hpi_header (mem : List byte) (ofs : Nat) : Option hpi_header :=
  match load_u32 mem ofs, load_u32 mem (ofs + 4), load_u32 mem (ofs + 8) with
  | some directory_size, some header_key, some start => some ⟨directory_size, header_key, start⟩
  | _, _, _ => none

/-- The `hpi_path_data` whose object representation starts at `ofs`. -/
def load_hpi_path_data (mem : List byte) (ofs : Nat) : Option hpi_path_data :=
  match load_u32 mem ofs, load_u32 mem (ofs + 4) with
  | some number_of_entries, some entry_list_offset => some ⟨number_of_entries, entry_list_offset⟩
  | _, _ => none

/-- The `hpi_file_data` whose object representation starts at `ofs`. -/
def load_hpi_file_data (mem : List byte) (ofs : Nat) : Option hpi_file_data :=
  match load_u32 mem ofs, load_u32 mem (ofs + 4), load_u8 mem (ofs + 8) with
  | some data_offset, some file_size, some compression_type =>
      some ⟨data_offset, file_size, compression_type⟩
  | _, _, _ => none

/-- The `hpi_arch_entry` whose object representation starts at `ofs`. -/
def load_hpi_arch_entry (mem : List byte) (ofs : Nat) : Option hpi_arch_entry :=
  match load_u32 mem ofs, load_u32 mem (ofs + 4), load_u8 mem (ofs + 8) with
  | some name_offset, some data_offset, some is_path => some ⟨name_offset, data_offset, is_path⟩
  | _, _, _ => none

/-- The `hpi_chunk` whose object representation starts at `ofs`. -/
def load_hpi_chunk (mem : List byte) (ofs : Nat) : Option hpi_chunk :=
  match load_u32 mem ofs, load_u8 mem (ofs + 4), load_u8 mem (ofs + 5), load_u8 mem (ofs + 6),
      load_u32 mem (ofs + 7), load_u32 mem (ofs + 11), load_u32 mem (ofs + 15) with
  | some magic, some version, some compression_type, some encoded,
      some compressed_size, some decompressed_size, some checksum =>
      some ⟨magic, version, compression_type, encoded, compressed_size, decompressed_size, checksum⟩
  | _, _, _, _, _, _, _ => none

/-! ## `std::istream` -/

/-- A `std::istream` over a file: its bytes, the read position and whether
`failbit` is set. Nothing in the program clears the state, and `read` sets
`eofbit` only together with `failbit`, so one flag is the whole state. -/
structure istream where
  data : List byte
  pos : Nat
  fail : Bool
  deriving DecidableEq, Repr

/-- A stream just opened on `data`. -/
def istream.fresh (data : List byte) : istream := ⟨data, 0, false⟩

/-- Member `tellg()`: `-1` once the stream has failed. -/
def istream.tellg (s : istream) : Int :=
  if s.fail then -1 else (s.pos : Int)

/-- Member `seekg(pos)`: ignored once the stream has failed; a file stream
accepts any position. -/
def istream.seekg (s : istream) (p : Nat) : istream :=
  if s.fail then s else { s with pos := p }

/-- Member `read(buffer, n)`: the characters stored (`gcount()` of them) and
the stream afterwards. A failed stream stores nothing; a stream with fewer
than `n` characters left stores those and fails. -/
def istream.read (s : istream) (n : Nat) : List byte × istream :=
  if s.fail then ([], s)
  else
    let got := (s.data.drop s.pos).take n
    (got, { s with pos := s.pos + got.length, fail := decide (got.length < n) })

/-! ## `archive_util.cpp`: reading and decrypting -/

/-- The loop of `decrypt_buffer`, from index `i` on. -/
def decrypt_loop (key seed : byte) : Nat → List byte → List byte
  | _, [] => []
  | i, b :: rest =>
      let pos : byte := u8 (seed.val + (u8 i).val)
      let dec : byte := u8 (b.val ^^^ (pos.val ^^^ key.val))
      dec :: decrypt_loop key seed (i + 1) rest

/-- Function `decrypt_buffer(key, seed, buffer, buffer_size)`: the returned
flag and the buffer afterwards. -/
def decrypt_buffer (key seed : byte) (buffer : List byte) : Bool × List byte :=
  if key = 0 then (false, buffer)
  else (true, decrypt_loop key seed 0 buffer)

/-- Function `read_decrypt_buffer(stream, key, buffer, size)`: the bytes left
in `buffer[0 .. gcount())` and the stream afterwards. The caller overlays them
on the destination. -/
def read_decrypt_buffer (stream : istream) (key : byte) (size : Nat) : List byte × istream :=
  let seed : byte := u8 (stream.tellg % 256).toNat
  let r := stream.read size
  ((decrypt_buffer key seed r.1).2, r.2)

/-- The object representation of a `T val;` of `size` bytes whose members
default to zero, after `got` was stored at its start. -/
def object_bytes (got : List byte) (size : Nat) : List byte :=
  got ++ List.replicate (size - got.length) 0

/-- Function `read_raw_value<T>(stream)` for a `T` of `size` bytes: the object
representation of the value returned. -/
def read_raw_value (stream : istream) (size : Nat) : List byte × istream :=
  let r := stream.read size
  (object_bytes r.1 size, r.2)

/-- Function `read_decrypt_raw_value<T>(stream, key)` for a `T` of `size`
bytes. -/
def read_decrypt_raw_value (stream : istream) (key : byte) (size : Nat) : List byte × istream :=
  let r := read_decrypt_buffer stream key size
  (object_bytes r.1 size, r.2)

/-- Function `read_decrypt_raw_array<T>(stream, key, buffer, size)` for a `T`
of `sizeof_T` bytes and a zero-filled `buffer`. -/
def read_decrypt_raw_array (stream : istream) (key : byte) (sizeof_T size : Nat) :
    List byte × istream :=
  let r := read_decrypt_buffer stream key (sizeof_T * size)
  (object_bytes r.1 (sizeof_T * size), r.2)

/-! ## `string_util.cpp` -/

/-- The loop of `str_size` over the characters between `begin` and `end`. -/
def str_size_loop : List byte → Nat → Nat
  | [], _ => npos
  | b :: rest, count => if b = 0 then count else str_size_loop rest (count + 1)

/-- Function `str_size(begin, end)` for `begin = mem + first` and
`end = mem + mem.size()`. With `begin` past `end` the loop never meets `end`
and dereferences outside `mem` at once. -/
def str_size (mem : List byte) (first : Nat) : Outcome Nat :=
  if first ≤ mem.length then .ok (str_size_loop (mem.drop first) 0)
  else .oob

/-- Function `std::toupper` in the "C" locale. -/
def toupper (c : byte) : byte :=
  if 97 ≤ c.val ∧ c.val ≤ 122 then u8 (c.val - 32) else c

/-- Function `str_to_uppercase(str)`. -/
def str_to_uppercase (str : List byte) : List byte :=
  str.map toupper

/-- Function `str_split_internal`: `cur` holds the characters between
`str_begin` and the position `find_first_of` has reached, `rest` those still
to scan. -/
def str_split_internal (chrs : List byte) : List byte → List byte → List (List byte)
  | cur, [] => [cur]
  | cur, c :: rest =>
      if c ∈ chrs then cur :: str_split_internal chrs [] rest
      else str_split_internal chrs (cur ++ [c]) rest

/-- Function `str_split(str, chrs)`. -/
def str_split (str chrs : List byte) : List (List byte) :=
  str_split_internal chrs [] str

/-! ## The in-memory tree -/

/-- Struct `hpi_archive::file_data`. -/
structure file_data where
  offset : Nat
  size : Nat
  compression_type : Nat
  deriving DecidableEq, Repr

mutual
/-- Struct `hpi_archive::path_data`. -/
inductive path_data where
  | mk (entries : List arch_entry)
/-- The `boost::variant<file_data, path_data>` of an entry. -/
inductive entry_data where
  | file (fd : file_data)
  | path (pd : path_data)
/-- Struct `hpi_archive::arch_entry`. -/
inductive arch_entry where
  | mk (name : List byte) (data : entry_data)
end

def path_data.entries : path_data → List arch_entry
  | .mk entries => entries

def arch_entry.name : arch_entry → List byte
  | .mk name _ => name

def arch_entry.data : arch_entry → entry_data
  | .mk _ data => data

/-- Member `hpi_archive::make_file_data`. -/
def make_file_data (file : hpi_file_data) : file_data :=
  ⟨file.data_offset, file.file_size, u8 file.compression_type |>.val⟩

/-- The `for` loop of `make_path_data`: `v[i] = make_arch_entry(hpi_path_entries[i], buffer)`
for `i = 0 .. n - 1`, given the body. -/
def make_entries (body : Nat → Outcome arch_entry) : Nat → Nat → Outcome (List arch_entry)
  | 0, _ => .ok []
  | n + 1, i =>
      (body i).bind fun e => (make_entries body n (i + 1)).bind fun es => .ok (e :: es)

mutual
/-- Member `hpi_archive::make_arch_entry(entry, buffer)`; `fuel` bounds the
depth of the mutual recursion. -/
def make_arch_entry : Nat → hpi_arch_entry → List byte → Outcome arch_entry
  | 0, _, _ => .diverge
  | fuel + 1, entry, buffer =>
      (str_size buffer entry.name_offset).bind fun name_size =>
      let entry_ofs := entry.data_offset
      if name_size = npos then .throw .unterminated_entry_name
      else if entry.is_path ≠ 0 then
        if entry_ofs + sizeof_hpi_path_data > buffer.length then
          .throw (.path_data_offset (entry_ofs + sizeof_hpi_path_data) buffer.length)
        else
          (load (load_hpi_path_data buffer entry_ofs)).bind fun hpd =>
          (make_path_data fuel hpd buffer).bind fun pd =>
          .ok (.mk ((buffer.drop entry.name_offset).take name_size) (.path pd))
      else if entry_ofs + sizeof_hpi_file_data > buffer.length then
        .throw (.file_data_offset (entry_ofs + sizeof_hpi_file_data) buffer.length)
      else
        (load (load_hpi_file_data buffer entry_ofs)).bind fun hfd =>
        .ok (.mk ((buffer.drop entry.name_offset).take name_size) (.file (make_file_data hfd)))
/-- Member `hpi_archive::make_path_data(path, buffer)`. -/
def make_path_data : Nat → hpi_path_data → List byte → Outcome path_data
  | 0, _, _ => .diverge
  | fuel + 1, path, buffer =>
      if path.entry_list_offset + path.number_of_entries * sizeof_hpi_arch_entry > buffer.length then
        .throw (.dir_entry_list_offset buffer.length)
      else
        (make_entries
          (fun i =>
            (load (load_hpi_arch_entry buffer (path.entry_list_offset + i * sizeof_hpi_arch_entry))).bind
              fun e => make_arch_entry fuel e buffer)
          path.number_of_entries 0).bind fun v =>
        .ok (.mk v)
end

/-- Class `hpi_archive`: the stream it reads, the tree and the key. -/
structure hpi_archive where
  stream : istream
  root_path : path_data
  decrypt_key : byte

/-- A default-constructed `hpi_archive` (no stream bound yet). -/
def hpi_archive.fresh : hpi_archive := ⟨istream.fresh [], .mk [], 0⟩

/-- Member `hpi_archive::open(istream)`. -/
def hpi_archive.open_ (fuel : Nat) (self : hpi_archive) (stream : istream) : Outcome hpi_archive :=
  let r1 := read_raw_value stream sizeof_hpi_version
  let r2 := read_raw_value r1.2 sizeof_hpi_header
  (load (load_hpi_version r1.1 0)).bind fun archive_version =>
  (load (load_hpi_header r2.1 0)).bind fun archive_header =>
  if archive_version.magic ≠ HPI_MAGIC_NUMBER then
    .throw (.invalid_magic archive_version.magic)
  else if archive_version.version ≠ HPI_VERSION_NUMBER then
    .throw (.unsupported_version archive_version.version)
  else
    let h : byte := u8 archive_header.header_key
    let key1 : byte := u8 (self.decrypt_key.val ||| (h.val <<< 2))
    let decrypt_key : byte := u8 (key1.val ||| (h.val >>> 6))
    let s3 := r2.2.seekg archive_header.start
    let buffer : List byte := List.replicate archive_header.directory_size 0
    let r4 := read_decrypt_buffer s3 decrypt_key
      ((archive_header.directory_size + U32 - archive_header.start) % U32)
    (store buffer archive_header.start r4.1).bind fun buffer =>
    if archive_header.start + sizeof_hpi_path_data > archive_header.directory_size then
      .throw (.root_dir_offset (archive_header.start + sizeof_hpi_path_data)
        archive_header.directory_size)
    else
      (load (load_hpi_path_data buffer archive_header.start)).bind fun hpd =>
      (make_path_data fuel hpd buffer).bind fun root_path =>
      .ok ⟨r4.2, root_path, decrypt_key⟩

/-! ## `decompress_util.cpp` -/

/-- The write of one `char` at index `i`; outside `mem` it is `oob`. -/
def store_byte (mem : List byte) (i : Nat) (b : byte) : Outcome (List byte) :=
  if i < mem.length then .ok (mem.set i b) else .oob

/-- The variables of `decompress_lz77`: the cursors, the memory `out` points
to and the `window` array. -/
structure lz77_state where
  in_pos : Nat
  out_pos : Nat
  window_pos : Nat
  out : List byte
  window : List byte
  deriving DecidableEq, Repr

/-- How the `for` loop over the bits of a tag ends: it runs through its eight
rounds, or it executes `return`. -/
inductive lz77_flow where
  | next (s : lz77_state)
  | returned (s : lz77_state)
  deriving DecidableEq, Repr

/-- The loop `for (x = 0; x < count; ++x)` of a back-reference, with the
rounds still to run. -/
def lz77_copy : Nat → Nat → lz77_state → Outcome lz77_state
  | 0, _, s => .ok s
  | x + 1, offset, s =>
      (load s.window[offset]?).bind fun b =>
      (store_byte s.out s.out_pos b).bind fun out =>
      (store_byte s.window s.window_pos b).bind fun window =>
      lz77_copy x ((offset + 1) &&& 0xFFF)
        { s with out_pos := s.out_pos + 1, window_pos := (s.window_pos + 1) &&& 0xFFF,
                 out := out, window := window }

/-- The loop `for (i = 0; i < 8; ++i)` over the bits of `tag`, with the rounds
still to run. -/
def lz77_bits (input : List byte) (len max_bytes : Nat) : Nat → Nat → lz77_state → Outcome lz77_flow
  | 0, _, s => .ok (.next s)
  | n + 1, tag, s =>
      if tag &&& 1 = 0 then
        if s.in_pos ≥ len then .throw .lz77_expected_byte
        else if s.out_pos ≥ max_bytes then .throw .lz77_literal_overflow
        else
          (load input[s.in_pos]?).bind fun b =>
          (store_byte s.out s.out_pos b).bind fun out =>
          (store_byte s.window s.window_pos b).bind fun window =>
          lz77_bits input len max_bytes n (tag >>> 1)
            { in_pos := s.in_pos + 1, out_pos := s.out_pos + 1,
              window_pos := (s.window_pos + 1) &&& 0xFFF, out := out, window := window }
      else
        if s.in_pos ≥ (len + SIZE - 1) % SIZE then .throw .lz77_expected_window
        else
          (load input[s.in_pos]?).bind fun b0 =>
          (load input[s.in_pos + 1]?).bind fun b1 =>
          let packed_data := le16 b0 b1
          let offset := packed_data >>> 4
          let count := (packed_data &&& 0x0F) + 2
          let s1 : lz77_state := { s with in_pos := s.in_pos + 2 }
          if offset = 0 then .ok (.returned s1)
          else if (s1.out_pos + count) % SIZE > max_bytes then .throw .lz77_window_overflow
          else
            (lz77_copy count offset s1).bind fun s2 =>
            lz77_bits input len max_bytes n (tag >>> 1) s2

/-- The loop `while (true)` of `decompress_lz77`; `fuel` bounds its rounds. -/
def lz77_loop (input : List byte) (len max_bytes : Nat) : Nat → lz77_state → Outcome lz77_state
  | 0, _ => .diverge
  | fuel + 1, s =>
      if s.in_pos ≥ len then .throw .lz77_expected_tag
      else
        (load input[s.in_pos]?).bind fun tag =>
        (lz77_bits input len max_bytes 8 tag.val { s with in_pos := s.in_pos + 1 }).bind fun r =>
        match r with
        | .returned s1 => .ok s1
        | .next s1 => lz77_loop input len max_bytes fuel s1

/-- Function `decompress_lz77(in, len, out, max_bytes)`, up to its `return`:
the variables at that point. `window0` is what the uninitialised array
`char window[4096]` holds on entry, `out` the memory from the pointer `out`
to the end of its object. -/
def decompress_lz77_run (fuel : Nat) (window0 input : List byte) (len : Nat) (out : List byte)
    (max_bytes : Nat) : Outcome lz77_state :=
  lz77_loop input len max_bytes fuel ⟨0, 0, 1, out, window0⟩

/-- Function `decompress_lz77(in, len, out, max_bytes)`: the memory at `out`
afterwards. -/
def decompress_lz77 (fuel : Nat) (window0 input : List byte) (len : Nat) (out : List byte)
    (max_bytes : Nat) : Outcome (List byte) :=
  (decompress_lz77_run fuel window0 input len out max_bytes).bind fun s => .ok s.out

/-- What the external zlib does for `decompress_zlib`: `inflateInit` fails, or
`inflate(&stream, Z_NO_FLUSH)` returns `Z_STREAM_END` after writing `produced`
at `next_out`, or it returns anything else. -/
inductive zlib_result where
  | init_failed
  | stream_end (produced : List byte)
  | other
  deriving DecidableEq, Repr

/-- What the program does not fix: whether `char` is signed, the external
zlib (`inflate input avail_out`), and what the uninitialised `window` array
of the call of `decompress_lz77` for chunk `i` holds. -/
structure platform where
  char_signed : Bool
  inflate : List byte → Nat → zlib_result
  stack : Nat → List byte

/-- Function `decompress_zlib(in, len, out, max_bytes)`: the memory at `out`
afterwards. -/
def decompress_zlib (p : platform) (input : List byte) (len : Nat) (out : List byte)
    (max_bytes : Nat) : Outcome (List byte) :=
  match p.inflate (input.take len) max_bytes with
  | .init_failed => .throw .zlib_init_failed
  | .stream_end produced => store out 0 produced
  | .other => .throw .zlib_inflation_failed

/-! ## `archive_util.cpp`: chunks and extraction -/

/-- The value of a `char` in integer arithmetic. -/
def char_value (char_signed : Bool) (b : byte) : Int :=
  if char_signed = true ∧ 128 ≤ b.val then (b.val : Int) - 256 else (b.val : Int)

/-- Conversion of an integer to `char`: the low eight bits. -/
def to_char (z : Int) : byte := u8 (z % 256).toNat

/-- The `std::transform` of `decode_chunk_buffer`, from index `i` on: the
lambda computes `(b - (&b - buffer)) ^ (&b - buffer)` in `ptrdiff_t`. -/
def decode_chunk_loop (char_signed : Bool) : Nat → List byte → List byte
  | _, [] => []
  | i, b :: rest =>
      to_char (Int.xor (char_value char_signed b - (i : Int)) (i : Int))
        :: decode_chunk_loop char_signed (i + 1) rest

/-- Function `decode_chunk_buffer(buffer, size)` (the `#if 1` branch). -/
def decode_chunk_buffer (char_signed : Bool) (buffer : List byte) : List byte :=
  decode_chunk_loop char_signed 0 buffer

/-- Function `compute_buffer_checksum(buffer, size)`. -/
def compute_buffer_checksum (buffer : List byte) : Nat :=
  buffer.foldl (fun sum b => (sum + b.val) % U32) 0

/-- The variables the chunk loop of `extract_compressed` carries: the stream,
the caller's buffer and `buffer_offset`. -/
structure extract_state where
  stream : istream
  buffer : List byte
  buffer_offset : Nat
  deriving DecidableEq, Repr

/-- The `switch (chunk_header.compression_type)` of the chunk loop, for chunk
`i`: the caller's buffer afterwards. Every case that does not throw goes on to
advance `buffer_offset` by `decompressed_size`. -/
def chunk_switch (p : platform) (fuel : Nat) (i : Nat) (chunk_header : hpi_chunk)
    (chunk_buffer buffer : List byte) (buffer_offset : Nat) : Outcome (List byte) :=
  if chunk_header.compression_type = COMPRESSION_TYPE_NULL then
    if chunk_header.compressed_size ≠ chunk_header.decompressed_size then
      .throw (.chunk_size_mismatch chunk_header.decompressed_size chunk_header.compressed_size i)
    else store buffer buffer_offset chunk_buffer
  else if chunk_header.compression_type = COMPRESSION_TYPE_LZ77 then
    (decompress_lz77 fuel (p.stack i) chunk_buffer chunk_header.compressed_size
      (buffer.drop buffer_offset) chunk_header.decompressed_size).bind fun out =>
    .ok (buffer.take buffer_offset ++ out)
  else if chunk_header.compression_type = COMPRESSION_TYPE_ZLIB then
    (decompress_zlib p chunk_buffer chunk_header.compressed_size
      (buffer.drop buffer_offset) chunk_header.decompressed_size).bind fun out =>
    .ok (buffer.take buffer_offset ++ out)
  else .throw (.chunk_compression_type chunk_header.compression_type i)

/-- One round of the chunk loop of `extract_compressed`, for chunk `i`. -/
def extract_chunk (p : platform) (fuel : Nat) (decrypt_key : byte) (file : file_data) (i : Nat)
    (s : extract_state) : Outcome extract_state :=
  let r1 := read_decrypt_raw_value s.stream decrypt_key sizeof_hpi_chunk
  (load (load_hpi_chunk r1.1 0)).bind fun chunk_header =>
  if chunk_header.magic ≠ HPI_CHUNK_MAGIC_NUMBER then
    .throw (.chunk_magic chunk_header.magic i)
  else if s.buffer_offset + chunk_header.decompressed_size > file.size then
    .throw (.extracted_size (s.buffer_offset + chunk_header.decompressed_size) file.size i)
  else
    let r2 := read_decrypt_buffer r1.2 decrypt_key chunk_header.compressed_size
    let chunk_buffer := object_bytes r2.1 chunk_header.compressed_size
    let checksum := compute_buffer_checksum chunk_buffer
    if checksum ≠ chunk_header.checksum then .throw (.chunk_checksum checksum i)
    else
      let chunk_buffer :=
        if chunk_header.encoded ≠ 0 then decode_chunk_buffer p.char_signed chunk_buffer
        else chunk_buffer
      (chunk_switch p fuel i chunk_header chunk_buffer s.buffer s.buffer_offset).bind fun buffer =>
      .ok ⟨r2.2, buffer, s.buffer_offset + chunk_header.decompressed_size⟩

/-- The chunk loop of `extract_compressed`: `n` rounds, the first for chunk
`i`. -/
def extract_chunks (p : platform) (fuel : Nat) (decrypt_key : byte) (file : file_data) :
    Nat → Nat → extract_state → Outcome extract_state
  | 0, _, s => .ok s
  | n + 1, i, s =>
      (extract_chunk p fuel decrypt_key file i s).bind fun s1 =>
      extract_chunks p fuel decrypt_key file n (i + 1) s1

/-- The length of `chunk_sizes` in `extract_compressed`. -/
def chunk_count (file : file_data) : Nat :=
  file.size / 65536 + (if file.size % 65536 ≠ 0 then 1 else 0)

/-- The variables of `extract_compressed` when its chunk loop starts. -/
def extract_start (self : hpi_archive) (file : file_data) (buffer : List byte) : extract_state :=
  let s1 := self.stream.seekg file.offset
  let r := read_decrypt_raw_array s1 self.decrypt_key 4 (chunk_count file)
  ⟨r.2, buffer, 0⟩

/-- What `extract` leaves behind when it returns: the value returned, the
stream and the caller's buffer. -/
structure extract_result where
  value : Bool
  stream : istream
  buffer : List byte
  deriving DecidableEq, Repr

/-- Member `hpi_archive::extract_compressed(file, buffer)`. -/
def hpi_archive.extract_compressed (p : platform) (fuel : Nat) (self : hpi_archive)
    (file : file_data) (buffer : List byte) : Outcome extract_result :=
  (extract_chunks p fuel self.decrypt_key file (chunk_count file) 0
    (extract_start self file buffer)).bind fun s =>
  .ok ⟨true, s.stream, s.buffer⟩

/-- Member `hpi_archive::extract(file, buffer)`. -/
def hpi_archive.extract (p : platform) (fuel : Nat) (self : hpi_archive)
    (file : file_data) (buffer : List byte) : Outcome extract_result :=
  if file.compression_type = COMPRESSION_TYPE_NULL then
    let s1 := self.stream.seekg file.offset
    let r := read_decrypt_buffer s1 self.decrypt_key file.size
    (store buffer 0 r.1).bind fun buffer => .ok ⟨true, r.2, buffer⟩
  else if file.compression_type = COMPRESSION_TYPE_LZ77
      ∨ file.compression_type = COMPRESSION_TYPE_ZLIB then
    self.extract_compressed p fuel file buffer
  else .throw (.invalid_compression_type file.compression_type)

/-! ## `archive_util.cpp`: lookup -/

/-- The predicate `pred` of the three lookups:
`str_to_uppercase(e.name) == str_to_uppercase(name)`. -/
def name_pred (name : List byte) (e : arch_entry) : Bool :=
  decide (str_to_uppercase e.name = str_to_uppercase name)

/-- Function `find_file_inner(path, name)`. With `USE_STD_OPTIONAL` the visitor
maps a directory to `nullopt`; without it `boost::get<file_data>` on a
directory throws `boost::bad_get`. -/
def find_file_inner (USE_STD_OPTIONAL : Bool) (path : path_data) (name : List byte) :
    Outcome (Option file_data) :=
  match path.entries.find? (name_pred name) with
  | none => .ok none
  | some e =>
      match e.data with
      | .file fd => .ok (some fd)
      | .path _ => if USE_STD_OPTIONAL then .ok none else .throw .bad_get

/-- The loop "descend down the archive" of `find_file` and of `find_path`,
over the components before the last; `none` is its early `return` of
`nullopt` or `nullptr`. -/
def descend (USE_STD_OPTIONAL : Bool) : path_data → List (List byte) → Outcome (Option path_data)
  | path, [] => .ok (some path)
  | path, path_comp :: rest =>
      match path.entries.find? (name_pred path_comp) with
      | none => .ok none
      | some e =>
          match e.data with
          | .path found_path => descend USE_STD_OPTIONAL found_path rest
          | .file _ => if USE_STD_OPTIONAL then .ok none else .throw .bad_get

/-- Member `hpi_archive::find_file(path_str)`. -/
def hpi_archive.find_file (USE_STD_OPTIONAL : Bool) (self : hpi_archive) (path_str : List byte) :
    Outcome (Option file_data) :=
  let split_path_strs := str_split path_str [47]
  (descend USE_STD_OPTIONAL self.root_path split_path_strs.dropLast).bind fun r =>
  match r with
  | none => .ok none
  | some path =>
      (load split_path_strs.getLast?).bind fun back =>
      find_file_inner USE_STD_OPTIONAL path back

/-- Member `hpi_archive::find_path(path_str)`. -/
def hpi_archive.find_path (USE_STD_OPTIONAL : Bool) (self : hpi_archive) (path_str : List byte) :
    Outcome (Option path_data) :=
  let split_path_strs := str_split path_str [47]
  descend USE_STD_OPTIONAL self.root_path split_path_strs.dropLast

/-! ## Vocabulary of the properties -/

/-- The exceptions `make_arch_entry` and `make_path_data` raise. -/
def exception.of_directory : exception → Bool
  | .unterminated_entry_name => true
  | .path_data_offset _ _ => true
  | .file_data_offset _ _ => true
  | .dir_entry_list_offset _ => true
  | _ => false

/-- The little-endian `uint32_t` at index `i` of a stream, bytes past its end
counting as zero (what a default-initialised record keeps after a short read). -/
def u32_at (data : List byte) (i : Nat) : Nat :=
  le32 (data.getD i 0) (data.getD (i + 1) 0) (data.getD (i + 2) 0) (data.getD (i + 3) 0)

/-- An archive with one root entry: "HAPI", the version 0x00010000,
`directory_size`, `header_key = 0`, `directory_start = 20`, the root PathRecord
`{entry_count 1, entry_list_offset 28}` at offset 20, the EntryRecord
`{name_offset, data_offset, is_path}` at offset 28, the bytes 'A', NUL at
offset 37, then `tail`. -/
def one_entry_archive (directory_size name_offset data_offset is_path : byte)
    (tail : List byte) : List byte :=
  [0x48, 0x41, 0x50, 0x49,  0, 0, 1, 0,  directory_size, 0, 0, 0,  0, 0, 0, 0,  20, 0, 0, 0,
   1, 0, 0, 0,  28, 0, 0, 0,
   name_offset, 0, 0, 0,  data_offset, 0, 0, 0,  is_path,
   65, 0] ++ tail

/-- Scenario A as the spec gives it: `directory_size = 42`, an EntryRecord
`{name_offset 37, data_offset 42, is_path 0}`, zero-filled up to offset 42. -/
def scenario_A : List byte := one_entry_archive 42 37 42 0 [0, 0, 0]

/-- Scenario A with the FileRecord inside the blob: `directory_size = 51` and
the FileRecord `{data_offset 51, file_size 5, compression_type 0}` at
offset 42. -/
def scenario_A_51 : List byte :=
  one_entry_archive 51 37 42 0 [0, 0, 0,  51, 0, 0, 0,  5, 0, 0, 0,  0]

/-- The directory blob `open` builds for `scenario_A_51`. -/
def scenario_A_51_blob : List byte := List.replicate 20 0 ++ scenario_A_51.drop 20

/-- An archive whose header has `directory_size = 0` and `directory_start = 20`,
with one byte stored at offset 20. -/
def start_past_blob : List byte :=
  [0x48, 0x41, 0x50, 0x49,  0, 0, 1, 0,  0, 0, 0, 0,  0, 0, 0, 0,  20, 0, 0, 0,  7]

/-- The archive `scenario_A_51` with `name_offset = 200`, past the 51 bytes of
the blob. -/
def name_past_blob : List byte :=
  one_entry_archive 51 200 42 0 [0, 0, 0,  51, 0, 0, 0,  5, 0, 0, 0,  0]

/-- The archive `scenario_A_51` with `name_offset = 50` and no zero byte from
offset 50 to the end of the blob. -/
def unterminated_name : List byte :=
  one_entry_archive 51 50 42 0 [0, 0, 0,  51, 0, 0, 0,  5, 0, 0, 0,  1]

/-- ASCII upper-casing of one character: only 'a' .. 'z' change. -/
def ascii_upper (c : byte) : byte :=
  if 97 ≤ c.val ∧ c.val ≤ 122 then u8 (c.val - 32) else c

/-- ASCII lower-casing of one character: only 'A' .. 'Z' change. -/
def ascii_lower (c : byte) : byte :=
  if 65 ≤ c.val ∧ c.val ≤ 90 then u8 (c.val + 32) else c

/-- Entry `e` is the first entry of directory `d` whose name equals `comp` up
to ASCII case. -/
def FirstMatch (d : path_data) (comp : List byte) (e : arch_entry) : Prop :=
  ∃ i, d.entries[i]? = some e ∧ e.name.map ascii_upper = comp.map ascii_upper ∧
    ∀ (j : Nat) (e1 : arch_entry), j < i → d.entries[j]? = some e1 →
      e1.name.map ascii_upper ≠ comp.map ascii_upper

/-- Directory `target` is reached from `d` by descending the components in
turn, each resolved to the first matching entry, which must be a directory. -/
inductive Reaches : path_data → List (List byte) → path_data → Prop where
  | here (d : path_data) : Reaches d [] d
  | step {d sub target : path_data} {comp : List byte} {rest : List (List byte)} {e : arch_entry} :
      FirstMatch d comp e → e.data = .path sub → Reaches sub rest target →
      Reaches d (comp :: rest) target

/-- The file of Scenario F. -/
def scenario_F_file : file_data := ⟨100, 5, 0⟩

/-- The directory `B` of Scenario F, holding `c.dat`. -/
def scenario_F_B : path_data := .mk [.mk [99, 46, 100, 97, 116] (.file scenario_F_file)]

/-- The archive of Scenario F: the tree `a/B/c.dat`. -/
def scenario_F : hpi_archive :=
  ⟨istream.fresh [], .mk [.mk [97] (.path (.mk [.mk [66] (.path scenario_F_B)]))], 0⟩

/-- The archive of Scenario B: the single file `readme.txt` at the root. -/
def scenario_B : hpi_archive :=
  ⟨istream.fresh [],
   .mk [.mk [114, 101, 97, 100, 109, 101, 46, 116, 120, 116] (.file ⟨64, 12, 0⟩)], 0⟩

/-- The stream `s` over other bytes: same position, same state. -/
def istream.with_data (s : istream) (data : List byte) : istream :=
  { s with data := data }

/-- The archive `self` bound to a stream over other bytes. -/
def hpi_archive.with_data (self : hpi_archive) (data : List byte) : hpi_archive :=
  { self with stream := self.stream.with_data data }

/-- The loop variables `s` with the stream over other bytes. -/
def extract_state.with_data (s : extract_state) (data : List byte) : extract_state :=
  { s with stream := s.stream.with_data data }

/-- A platform for the concrete scenarios: signed `char`, a zlib that never
reaches `Z_STREAM_END`, a stack that happens to hold zeros. -/
def scenario_platform : platform :=
  ⟨true, fun _ _ => .other, fun _ => List.replicate 4096 0⟩

/-- The stream of Scenario D up to offset 24, stored under the key 0x5A: the
chunk-size array, the chunk header ("SQSH", version 2, LZ77, not encoded,
`compressed_size = 5`, `decompressed_size = 2`, `checksum = 135`) and the tag
byte 0x04 of the payload. -/
def scenario_D_pre : List byte :=
  [67, 91, 88, 89,  13, 14, 15, 21,  80, 82, 80,  84, 86, 87, 84,  87, 74, 75, 72,
   206, 78, 79, 76,  73]

/-- The stored payload of Scenario D after offset 24: 'B' and the sentinel. -/
def scenario_D_post : List byte := [1, 64, 65]

/-- The archive of Scenario D: key 0x5A; the stored byte at offset 24 is 3,
the literal 'A'. The payload 0x04 'A' 'B' 0x00 0x00 sums to 135. -/
def scenario_D : hpi_archive :=
  ⟨istream.fresh (scenario_D_pre ++ 3 :: scenario_D_post), .mk [], 0x5A⟩

/-- The file of Scenario D: at offset 0, two bytes, LZ77. -/
def scenario_D_file : file_data := ⟨0, 2, 1⟩

/-- Two outcomes end the same way: the same exception, or both `oob`, or both
`diverge`, or both return, with values related by `R`. -/
inductive Outcome.Rel {α : Type} (R : α → α → Prop) : Outcome α → Outcome α → Prop where
  | ok {a b : α} : R a b → Outcome.Rel R (.ok a) (.ok b)
  | throw (e : exception) : Outcome.Rel R (.throw e) (.throw e)
  | oob : Outcome.Rel R .oob .oob
  | diverge : Outcome.Rel R .diverge .diverge

/-- Buffers `a` and `b` have the same length and hold the same byte at every
index in `K`. -/
def BufRel (K : Nat → Prop) (a b : List byte) : Prop :=
  a.length = b.length ∧ ∀ k, K k → a[k]? = b[k]?

/-- An archive whose one LZ77 chunk ends at once: the chunk-size array, the
header ("SQSH", version 2, LZ77, not encoded, `compressed_size = 3`,
`decompressed_size = 1`, `checksum = 1`) and the payload 0x01 0x00 0x00, a
back-reference with offset 0. Stored in clear (key 0). -/
def early_sentinel : hpi_archive :=
  ⟨istream.fresh [22, 0, 0, 0,  83, 81, 83, 72,  2, 1, 0,  3, 0, 0, 0,  1, 0, 0, 0,  1, 0, 0, 0,
    1, 0, 0], .mk [], 0⟩

/-- Two states of `decompress_lz77` that differ at most in what `out` holds
outside `K`. -/
def lz77_state.Rel (K : Nat → Prop) (s1 s2 : lz77_state) : Prop :=
  s1.in_pos = s2.in_pos ∧ s1.out_pos = s2.out_pos ∧ s1.window_pos = s2.window_pos ∧
    s1.window = s2.window ∧ BufRel K s1.out s2.out

/-- Two ends of the bit loop of the same kind, with related states. -/
inductive lz77_flow.Rel (K : Nat → Prop) : lz77_flow → lz77_flow → Prop where
  | next {s1 s2 : lz77_state} : lz77_state.Rel K s1 s2 → lz77_flow.Rel K (.next s1) (.next s2)
  | returned {s1 s2 : lz77_state} :
      lz77_state.Rel K s1 s2 → lz77_flow.Rel K (.returned s1) (.returned s2)

/-- Two states of the chunk loop that differ at most in what the caller's
buffer holds outside `K`. -/
def extract_state.Rel (K : Nat → Prop) (s1 s2 : extract_state) : Prop :=
  s1.stream = s2.stream ∧ s1.buffer_offset = s2.buffer_offset ∧ BufRel K s1.buffer s2.buffer

/-- Two results of `extract` that differ at most in what the caller's buffer
holds outside `K`. -/
def extract_result.Rel (K : Nat → Prop) (r1 r2 : extract_result) : Prop :=
  r1.value = r2.value ∧ r1.stream = r2.stream ∧ BufRel K r1.buffer r2.buffer

/-- An archive handle over an empty stream, and a descriptor of one
uncompressed byte at offset 0: the read of `extract` comes back short. -/
def empty_archive : hpi_archive := ⟨istream.fresh [], .mk [], 0⟩

/-- The exceptions `decompress_lz77` raises. -/
def exception.of_lz77 : exception → Bool
  | .lz77_expected_tag => true
  | .lz77_expected_byte => true
  | .lz77_literal_overflow => true
  | .lz77_expected_window => true
  | .lz77_window_overflow => true
  | _ => false

/-- The cursors of `decompress_lz77` lie within their objects: `in_pos` within
the `len` bytes of input, `out_pos` within the `max_bytes` bytes of `out`,
`window_pos` within the 4096 bytes of `window`. -/
def lz77_state.Inv (len max_bytes : Nat) (s : lz77_state) : Prop :=
  s.in_pos ≤ len ∧ s.out_pos ≤ max_bytes ∧ s.window_pos < 4096 ∧
    s.window.length = 4096 ∧ s.out.length = max_bytes

/-- The two bytes at `input[j]`, `input[j + 1]` are a back-reference whose
12-bit offset field is 0. -/
def sentinel_at (input : List byte) (j : Nat) : Prop :=
  ∃ b0 b1, input[j]? = some b0 ∧ input[j + 1]? = some b1 ∧ le16 b0 b1 >>> 4 = 0

/-- An archive with `header_key = 0xEFCDAB96` (low byte 0x96) and an empty root
directory: "HAPI", the version 0x00010000, `directory_size = 28`, the key,
`directory_start = 20`, then the root PathRecord `{entry_count 0,
entry_list_offset 28}` stored under the key 0x5A. -/
def keyed_root_archive : List byte :=
  [0x48, 0x41, 0x50, 0x49,  0, 0, 1, 0,  28, 0, 0, 0,  0x96, 0xAB, 0xCD, 0xEF,  20, 0, 0, 0,
   78, 79, 76, 77, 94, 67, 64, 65]

/-- The LZ77 chunk of Scenario C with the tag byte the spec gives: tag
`0b00000001`, the byte 'A', the pair `{offset 1, count 7}` (packed 0x0015),
the pair `{offset 0}`. -/
def scenario_C_tag1 : List byte := [0b00000001, 65, 0x15, 0x00, 0x00, 0x00]

/-- The same chunk under the tag `0b00000110`: bit 0 clear for the literal,
bits 1 and 2 set for the two pairs. -/
def scenario_C_tag6 : List byte := [0b00000110, 65, 0x15, 0x00, 0x00, 0x00]

/-- The disabled `#else` branch of `decode_chunk_buffer`, from index `i` on:
`pos = static_cast<uint8_t>(i)` and `dec = (buffer[i] - pos) ^ pos`, computed
in `int` and stored as `uint8_t`. -/
def decode_chunk_loop_else (char_signed : Bool) : Nat → List byte → List byte
  | _, [] => []
  | i, b :: rest =>
      let pos : byte := u8 i
      to_char (Int.xor (char_value char_signed b - (pos.val : Int)) (pos.val : Int))
        :: decode_chunk_loop_else char_signed (i + 1) rest

/-- Function `decode_chunk_buffer(buffer, size)` as its `#else` branch has it. -/
def decode_chunk_buffer_else (char_signed : Bool) (buffer : List byte) : List byte :=
  decode_chunk_loop_else char_signed 0 buffer

/-- The decoded byte as the spec writes it, for the byte `b` at index `i`:
`((b - (i mod 256)) mod 256) xor (i mod 256)`. -/
def decode_byte_spec (i : Nat) (b : byte) : byte :=
  u8 (((b.val + 256 - i % 256) % 256) ^^^ (i % 256))

/-- The encoded byte as the spec writes it, for the plain byte `p` at index
`i`: `((p xor (i mod 256)) + (i mod 256)) mod 256`. -/
def encode_byte_spec (i : Nat) (p : byte) : byte :=
  u8 ((p.val ^^^ (i % 256)) + i % 256)

/-- The spec's decoding of a buffer whose first byte has index `i`. -/
def decode_chunk_spec : Nat → List byte → List byte
  | _, [] => []
  | i, b :: rest => decode_byte_spec i b :: decode_chunk_spec (i + 1) rest

/-- The spec's encoding of a buffer whose first byte has index `i`. -/
def encode_chunk_spec : Nat → List byte → List byte
  | _, [] => []
  | i, p :: rest => encode_byte_spec i p :: encode_chunk_spec (i + 1) rest

/-- Scenario D with the chunk header's `encoded` flag set (the stored byte at
offset 10 becomes 81); the payload and the stored checksum 135 stand. -/
def scenario_D_encoded : hpi_archive :=
  ⟨istream.fresh (scenario_D_pre.set 10 81 ++ 3 :: scenario_D_post), .mk [], 0x5A⟩

/-- Scenario D with the chunk header's `compression_type` changed to 0 (the
stored byte at offset 9 becomes 83): an uncompressed chunk with
`compressed_size = 5` and `decompressed_size = 2`. -/
def scenario_D_null : hpi_archive :=
  ⟨istream.fresh (scenario_D_pre.set 9 83 ++ 3 :: scenario_D_post), .mk [], 0x5A⟩

/-- Scenario D as an uncompressed chunk of equal sizes: `compression_type = 0`
and `decompressed_size = 5` (the stored byte at offset 15 becomes 80). -/
def scenario_D_null5 : hpi_archive :=
  ⟨istream.fresh ((scenario_D_pre.set 9 83).set 15 80 ++ 3 :: scenario_D_post), .mk [], 0x5A⟩

/-- A second archive with an empty root directory: `header_key = 0x69` (whose
rotation is 0xA5), `directory_size = 28`, `directory_start = 20`, and the root
PathRecord `{entry_count 0, entry_list_offset 28}` stored under the key 0xFF,
the key a handle holds after opening `keyed_root_archive` and then this one. -/
def keyed_root_archive_B : List byte :=
  [0x48, 0x41, 0x50, 0x49,  0, 0, 1, 0,  28, 0, 0, 0,  0x69, 0, 0, 0,  20, 0, 0, 0,
   235, 234, 233, 232, 251, 230, 229, 228]

/-- A platform like `scenario_platform` whose stack holds 0xAA where the
`window` array of `decompress_lz77` is placed. -/
def scenario_platform_AA : platform :=
  ⟨true, fun _ _ => .other, fun _ => List.replicate 4096 0xAA⟩

/-- An archive stored in clear (key 0) with one LZ77 chunk: the chunk-size
array (4 bytes), the chunk header ("SQSH", version 2, LZ77, not encoded,
`compressed_size = 5`, `decompressed_size = 2`, `checksum = 35`) and the
payload `03 20 00 00 00`: tag `0b00000011`, the pair `{offset 2, count 2}`,
the pair `{offset 0}`. -/
def window_reader : hpi_archive :=
  ⟨istream.fresh [0, 0, 0, 0,  0x53, 0x51, 0x53, 0x48,  2,  1,  0,  5, 0, 0, 0,  2, 0, 0, 0,
     35, 0, 0, 0,  0x03, 0x20, 0x00, 0x00, 0x00], .mk [], 0⟩

/-! ## Properties -/

theorem outcome_bind_eq_ok {α β : Type} (x : Outcome α) (f : α → Outcome β) (b : β) :
    x.bind f = .ok b ↔ ∃ a, x = .ok a ∧ f a = .ok b := by
  cases x <;> simp [Outcome.bind]

theorem outcome_bind_eq_throw {α β : Type} (x : Outcome α) (f : α → Outcome β) (e : exception) :
    x.bind f = .throw e ↔ x = .throw e ∨ ∃ a, x = .ok a ∧ f a = .throw e := by
  cases x <;> simp [Outcome.bind]

theorem load_eq_ok {α : Type} (x : Option α) (a : α) : load x = .ok a ↔ x = some a := by
  cases x <;> simp [load]

theorem load_ne_throw {α : Type} (x : Option α) (e : exception) : load x ≠ .throw e := by
  cases x <;> simp [load]

theorem store_ne_throw (mem : List byte) (ofs : Nat) (bytes : List byte) (e : exception) :
    store mem ofs bytes ≠ .throw e := by
  unfold store
  split
  · simp
  · split <;> simp

theorem str_size_ne_throw (mem : List byte) (first : Nat) (e : exception) :
    str_size mem first ≠ .throw e := by
  unfold str_size
  split <;> simp

theorem make_entries_throw (body : Nat → Outcome arch_entry) (e : exception) :
    ∀ n i, make_entries body n i = .throw e → ∃ j, body j = .throw e := by
  intro n
  induction n with
  | zero => intro i h; simp [make_entries] at h
  | succ n ih =>
    intro i h
    rw [make_entries, outcome_bind_eq_throw] at h
    rcases h with h | ⟨a, _, h⟩
    · exact ⟨i, h⟩
    · rw [outcome_bind_eq_throw] at h
      rcases h with h | ⟨es, _, h⟩
      · exact ih _ h
      · simp at h

theorem make_throw_of_directory : ∀ fuel : Nat,
    (∀ entry buffer e, make_arch_entry fuel entry buffer = .throw e → e.of_directory = true) ∧
    (∀ path buffer e, make_path_data fuel path buffer = .throw e → e.of_directory = true) := by
  intro fuel
  induction fuel with
  | zero => constructor <;> intro _ _ e h <;> simp [make_arch_entry, make_path_data] at h
  | succ fuel ih =>
    constructor
    · intro entry buffer e h
      rw [make_arch_entry, outcome_bind_eq_throw] at h
      rcases h with h | ⟨name_size, _, h⟩
      · exact absurd h (str_size_ne_throw _ _ _)
      · simp only at h
        split at h
        · cases h; rfl
        · split at h
          · split at h
            · cases h; rfl
            · rw [outcome_bind_eq_throw] at h
              rcases h with h | ⟨hpd, _, h⟩
              · exact absurd h (load_ne_throw _ _)
              · rw [outcome_bind_eq_throw] at h
                rcases h with h | ⟨pd, _, h⟩
                · exact ih.2 _ _ _ h
                · simp at h
          · split at h
            · cases h; rfl
            · rw [outcome_bind_eq_throw] at h
              rcases h with h | ⟨hfd, _, h⟩
              · exact absurd h (load_ne_throw _ _)
              · simp at h
    · intro path buffer e h
      rw [make_path_data] at h
      split at h
      · cases h; rfl
      · rw [outcome_bind_eq_throw] at h
        rcases h with h | ⟨v, _, h⟩
        · obtain ⟨j, hj⟩ := make_entries_throw _ _ _ _ h
          rw [outcome_bind_eq_throw] at hj
          rcases hj with hj | ⟨en, _, hj⟩
          · exact absurd hj (load_ne_throw _ _)
          · exact ih.1 _ _ _ hj
        · simp at h

theorem object_bytes_length (got : List byte) (size : Nat) (h : got.length ≤ size) :
    (object_bytes got size).length = size := by
  simp [object_bytes]; omega

theorem object_bytes_get (got : List byte) (size i : Nat) (hi : i < size) :
    (object_bytes got size)[i]? = some (got.getD i 0) := by
  unfold object_bytes
  by_cases h : i < got.length
  · rw [List.getElem?_append_left h]
    simp [List.getD_eq_getElem?_getD, List.getElem?_eq_getElem h]
  · have h : got.length ≤ i := Nat.le_of_not_lt h
    rw [List.getElem?_append_right h, List.getD_eq_getElem?_getD, List.getElem?_eq_none h]
    simp [List.getElem?_replicate]
    omega

theorem take_getD (data : List byte) (n i : Nat) (hi : i < n) :
    (data.take n).getD i 0 = data.getD i 0 := by
  simp [List.getD_eq_getElem?_getD, List.getElem?_take, hi]

theorem load_u32_object_bytes (got : List byte) (size i : Nat) (hi : i + 4 ≤ size) :
    load_u32 (object_bytes got size) i = some (u32_at got i) := by
  unfold load_u32 u32_at
  rw [object_bytes_get _ _ _ (by omega), object_bytes_get _ _ _ (by omega),
    object_bytes_get _ _ _ (by omega), object_bytes_get _ _ _ (by omega)]

theorem u32_at_take (data : List byte) (n i : Nat) (hi : i + 4 ≤ n) :
    u32_at (data.take n) i = u32_at data i := by
  unfold u32_at
  rw [take_getD _ _ _ (by omega), take_getD _ _ _ (by omega), take_getD _ _ _ (by omega),
    take_getD _ _ _ (by omega)]

theorem read_fresh (data : List byte) (n : Nat) :
    ((istream.fresh data).read n).1 = data.take n := by
  simp [istream.read, istream.fresh]

theorem load_hpi_version_fresh (data : List byte) :
    load_hpi_version (read_raw_value (istream.fresh data) sizeof_hpi_version).1 0
      = some ⟨u32_at data 0, u32_at data 4⟩ := by
  simp only [read_raw_value, read_fresh, load_hpi_version, sizeof_hpi_version]
  rw [load_u32_object_bytes _ _ _ (by omega), load_u32_object_bytes _ _ _ (by omega),
    u32_at_take _ _ _ (by omega), u32_at_take _ _ _ (by omega)]

theorem load_hpi_header_object (got : List byte) :
    load_hpi_header (object_bytes got sizeof_hpi_header) 0
      = some ⟨u32_at got 0, u32_at got 4, u32_at got 8⟩ := by
  simp only [load_hpi_header, sizeof_hpi_header]
  rw [load_u32_object_bytes _ _ _ (by omega), load_u32_object_bytes _ _ _ (by omega),
    load_u32_object_bytes _ _ _ (by omega)]


/-- The first steps of `open` on a fresh stream: what is left once the two
records are read. -/
theorem open_fresh_unfold (fuel : Nat) (self : hpi_archive) (data : List byte)
    (hdr : hpi_header) (s2 : istream)
    (hs : s2 = ((read_raw_value (istream.fresh data) sizeof_hpi_version).2.read sizeof_hpi_header).2)
    (hh : hdr = ⟨u32_at ((read_raw_value (istream.fresh data) sizeof_hpi_version).2.read
        sizeof_hpi_header).1 0,
      u32_at ((read_raw_value (istream.fresh data) sizeof_hpi_version).2.read sizeof_hpi_header).1 4,
      u32_at ((read_raw_value (istream.fresh data) sizeof_hpi_version).2.read
        sizeof_hpi_header).1 8⟩) :
    self.open_ fuel (istream.fresh data) =
      if u32_at data 0 ≠ HPI_MAGIC_NUMBER then .throw (.invalid_magic (u32_at data 0))
      else if u32_at data 4 ≠ HPI_VERSION_NUMBER then .throw (.unsupported_version (u32_at data 4))
      else
        let h : byte := u8 hdr.header_key
        let key1 : byte := u8 (self.decrypt_key.val ||| (h.val <<< 2))
        let decrypt_key : byte := u8 (key1.val ||| (h.val >>> 6))
        let s3 := s2.seekg hdr.start
        let buffer : List byte := List.replicate hdr.directory_size 0
        let r4 := read_decrypt_buffer s3 decrypt_key ((hdr.directory_size + U32 - hdr.start) % U32)
        (store buffer hdr.start r4.1).bind fun buffer =>
        if hdr.start + sizeof_hpi_path_data > hdr.directory_size then
          .throw (.root_dir_offset (hdr.start + sizeof_hpi_path_data) hdr.directory_size)
        else
          (load (load_hpi_path_data buffer hdr.start)).bind fun hpd =>
          (make_path_data fuel hpd buffer).bind fun root_path =>
          .ok ⟨r4.2, root_path, decrypt_key⟩ := by
  subst hs hh
  unfold hpi_archive.open_
  simp only [load_hpi_version_fresh]
  simp only [read_raw_value, load_hpi_header_object]
  simp only [load, Outcome.bind]

/-- C2: on every fresh stream `open` throws when the first little-endian u32
(the magic) is not 0x49504148 or the second (the version) is not 0x00010000,
in particular when the version is 0x4B4E4142 ("BANK"); when both match it
throws neither the magic nor the version exception. -/
theorem open_checks_magic_and_version (fuel : Nat) (self : hpi_archive) (data : List byte) :
    ((u32_at data 0 ≠ 0x49504148 ∨ u32_at data 4 ≠ 0x00010000) →
      ∃ e, self.open_ fuel (istream.fresh data) = .throw e) ∧
    (u32_at data 0 ≠ 0x49504148 →
      self.open_ fuel (istream.fresh data) = .throw (.invalid_magic (u32_at data 0))) ∧
    (u32_at data 0 = 0x49504148 → u32_at data 4 ≠ 0x00010000 →
      self.open_ fuel (istream.fresh data) = .throw (.unsupported_version (u32_at data 4))) ∧
    (u32_at data 4 = 0x4B4E4142 → ∃ e, self.open_ fuel (istream.fresh data) = .throw e) ∧
    (u32_at data 0 = 0x49504148 → u32_at data 4 = 0x00010000 →
      ∀ x, self.open_ fuel (istream.fresh data) ≠ .throw (.invalid_magic x) ∧
        self.open_ fuel (istream.fresh data) ≠ .throw (.unsupported_version x)) := by
  generalize hs : ((read_raw_value (istream.fresh data) sizeof_hpi_version).2.read
    sizeof_hpi_header).2 = s2
  generalize hh : (⟨u32_at ((read_raw_value (istream.fresh data) sizeof_hpi_version).2.read
        sizeof_hpi_header).1 0,
      u32_at ((read_raw_value (istream.fresh data) sizeof_hpi_version).2.read sizeof_hpi_header).1 4,
      u32_at ((read_raw_value (istream.fresh data) sizeof_hpi_version).2.read
        sizeof_hpi_header).1 8⟩ : hpi_header) = hdr
  have hopen := open_fresh_unfold fuel self data hdr s2 hs.symm hh.symm
  have hm : u32_at data 0 ≠ 0x49504148 →
      self.open_ fuel (istream.fresh data) = .throw (.invalid_magic (u32_at data 0)) := by
    intro h
    rw [hopen, if_pos (by simpa [HPI_MAGIC_NUMBER] using h)]
  have hv : u32_at data 0 = 0x49504148 → u32_at data 4 ≠ 0x00010000 →
      self.open_ fuel (istream.fresh data) = .throw (.unsupported_version (u32_at data 4)) := by
    intro h1 h2
    rw [hopen, if_neg (by simpa [HPI_MAGIC_NUMBER] using h1),
      if_pos (by simpa [HPI_VERSION_NUMBER] using h2)]
  have hany : (u32_at data 0 ≠ 0x49504148 ∨ u32_at data 4 ≠ 0x00010000) →
      ∃ e, self.open_ fuel (istream.fresh data) = .throw e := by
    intro h
    by_cases h1 : u32_at data 0 = 0x49504148
    · rcases h with h | h
      · exact absurd h1 h
      · exact ⟨_, hv h1 h⟩
    · exact ⟨_, hm h1⟩
  refine ⟨hany, hm, hv, ?_, ?_⟩
  · intro h
    exact hany (Or.inr (by rw [h]; decide))
  · intro h1 h2 x
    rw [hopen, if_neg (by simpa [HPI_MAGIC_NUMBER] using h1),
      if_neg (by simpa [HPI_VERSION_NUMBER] using h2)]
    have key : ∀ e, (e = exception.invalid_magic x ∨ e = exception.unsupported_version x) →
        e.of_directory = false ∧ ∀ a b, e ≠ .root_dir_offset a b := by
      intro e he
      rcases he with he | he <;> subst he <;> simp [exception.of_directory]
    have main : ∀ e, (e = exception.invalid_magic x ∨ e = exception.unsupported_version x) →
        (let h : byte := u8 hdr.header_key
        let key1 : byte := u8 (self.decrypt_key.val ||| (h.val <<< 2))
        let decrypt_key : byte := u8 (key1.val ||| (h.val >>> 6))
        let s3 := s2.seekg hdr.start
        let buffer : List byte := List.replicate hdr.directory_size 0
        let r4 := read_decrypt_buffer s3 decrypt_key ((hdr.directory_size + U32 - hdr.start) % U32)
        (store buffer hdr.start r4.1).bind fun buffer =>
        if hdr.start + sizeof_hpi_path_data > hdr.directory_size then
          .throw (.root_dir_offset (hdr.start + sizeof_hpi_path_data) hdr.directory_size)
        else
          (load (load_hpi_path_data buffer hdr.start)).bind fun hpd =>
          (make_path_data fuel hpd buffer).bind fun root_path =>
          (Outcome.ok ⟨r4.2, root_path, decrypt_key⟩ : Outcome hpi_archive)) ≠ .throw e := by
      intro e he hthrow
      obtain ⟨hdir, hroot⟩ := key e he
      simp only at hthrow
      rw [outcome_bind_eq_throw] at hthrow
      rcases hthrow with h | ⟨buf, _, h⟩
      · exact store_ne_throw _ _ _ _ h
      · split at h
        · cases h; exact hroot _ _ rfl
        · rw [outcome_bind_eq_throw] at h
          rcases h with h | ⟨hpd, _, h⟩
          · exact load_ne_throw _ _ h
          · rw [outcome_bind_eq_throw] at h
            rcases h with h | ⟨pd, _, h⟩
            · have := (make_throw_of_directory fuel).2 _ _ _ h
              rw [hdir] at this; cases this
            · simp at h
    exact ⟨main _ (Or.inl rfl), main _ (Or.inr rfl)⟩

theorem str_size_loop_no_nul (l : List byte) (c : Nat) (h : ∀ b ∈ l, b ≠ 0) :
    str_size_loop l c = npos := by
  induction l generalizing c with
  | nil => rfl
  | cons b rest ih =>
    rw [str_size_loop, if_neg (h b (List.mem_cons_self _ _))]
    exact ih _ (fun x hx => h x (List.mem_cons_of_mem _ hx))

theorem str_size_loop_nul (l : List byte) (c k : Nat) (hk : l[k]? = some 0)
    (hj : ∀ j, j < k → l[j]? ≠ some 0) : str_size_loop l c = c + k := by
  induction l generalizing c k with
  | nil => simp at hk
  | cons b rest ih =>
    rw [str_size_loop]
    cases k with
    | zero =>
      simp at hk
      simp [hk]
    | succ k =>
      have hb : b ≠ 0 := by
        intro hb
        exact hj 0 (Nat.succ_pos _) (by simp [hb])
      rw [if_neg hb, ih (c + 1) k (by simpa using hk)
        (fun j hjk => by simpa using hj (j + 1) (Nat.succ_lt_succ hjk))]
      omega

theorem str_size_loop_found (l : List byte) (c r : Nat) (h : str_size_loop l c = r)
    (hr : r ≠ npos) :
    ∃ k, r = c + k ∧ l[k]? = some 0 ∧ ∀ j, j < k → ∃ b, l[j]? = some b ∧ b ≠ 0 := by
  induction l generalizing c with
  | nil => exact absurd h.symm hr
  | cons b rest ih =>
    rw [str_size_loop] at h
    by_cases hb : b = 0
    · rw [if_pos hb] at h
      exact ⟨0, by omega, by simp [hb], fun j hj => absurd hj (Nat.not_lt_zero _)⟩
    · rw [if_neg hb] at h
      obtain ⟨k, hk1, hk2, hk3⟩ := ih (c + 1) h
      refine ⟨k + 1, by omega, by simpa using hk2, ?_⟩
      intro j hj
      cases j with
      | zero => exact ⟨b, by simp, hb⟩
      | succ j => simpa using hk3 j (by omega)

theorem getElem?_drop_byte (l : List byte) (i j : Nat) : (l.drop i)[j]? = l[i + j]? := by
  simp [List.getElem?_drop]

theorem make_arch_entry_name (fuel : Nat) (entry : hpi_arch_entry) (buffer : List byte)
    (e : arch_entry) (h : make_arch_entry fuel entry buffer = .ok e) :
    ∃ name_size, str_size buffer entry.name_offset = .ok name_size ∧ name_size ≠ npos ∧
      e.name = (buffer.drop entry.name_offset).take name_size := by
  cases fuel with
  | zero => simp [make_arch_entry] at h
  | succ fuel =>
    rw [make_arch_entry, outcome_bind_eq_ok] at h
    obtain ⟨name_size, hs, h⟩ := h
    refine ⟨name_size, hs, ?_⟩
    simp only at h
    split at h
    · cases h
    · rename_i hne
      refine ⟨hne, ?_⟩
      split at h
      · split at h
        · cases h
        · simp only [outcome_bind_eq_ok] at h
          obtain ⟨_, _, _, _, h⟩ := h
          cases h; rfl
      · split at h
        · cases h
        · simp only [outcome_bind_eq_ok] at h
          obtain ⟨_, _, h⟩ := h
          cases h; rfl

theorem make_entries_throw_at (body : Nat → Outcome arch_entry) (x : exception) :
    ∀ (n i0 i : Nat), i < n → (∀ j, j < i → ∃ e, body (i0 + j) = .ok e) →
      body (i0 + i) = .throw x → make_entries body n i0 = .throw x := by
  intro n
  induction n with
  | zero => intro i0 i hi; omega
  | succ n ih =>
    intro i0 i hi hprev hthrow
    rw [make_entries]
    cases i with
    | zero =>
      simp only [Nat.add_zero] at hthrow
      rw [hthrow]; rfl
    | succ i =>
      obtain ⟨e0, he0⟩ := hprev 0 (Nat.succ_pos _)
      simp only [Nat.add_zero] at he0
      rw [he0]
      simp only [Outcome.bind]
      rw [ih (i0 + 1) i (by omega)
        (fun j hj => by
          have := hprev (j + 1) (by omega)
          rwa [show i0 + (j + 1) = i0 + 1 + j by omega] at this)
        (by rwa [show i0 + (i + 1) = i0 + 1 + i by omega] at hthrow)]

/-- C5: for an EntryRecord whose `name_offset` is at most the blob size, if no
zero byte occurs in `blob[name_offset ..)` then `str_size` returns `npos`,
`make_arch_entry` throws, and so does `make_path_data` on a directory that
reaches the entry; otherwise `str_size` returns the distance to the first
zero byte and that many bytes become the entry name. -/
theorem entry_name_terminator (fuel : Nat) (entry : hpi_arch_entry) (buffer : List byte)
    (h : entry.name_offset ≤ buffer.length) :
    ((∀ i, entry.name_offset ≤ i → i < buffer.length → buffer[i]? ≠ some 0) →
      str_size buffer entry.name_offset = .ok npos ∧
      make_arch_entry (fuel + 1) entry buffer = .throw .unterminated_entry_name ∧
      ∀ (path : hpi_path_data) (i : Nat), i < path.number_of_entries →
        path.entry_list_offset + path.number_of_entries * 9 ≤ buffer.length →
        load_hpi_arch_entry buffer (path.entry_list_offset + i * 9) = some entry →
        (∀ j, j < i → ∃ ej e, load_hpi_arch_entry buffer (path.entry_list_offset + j * 9) = some ej ∧
          make_arch_entry (fuel + 1) ej buffer = .ok e) →
        make_path_data (fuel + 2) path buffer = .throw .unterminated_entry_name) ∧
    (∀ k, buffer[entry.name_offset + k]? = some 0 →
      (∀ j, j < k → buffer[entry.name_offset + j]? ≠ some 0) →
      str_size buffer entry.name_offset = .ok k ∧
      ∀ e, make_arch_entry (fuel + 1) entry buffer = .ok e →
        e.name = (buffer.drop entry.name_offset).take k) := by
  constructor
  · intro hno
    have hs : str_size buffer entry.name_offset = .ok npos := by
      rw [str_size, if_pos h, str_size_loop_no_nul]
      intro b hb hb0
      obtain ⟨n, hn, hbn⟩ := List.getElem_of_mem hb
      have hlen : n < buffer.length - entry.name_offset := by simpa using hn
      apply hno (entry.name_offset + n) (by omega) (by omega)
      rw [← getElem?_drop_byte, List.getElem?_eq_getElem hn, hbn, hb0]
    have hm : make_arch_entry (fuel + 1) entry buffer = .throw .unterminated_entry_name := by
      rw [make_arch_entry, hs]
      simp [Outcome.bind]
    refine ⟨hs, hm, ?_⟩
    intro path i hi hbound hload hprev
    rw [make_path_data, if_neg (by simp only [sizeof_hpi_arch_entry]; omega)]
    rw [make_entries_throw_at _ .unterminated_entry_name path.number_of_entries 0 i hi]
    · rfl
    · intro j hj
      obtain ⟨ej, e, h1, h2⟩ := hprev j hj
      refine ⟨e, ?_⟩
      simp only [Nat.zero_add, sizeof_hpi_arch_entry, h1, load, Outcome.bind, h2]
    · simp only [Nat.zero_add, sizeof_hpi_arch_entry, hload, load, Outcome.bind, hm]
  · intro k hk hj
    have hs : str_size buffer entry.name_offset = .ok k := by
      rw [str_size, if_pos h, str_size_loop_nul _ 0 k (by rw [getElem?_drop_byte]; exact hk)
        (fun j hjk => by rw [getElem?_drop_byte]; exact hj j hjk)]
      simp
    refine ⟨hs, ?_⟩
    intro e he
    obtain ⟨name_size, h1, _, h3⟩ := make_arch_entry_name _ _ _ _ he
    rw [hs] at h1
    cases h1
    exact h3

theorem make_entries_ok (body : Nat → Outcome arch_entry) :
    ∀ (n i0 : Nat) (es : List arch_entry), make_entries body n i0 = .ok es →
      es.length = n ∧ ∀ i, i < n → ∃ e, es[i]? = some e ∧ body (i0 + i) = .ok e := by
  intro n
  induction n with
  | zero =>
    intro i0 es h
    simp only [make_entries] at h
    cases h
    exact ⟨rfl, fun i hi => absurd hi (Nat.not_lt_zero _)⟩
  | succ n ih =>
    intro i0 es h
    rw [make_entries, outcome_bind_eq_ok] at h
    obtain ⟨e0, he0, h⟩ := h
    rw [outcome_bind_eq_ok] at h
    obtain ⟨es1, hes1, h⟩ := h
    cases h
    obtain ⟨hlen, hall⟩ := ih _ _ hes1
    refine ⟨by simp [hlen], ?_⟩
    intro i hi
    cases i with
    | zero => exact ⟨e0, by simp, by simpa using he0⟩
    | succ i =>
      obtain ⟨e, h1, h2⟩ := hall i (by omega)
      exact ⟨e, by simpa using h1, by rwa [show i0 + (i + 1) = i0 + 1 + i by omega]⟩

theorem load_u8_lt (mem : List byte) (ofs v : Nat) (h : load_u8 mem ofs = some v) : v < 256 := by
  unfold load_u8 at h
  cases hb : mem[ofs]? with
  | none => simp [hb] at h
  | some b =>
    simp [hb] at h
    rw [← h]; exact b.isLt

theorem u8_val_of_lt (v : Nat) (h : v < 256) : (u8 v).val = v := by
  simp [u8, Nat.mod_eq_of_lt h]

theorem load_hpi_file_data_type_lt (mem : List byte) (ofs : Nat) (fr : hpi_file_data)
    (h : load_hpi_file_data mem ofs = some fr) : fr.compression_type < 256 := by
  unfold load_hpi_file_data at h
  split at h
  · rename_i h8
    cases h
    exact load_u8_lt _ _ _ h8
  · cases h

theorem str_size_found (buffer : List byte) (first name_size : Nat)
    (h : str_size buffer first = .ok name_size) (hn : name_size ≠ npos) :
    buffer[first + name_size]? = some 0 ∧
      ∀ j, j < name_size → ∃ b, buffer[first + j]? = some b ∧ b ≠ 0 := by
  unfold str_size at h
  split at h
  · cases h
    obtain ⟨k, hk, h0, hj⟩ := str_size_loop_found _ 0 _ rfl hn
    rw [Nat.zero_add] at hk
    rw [hk]
    exact ⟨by rw [← getElem?_drop_byte]; exact h0,
      fun j hjk => by rw [← getElem?_drop_byte]; exact hj j (by omega)⟩
  · cases h

theorem make_arch_entry_ok (fuel : Nat) (entry : hpi_arch_entry) (buffer : List byte)
    (e : arch_entry) (h : make_arch_entry fuel entry buffer = .ok e) :
    (∃ k, buffer[entry.name_offset + k]? = some 0 ∧
      (∀ j, j < k → ∃ b, buffer[entry.name_offset + j]? = some b ∧ b ≠ 0) ∧
      e.name = (buffer.drop entry.name_offset).take k) ∧
    (entry.is_path = 0 → ∃ fr, load_hpi_file_data buffer entry.data_offset = some fr ∧
      e.data = .file ⟨fr.data_offset, fr.file_size, fr.compression_type⟩) ∧
    (entry.is_path ≠ 0 → ∃ pr sub fuel1, load_hpi_path_data buffer entry.data_offset = some pr ∧
      make_path_data fuel1 pr buffer = .ok sub ∧ e.data = .path sub) := by
  constructor
  · obtain ⟨name_size, hs, hne, hname⟩ := make_arch_entry_name _ _ _ _ h
    obtain ⟨h0, hj⟩ := str_size_found _ _ _ hs hne
    exact ⟨name_size, h0, hj, hname⟩
  · cases fuel with
    | zero => simp [make_arch_entry] at h
    | succ fuel =>
      rw [make_arch_entry, outcome_bind_eq_ok] at h
      obtain ⟨name_size, hs, h⟩ := h
      simp only at h
      split at h
      · cases h
      · split at h
        · rename_i hp
          split at h
          · cases h
          · simp only [outcome_bind_eq_ok, load_eq_ok] at h
            obtain ⟨pr, hpr, sub, hsub, h⟩ := h
            cases h
            exact ⟨fun h0 => absurd h0 hp, fun _ => ⟨pr, sub, fuel, hpr, hsub, rfl⟩⟩
        · rename_i hp
          split at h
          · cases h
          · simp only [outcome_bind_eq_ok, load_eq_ok] at h
            obtain ⟨fr, hfr, h⟩ := h
            cases h
            refine ⟨fun _ => ⟨fr, hfr, ?_⟩, fun h0 => absurd h0 hp⟩
            simp only [arch_entry.data, make_file_data,
              u8_val_of_lt _ (load_hpi_file_data_type_lt _ _ _ hfr)]

/-- C1: when `make_path_data` succeeds for a PathRecord
`{number_of_entries = n, entry_list_offset = off}`, the directory has exactly
`n` entries in on-disk order, and for every `i < n` entry `i` is built from the
EntryRecord at blob offset `off + 9 * i`: its name is the bytes from
`name_offset` up to the first NUL; with `is_path = 0` its body is a File whose
offset, size and compression are those of the FileRecord at `data_offset`;
otherwise its body is the Directory parsed from the PathRecord at
`data_offset`. -/
theorem make_path_data_entries (fuel : Nat) (path : hpi_path_data) (buffer : List byte)
    (pd : path_data) (h : make_path_data fuel path buffer = .ok pd) :
    pd.entries.length = path.number_of_entries ∧
    ∀ i, i < path.number_of_entries →
      ∃ rec e, load_hpi_arch_entry buffer (path.entry_list_offset + 9 * i) = some rec ∧
        pd.entries[i]? = some e ∧
        (∃ k, buffer[rec.name_offset + k]? = some 0 ∧
          (∀ j, j < k → ∃ b, buffer[rec.name_offset + j]? = some b ∧ b ≠ 0) ∧
          e.name = (buffer.drop rec.name_offset).take k) ∧
        (rec.is_path = 0 → ∃ fr, load_hpi_file_data buffer rec.data_offset = some fr ∧
          e.data = .file ⟨fr.data_offset, fr.file_size, fr.compression_type⟩) ∧
        (rec.is_path ≠ 0 → ∃ pr sub fuel1, load_hpi_path_data buffer rec.data_offset = some pr ∧
          make_path_data fuel1 pr buffer = .ok sub ∧ e.data = .path sub) := by
  cases fuel with
  | zero => simp [make_path_data] at h
  | succ fuel =>
    rw [make_path_data] at h
    split at h
    · cases h
    · rw [outcome_bind_eq_ok] at h
      obtain ⟨v, hv, h⟩ := h
      cases h
      obtain ⟨hlen, hall⟩ := make_entries_ok _ _ _ _ hv
      refine ⟨hlen, ?_⟩
      intro i hi
      obtain ⟨e, he, hbody⟩ := hall i hi
      rw [outcome_bind_eq_ok] at hbody
      obtain ⟨rec, hrec, hmake⟩ := hbody
      rw [load_eq_ok, Nat.zero_add, sizeof_hpi_arch_entry, Nat.mul_comm] at hrec
      exact ⟨rec, e, hrec, he, make_arch_entry_ok _ _ _ _ hmake⟩

/-- C4, counterexample: opening the Scenario A archive throws the file
data-offset exception for every fuel that lets the parser reach the entry, and
succeeds for no fuel at all. -/
theorem scenario_A_open_fails :
    (∀ fuel, hpi_archive.fresh.open_ (fuel + 2) (istream.fresh scenario_A)
      = .throw (.file_data_offset 51 42)) ∧
    ¬ ∃ fuel a, hpi_archive.fresh.open_ fuel (istream.fresh scenario_A) = .ok a := by
  have h : ∀ fuel, hpi_archive.fresh.open_ (fuel + 2) (istream.fresh scenario_A)
      = .throw (.file_data_offset 51 42) := fun fuel => rfl
  refine ⟨h, ?_⟩
  rintro ⟨fuel, a, ha⟩
  match fuel, ha with
  | 0, ha => cases ha
  | 1, ha => cases ha
  | n + 2, ha => rw [h] at ha; cases ha

/-- C4, amended: opening the Scenario A archive throws the file data-offset
exception, because the FileRecord at offset 42 would end at 51, past
`directory_size = 42`; with `directory_size = 51` and a FileRecord at offset
42 the open succeeds and the root directory contains exactly one entry, named
"A", whose body is a File. -/
theorem scenario_A_amended (fuel : Nat) :
    hpi_archive.fresh.open_ (fuel + 2) (istream.fresh scenario_A)
      = .throw (.file_data_offset 51 42) ∧
    hpi_archive.fresh.open_ (fuel + 2) (istream.fresh scenario_A_51)
      = .ok ⟨⟨scenario_A_51, 51, false⟩, .mk [.mk [65] (.file ⟨51, 5, 0⟩)], 0⟩ :=
  ⟨rfl, rfl⟩

/-- C3, the code at two failing inputs: with `directory_start = 20` past
`directory_size = 0` the directory read stores a byte outside the blob before
the root-directory check runs, and with `name_offset = 200` past the 51-byte
blob `str_size` reads outside the blob; neither open ends in an exception. -/
theorem open_touches_memory_outside_blob :
    (∀ fuel, hpi_archive.fresh.open_ fuel (istream.fresh start_past_blob) = .oob) ∧
    (∀ fuel, hpi_archive.fresh.open_ (fuel + 2) (istream.fresh name_past_blob) = .oob) :=
  ⟨fun _ => rfl, fun _ => rfl⟩

/-- Witness of C1: the directory of `scenario_A_51` parses to one entry. -/
theorem make_path_data_entries_witness :
    make_path_data 2 ⟨1, 28⟩ scenario_A_51_blob = .ok (.mk [.mk [65] (.file ⟨51, 5, 0⟩)]) ∧
    (path_data.mk [.mk [65] (.file ⟨51, 5, 0⟩)]).entries.length = 1 :=
  ⟨rfl, (make_path_data_entries 2 ⟨1, 28⟩ scenario_A_51_blob _ rfl).1⟩

/-- Witness of C5: an entry whose name runs to the end of the blob, an entry
whose name is terminated, and an archive whose open throws for the
unterminated name. -/
theorem entry_name_terminator_witness :
    (50 ≤ (scenario_A_51_blob.set 50 1).length ∧
      make_arch_entry 1 ⟨50, 42, 0⟩ (scenario_A_51_blob.set 50 1)
        = .throw .unterminated_entry_name) ∧
    (37 ≤ scenario_A_51_blob.length ∧ str_size scenario_A_51_blob 37 = .ok 1) ∧
    (∀ fuel, hpi_archive.fresh.open_ (fuel + 2) (istream.fresh unterminated_name)
      = .throw .unterminated_entry_name) :=
  ⟨⟨by decide, ((entry_name_terminator 0 ⟨50, 42, 0⟩ (scenario_A_51_blob.set 50 1) (by decide)).1
      (by
        intro i h1 h2
        have h3 : i < 51 := h2
        have h5 : 50 ≤ i := h1
        have h4 : i = 50 := by omega
        subst h4
        decide)).2.1⟩,
   ⟨by decide, ((entry_name_terminator 0 ⟨37, 42, 0⟩ scenario_A_51_blob (by decide)).2 1 (by decide)
      (by
        intro j hj
        have h4 : j = 0 := by omega
        subst h4
        decide)).1⟩,
   fun _ => rfl⟩

theorem str_to_uppercase_eq (s : List byte) : str_to_uppercase s = s.map ascii_upper := rfl

theorem name_pred_iff (comp : List byte) (e : arch_entry) :
    name_pred comp e = true ↔ e.name.map ascii_upper = comp.map ascii_upper := by
  simp [name_pred, str_to_uppercase_eq]

theorem find_first_match (l : List arch_entry) (comp : List byte) (e : arch_entry) :
    l.find? (name_pred comp) = some e ↔
      ∃ i, l[i]? = some e ∧ e.name.map ascii_upper = comp.map ascii_upper ∧
        ∀ (j : Nat) (e1 : arch_entry), j < i → l[j]? = some e1 →
          e1.name.map ascii_upper ≠ comp.map ascii_upper := by
  induction l with
  | nil => simp
  | cons a rest ih =>
    rw [List.find?_cons]
    by_cases ha : name_pred comp a = true
    · rw [ha]
      simp only [Option.some.injEq]
      constructor
      · intro h
        subst h
        exact ⟨0, by simp, (name_pred_iff _ _).1 ha, fun j e1 hj => absurd hj (Nat.not_lt_zero _)⟩
      · rintro ⟨i, hi, _, hprev⟩
        cases i with
        | zero => simpa using hi
        | succ i => exact absurd ((name_pred_iff _ _).1 ha) (hprev 0 a (Nat.succ_pos _) (by simp))
    · have ha' : name_pred comp a = false := by simpa using ha
      rw [ha']
      simp only
      rw [ih]
      constructor
      · rintro ⟨i, hi, hm, hprev⟩
        refine ⟨i + 1, by simpa using hi, hm, ?_⟩
        intro j e1 hj hje
        cases j with
        | zero =>
          simp at hje
          subst hje
          exact fun h => ha ((name_pred_iff _ _).2 h)
        | succ j => exact hprev j e1 (by omega) (by simpa using hje)
      · rintro ⟨i, hi, hm, hprev⟩
        cases i with
        | zero =>
          simp at hi
          subst hi
          exact absurd ((name_pred_iff _ _).2 hm) ha
        | succ i =>
          exact ⟨i, by simpa using hi, hm, fun j e1 hj hje =>
            hprev (j + 1) e1 (by omega) (by simpa using hje)⟩

theorem find_eq_some_iff (d : path_data) (comp : List byte) (e : arch_entry) :
    d.entries.find? (name_pred comp) = some e ↔ FirstMatch d comp e :=
  find_first_match _ _ _

theorem first_match_unique {d : path_data} {comp : List byte} {e1 e2 : arch_entry}
    (h1 : FirstMatch d comp e1) (h2 : FirstMatch d comp e2) : e1 = e2 := by
  rw [← find_eq_some_iff] at h1 h2
  rw [h1] at h2
  exact Option.some.inj h2

theorem descend_opt_ok (d : path_data) (comps : List (List byte)) :
    ∃ r, descend true d comps = .ok r := by
  induction comps generalizing d with
  | nil => exact ⟨_, rfl⟩
  | cons c rest ih =>
    rw [descend]
    cases hf : d.entries.find? (name_pred c) with
    | none => exact ⟨_, rfl⟩
    | some e =>
      simp only
      cases hd : e.data with
      | file fd => exact ⟨_, rfl⟩
      | path sub => exact ih sub

theorem descend_opt_some (d : path_data) (comps : List (List byte)) (t : path_data) :
    descend true d comps = .ok (some t) ↔ Reaches d comps t := by
  induction comps generalizing d with
  | nil =>
    rw [descend]
    constructor
    · intro h
      cases h
      exact .here _
    · intro h
      cases h
      rfl
  | cons c rest ih =>
    rw [descend]
    constructor
    · intro h
      cases hf : d.entries.find? (name_pred c) with
      | none => rw [hf] at h; cases h
      | some e =>
        rw [hf] at h
        simp only at h
        cases hd : e.data with
        | file fd => rw [hd] at h; simp at h
        | path sub =>
          rw [hd] at h
          exact .step ((find_eq_some_iff _ _ _).1 hf) hd ((ih sub).1 h)
    · intro h
      cases h with
      | step hm hd hr =>
        rw [(find_eq_some_iff _ _ _).2 hm]
        simp only
        rw [hd]
        exact (ih _).2 hr

theorem reaches_unique {d t1 t2 : path_data} {comps : List (List byte)}
    (h1 : Reaches d comps t1) (h2 : Reaches d comps t2) : t1 = t2 := by
  rw [← descend_opt_some] at h1 h2
  rw [h1] at h2
  cases h2
  rfl

theorem str_split_internal_last (chrs : List byte) (rest cur : List byte) :
    ∃ comps back, str_split_internal chrs cur rest = comps ++ [back] := by
  induction rest generalizing cur with
  | nil => exact ⟨[], cur, rfl⟩
  | cons c rest ih =>
    rw [str_split_internal]
    split
    · obtain ⟨comps, back, h⟩ := ih []
      exact ⟨cur :: comps, back, by rw [h]; rfl⟩
    · exact ih _

theorem str_split_last (str chrs : List byte) :
    ∃ comps back, str_split str chrs = comps ++ [back] :=
  str_split_internal_last _ _ _

theorem ascii_upper_val (c : byte) :
    (ascii_upper c).val = if 97 ≤ c.val ∧ c.val ≤ 122 then c.val - 32 else c.val := by
  unfold ascii_upper u8
  split
  · have := c.isLt
    show (c.val - 32) % 256 = c.val - 32
    omega
  · rfl

theorem ascii_lower_val (c : byte) :
    (ascii_lower c).val = if 65 ≤ c.val ∧ c.val ≤ 90 then c.val + 32 else c.val := by
  unfold ascii_lower u8
  split
  · have := c.isLt
    show (c.val + 32) % 256 = c.val + 32
    omega
  · rfl

theorem ascii_upper_idem (c : byte) : ascii_upper (ascii_upper c) = ascii_upper c := by
  apply Fin.ext
  rw [ascii_upper_val, ascii_upper_val]
  split_ifs <;> omega

theorem ascii_upper_lower (c : byte) : ascii_upper (ascii_lower c) = ascii_upper c := by
  apply Fin.ext
  rw [ascii_upper_val, ascii_lower_val, ascii_upper_val]
  split_ifs <;> omega

theorem ascii_upper_slash (c : byte) : ascii_upper c = 47 ↔ c = 47 := by
  rw [Fin.ext_iff, Fin.ext_iff, ascii_upper_val]
  show _ = 47 ↔ _ = 47
  split_ifs <;> omega

theorem ascii_lower_slash (c : byte) : ascii_lower c = 47 ↔ c = 47 := by
  rw [Fin.ext_iff, Fin.ext_iff, ascii_lower_val]
  show _ = 47 ↔ _ = 47
  split_ifs <;> omega

theorem str_split_internal_map (f : byte → byte) (hf : ∀ c, f c = 47 ↔ c = 47)
    (rest cur : List byte) :
    str_split_internal [47] (cur.map f) (rest.map f)
      = (str_split_internal [47] cur rest).map (List.map f) := by
  induction rest generalizing cur with
  | nil => rfl
  | cons c rest ih =>
    simp only [List.map_cons, str_split_internal, List.mem_singleton, hf]
    split
    · rw [List.map_cons, ← ih []]
      rfl
    · rw [← ih (cur ++ [c])]
      simp

theorem str_split_map (f : byte → byte) (hf : ∀ c, f c = 47 ↔ c = 47) (p : List byte) :
    str_split (p.map f) [47] = (str_split p [47]).map (List.map f) :=
  str_split_internal_map f hf p []

theorem name_pred_map (f : byte → byte) (hf : ∀ c, ascii_upper (f c) = ascii_upper c)
    (comp : List byte) : name_pred (comp.map f) = name_pred comp := by
  funext e
  have : (comp.map f).map ascii_upper = comp.map ascii_upper := by
    rw [List.map_map]
    exact List.map_congr_left (fun c _ => hf c)
  simp only [name_pred, str_to_uppercase_eq, this]

theorem descend_map (opt : Bool) (f : byte → byte) (hf : ∀ c, ascii_upper (f c) = ascii_upper c)
    (comps : List (List byte)) (d : path_data) :
    descend opt d (comps.map (List.map f)) = descend opt d comps := by
  induction comps generalizing d with
  | nil => rfl
  | cons c rest ih =>
    simp only [List.map_cons, descend, name_pred_map f hf]
    cases d.entries.find? (name_pred c) with
    | none => rfl
    | some e =>
      simp only
      cases e.data with
      | file fd => rfl
      | path sub => exact ih sub

theorem find_file_inner_map (opt : Bool) (f : byte → byte)
    (hf : ∀ c, ascii_upper (f c) = ascii_upper c) (d : path_data) (name : List byte) :
    find_file_inner opt d (name.map f) = find_file_inner opt d name := by
  simp only [find_file_inner, name_pred_map f hf]

theorem find_file_map (opt : Bool) (f : byte → byte) (hf : ∀ c, ascii_upper (f c) = ascii_upper c)
    (hs : ∀ c, f c = 47 ↔ c = 47) (self : hpi_archive) (p : List byte) :
    self.find_file opt (p.map f) = self.find_file opt p := by
  unfold hpi_archive.find_file
  simp only [str_split_map f hs, ← List.map_dropLast, descend_map opt f hf, List.getLast?_map]
  cases descend opt self.root_path (str_split p [47]).dropLast with
  | ok r =>
    cases r with
    | none => rfl
    | some d =>
      simp only [Outcome.bind]
      cases (str_split p [47]).getLast? with
      | none => rfl
      | some back => simp only [Option.map, load, find_file_inner_map opt f hf]
  | throw e => rfl
  | oob => rfl
  | diverge => rfl

/-- C6: in either build, for every directory tree and every path `p` (every
ASCII path in particular), `find_file` returns the same result for `p`, for
`p` upper-cased and for `p` lower-cased, where the case maps change only ASCII
letters and leave '/' alone; on the archive of Scenario B the paths
"README.TXT", "ReadMe.Txt" and "readme.txt" all return its one File. -/
theorem find_file_case_insensitive (USE_STD_OPTIONAL : Bool) (self : hpi_archive) (p : List byte) :
    self.find_file USE_STD_OPTIONAL (p.map ascii_upper) = self.find_file USE_STD_OPTIONAL p ∧
    self.find_file USE_STD_OPTIONAL (p.map ascii_lower) = self.find_file USE_STD_OPTIONAL p ∧
    scenario_B.find_file USE_STD_OPTIONAL [82, 69, 65, 68, 77, 69, 46, 84, 88, 84]
      = .ok (some ⟨64, 12, 0⟩) ∧
    scenario_B.find_file USE_STD_OPTIONAL [82, 101, 97, 100, 77, 101, 46, 84, 120, 116]
      = .ok (some ⟨64, 12, 0⟩) ∧
    scenario_B.find_file USE_STD_OPTIONAL [114, 101, 97, 100, 109, 101, 46, 116, 120, 116]
      = .ok (some ⟨64, 12, 0⟩) :=
  ⟨find_file_map _ _ ascii_upper_idem ascii_upper_slash _ _,
   find_file_map _ _ ascii_upper_lower ascii_lower_slash _ _,
   by cases USE_STD_OPTIONAL <;> exact ⟨rfl, rfl, rfl⟩⟩

theorem find_eq_none_iff (d : path_data) (comp : List byte) :
    d.entries.find? (name_pred comp) = none ↔ ∀ e, ¬ FirstMatch d comp e := by
  constructor
  · intro h e he
    rw [← find_eq_some_iff, h] at he
    cases he
  · intro h
    cases hf : d.entries.find? (name_pred comp) with
    | none => rfl
    | some e => exact absurd ((find_eq_some_iff _ _ _).1 hf) (h e)

theorem reaches_append (d t : path_data) (pre post : List (List byte)) :
    Reaches d (pre ++ post) t ↔ ∃ m, Reaches d pre m ∧ Reaches m post t := by
  induction pre generalizing d with
  | nil =>
    constructor
    · intro h
      exact ⟨d, .here d, h⟩
    · rintro ⟨m, hm, h⟩
      cases hm
      exact h
  | cons c pre ih =>
    constructor
    · intro h
      cases h with
      | step hf hd hr =>
        obtain ⟨m, h1, h2⟩ := (ih _).1 hr
        exact ⟨m, .step hf hd h1, h2⟩
    · rintro ⟨m, hm, h⟩
      cases hm with
      | step hf hd hr => exact .step hf hd ((ih _).2 ⟨m, hr, h⟩)

theorem not_reaches_of_file {d0 d : path_data} {pre post : List (List byte)} {c : List byte}
    {e : arch_entry} {fd : file_data} (hpre : Reaches d0 pre d) (hm : FirstMatch d c e)
    (hd : e.data = .file fd) (t : path_data) : ¬ Reaches d0 (pre ++ c :: post) t := by
  intro h
  obtain ⟨m, h1, h2⟩ := (reaches_append _ _ _ _).1 h
  have := reaches_unique hpre h1
  subst this
  cases h2 with
  | step hf hd2 _ =>
    have := first_match_unique hm hf
    subst this
    rw [hd] at hd2
    cases hd2

theorem not_reaches_of_no_match {d0 d : path_data} {pre post : List (List byte)} {c : List byte}
    (hpre : Reaches d0 pre d) (hm : ∀ e, ¬ FirstMatch d c e) (t : path_data) :
    ¬ Reaches d0 (pre ++ c :: post) t := by
  intro h
  obtain ⟨m, h1, h2⟩ := (reaches_append _ _ _ _).1 h
  have := reaches_unique hpre h1
  subst this
  cases h2 with
  | step hf _ _ => exact hm _ hf

theorem not_reaches_iff (d : path_data) (comps : List (List byte)) :
    (¬ ∃ t, Reaches d comps t) ↔
      ∃ pre c post m, comps = pre ++ c :: post ∧ Reaches d pre m ∧
        ¬ ∃ e sub, FirstMatch m c e ∧ e.data = .path sub := by
  constructor
  · induction comps generalizing d with
    | nil => intro h; exact absurd ⟨d, .here d⟩ h
    | cons c rest ih =>
      intro h
      by_cases hc : ∃ e sub, FirstMatch d c e ∧ e.data = .path sub
      · obtain ⟨e, sub, hf, hd⟩ := hc
        have hsub : ¬ ∃ t, Reaches sub rest t := by
          rintro ⟨t, ht⟩
          exact h ⟨t, .step hf hd ht⟩
        obtain ⟨pre, c1, post, m, h1, h2, h3⟩ := ih sub hsub
        exact ⟨c :: pre, c1, post, m, by rw [h1]; rfl, .step hf hd h2, h3⟩
      · exact ⟨[], c, rest, d, rfl, .here d, hc⟩
  · rintro ⟨pre, c, post, m, h1, h2, h3⟩ ⟨t, ht⟩
    subst h1
    obtain ⟨m1, h4, h5⟩ := (reaches_append _ _ _ _).1 ht
    have := reaches_unique h2 h4
    subst this
    cases h5 with
    | step hf hd _ => exact h3 ⟨_, _, hf, hd⟩

theorem descend_opt_none (d : path_data) (comps : List (List byte)) :
    descend true d comps = .ok none ↔ ¬ ∃ t, Reaches d comps t := by
  obtain ⟨r, hr⟩ := descend_opt_ok d comps
  constructor
  · rintro h ⟨t, ht⟩
    rw [(descend_opt_some _ _ _).2 ht] at h
    cases h
  · intro h
    cases r with
    | none => exact hr
    | some t => exact absurd ⟨t, (descend_opt_some _ _ _).1 hr⟩ h

theorem find_file_inner_opt_ok (d : path_data) (name : List byte) :
    ∃ r, find_file_inner true d name = .ok r := by
  unfold find_file_inner
  cases d.entries.find? (name_pred name) with
  | none => exact ⟨_, rfl⟩
  | some e =>
    simp only
    cases e.data with
    | file fd => exact ⟨_, rfl⟩
    | path sub => exact ⟨_, rfl⟩

theorem find_file_inner_opt_some (d : path_data) (name : List byte) (fd : file_data) :
    find_file_inner true d name = .ok (some fd) ↔ ∃ e, FirstMatch d name e ∧ e.data = .file fd := by
  unfold find_file_inner
  constructor
  · intro h
    cases hf : d.entries.find? (name_pred name) with
    | none => rw [hf] at h; cases h
    | some e =>
      rw [hf] at h
      simp only at h
      cases hd : e.data with
      | file fd1 =>
        rw [hd] at h
        simp only [Outcome.ok.injEq, Option.some.injEq] at h
        subst h
        exact ⟨e, (find_eq_some_iff _ _ _).1 hf, hd⟩
      | path sub => rw [hd] at h; simp at h
  · rintro ⟨e, hf, hd⟩
    rw [(find_eq_some_iff _ _ _).2 hf]
    simp only
    rw [hd]

theorem find_file_split (opt : Bool) (self : hpi_archive) (p : List byte)
    (comps : List (List byte)) (back : List byte) (h : str_split p [47] = comps ++ [back]) :
    self.find_file opt p = (descend opt self.root_path comps).bind fun r =>
      match r with
      | none => .ok none
      | some d => find_file_inner opt d back := by
  unfold hpi_archive.find_file
  simp only [h, List.dropLast_concat, List.getLast?_concat]
  cases descend opt self.root_path comps with
  | ok r => cases r <;> rfl
  | throw e => rfl
  | oob => rfl
  | diverge => rfl

/-- The `USE_STD_OPTIONAL` build of `find_file` never throws, and it
returns a descriptor exactly when every intermediate component resolves (first
case-insensitive match) to a directory and the last component resolves to a
file, which is the descriptor returned; when an intermediate component matches
a file entry or nothing, or the last component matches a directory entry or
nothing, the result is the empty optional. -/
theorem find_file_descriptor (self : hpi_archive) (p : List byte) :
    (∃ r, self.find_file true p = .ok r) ∧
    (∃ comps back, str_split p [47] = comps ++ [back]) ∧
    ∀ comps back, str_split p [47] = comps ++ [back] →
      (∀ fd, self.find_file true p = .ok (some fd) ↔
        ∃ d e, Reaches self.root_path comps d ∧ FirstMatch d back e ∧ e.data = .file fd) ∧
      (∀ pre c post d e fd, comps = pre ++ c :: post → Reaches self.root_path pre d →
        FirstMatch d c e → e.data = .file fd → self.find_file true p = .ok none) ∧
      (∀ pre c post d, comps = pre ++ c :: post → Reaches self.root_path pre d →
        (∀ e, ¬ FirstMatch d c e) → self.find_file true p = .ok none) ∧
      (∀ d e sub, Reaches self.root_path comps d → FirstMatch d back e → e.data = .path sub →
        self.find_file true p = .ok none) ∧
      (∀ d, Reaches self.root_path comps d → (∀ e, ¬ FirstMatch d back e) →
        self.find_file true p = .ok none) := by
  obtain ⟨comps0, back0, h0⟩ := str_split_last p [47]
  have hiff : ∀ comps back, str_split p [47] = comps ++ [back] →
      ∀ fd, self.find_file true p = .ok (some fd) ↔
        ∃ d e, Reaches self.root_path comps d ∧ FirstMatch d back e ∧ e.data = .file fd := by
    intro comps back h fd
    rw [find_file_split true self p comps back h, outcome_bind_eq_ok]
    constructor
    · rintro ⟨r, hr, hin⟩
      cases r with
      | none => cases hin
      | some d =>
        obtain ⟨e, he, hd⟩ := (find_file_inner_opt_some _ _ _).1 hin
        exact ⟨d, e, (descend_opt_some _ _ _).1 hr, he, hd⟩
    · rintro ⟨d, e, hr, he, hd⟩
      exact ⟨some d, (descend_opt_some _ _ _).2 hr, (find_file_inner_opt_some _ _ _).2 ⟨e, he, hd⟩⟩
  have hok : ∃ r, self.find_file true p = .ok r := by
    rw [find_file_split true self p comps0 back0 h0]
    obtain ⟨r, hr⟩ := descend_opt_ok self.root_path comps0
    rw [hr]
    cases r with
    | none => exact ⟨_, rfl⟩
    | some d => exact find_file_inner_opt_ok d back0
  have hnone : ∀ comps back, str_split p [47] = comps ++ [back] →
      (¬ ∃ fd d e, Reaches self.root_path comps d ∧ FirstMatch d back e ∧ e.data = .file fd) →
      self.find_file true p = .ok none := by
    intro comps back h hno
    obtain ⟨r, hr⟩ := hok
    cases r with
    | none => exact hr
    | some fd => exact absurd ⟨fd, (hiff comps back h fd).1 hr⟩ hno
  refine ⟨hok, ⟨comps0, back0, h0⟩, ?_⟩
  intro comps back h
  refine ⟨hiff comps back h, ?_, ?_, ?_, ?_⟩
  · intro pre c post d e fd hc hpre hm hd
    apply hnone comps back h
    rintro ⟨fd1, d1, e1, hr, _, _⟩
    rw [hc] at hr
    exact not_reaches_of_file hpre hm hd _ hr
  · intro pre c post d hc hpre hm
    apply hnone comps back h
    rintro ⟨fd1, d1, e1, hr, _, _⟩
    rw [hc] at hr
    exact not_reaches_of_no_match hpre hm _ hr
  · intro d e sub hr hm hd
    apply hnone comps back h
    rintro ⟨fd1, d1, e1, hr1, hm1, hd1⟩
    have := reaches_unique hr hr1
    subst this
    have := first_match_unique hm hm1
    subst this
    rw [hd] at hd1
    cases hd1
  · intro d hr hm
    apply hnone comps back h
    rintro ⟨fd1, d1, e1, hr1, hm1, _⟩
    have := reaches_unique hr hr1
    subst this
    exact hm _ hm1

theorem str_split_internal_no_sep (rest cur : List byte) (h : (47 : byte) ∉ rest) :
    str_split_internal [47] cur rest = [cur ++ rest] := by
  induction rest generalizing cur with
  | nil => simp [str_split_internal]
  | cons c rest ih =>
    have hc : c ≠ 47 := fun hc => h (by simp [hc])
    have hr : (47 : byte) ∉ rest := fun hr => h (List.mem_cons_of_mem _ hr)
    simp only [str_split_internal, List.mem_singleton, hc, if_false]
    rw [ih _ hr]
    simp

/-- The `USE_STD_OPTIONAL` build of `find_path` never throws; for a path
with components `c_0 .. c_{n-1}` it returns exactly the directory reached from
the root by descending `c_0 .. c_{n-2}` with case-insensitive matching, and
not-found exactly when some intermediate component fails to resolve to a
directory; the result does not depend on the last component, a path without
'/' returns the root, and on the tree of Scenario F `find_path("a/B/c.dat")`
returns directory `B`. -/
theorem find_path_parent (self : hpi_archive) (p : List byte) :
    (∃ r, self.find_path true p = .ok r) ∧
    (∃ comps back, str_split p [47] = comps ++ [back]) ∧
    (∀ comps back, str_split p [47] = comps ++ [back] →
      (∀ d, self.find_path true p = .ok (some d) ↔ Reaches self.root_path comps d) ∧
      (self.find_path true p = .ok none ↔
        ∃ pre c post m, comps = pre ++ c :: post ∧ Reaches self.root_path pre m ∧
          ¬ ∃ e sub, FirstMatch m c e ∧ e.data = .path sub) ∧
      (∀ opt q back1, str_split q [47] = comps ++ [back1] →
        self.find_path opt q = self.find_path opt p)) ∧
    (∀ opt, (47 : byte) ∉ p → self.find_path opt p = .ok (some self.root_path)) ∧
    (∀ opt, scenario_F.find_path opt [97, 47, 66, 47, 99, 46, 100, 97, 116]
      = .ok (some scenario_F_B)) := by
  obtain ⟨comps0, back0, h0⟩ := str_split_last p [47]
  refine ⟨?_, ⟨comps0, back0, h0⟩, ?_, ?_, ?_⟩
  · exact descend_opt_ok _ _
  · intro comps back h
    have hp : ∀ opt, self.find_path opt p = descend opt self.root_path comps := by
      intro opt
      unfold hpi_archive.find_path
      simp only [h, List.dropLast_concat]
    refine ⟨?_, ?_, ?_⟩
    · intro d
      rw [hp]
      exact descend_opt_some _ _ _
    · rw [hp, descend_opt_none, not_reaches_iff]
    · intro opt q back1 hq
      rw [hp]
      unfold hpi_archive.find_path
      simp only [hq, List.dropLast_concat]
  · intro opt hno
    unfold hpi_archive.find_path str_split
    rw [str_split_internal_no_sep _ _ hno]
    rfl
  · intro opt
    cases opt <;> rfl

theorem read_data (s : istream) (n : Nat) : (s.read n).2.data = s.data := by
  unfold istream.read
  split <;> rfl

theorem read_length_le (s : istream) (n : Nat) : (s.read n).1.length ≤ n := by
  unfold istream.read
  split
  · simp
  · simp only [List.length_take]
    omega

theorem read_good (s : istream) (n : Nat) (h : (s.read n).2.fail = false) :
    s.fail = false ∧ (s.read n).2.pos = s.pos + n ∧ (s.read n).1.length = n := by
  unfold istream.read at h ⊢
  by_cases hf : s.fail = true
  · simp [hf] at h
  · have hf' : s.fail = false := by simpa using hf
    simp only [hf', Bool.false_eq_true, if_false, decide_eq_false_iff_not, Nat.not_lt] at h ⊢
    have hle : ((s.data.drop s.pos).take n).length ≤ n := by
      simp only [List.length_take]; omega
    exact ⟨trivial, by omega, by omega⟩

theorem read_with_data (s : istream) (n q : Nat) (data : List byte)
    (hagree : ∀ k, k < q → data[k]? = s.data[k]?)
    (hq : s.fail = true ∨ s.pos + n ≤ q) :
    (s.with_data data).read n = ((s.read n).1, (s.read n).2.with_data data) := by
  unfold istream.read istream.with_data
  by_cases hf : s.fail = true
  · simp [hf]
  · have hf' : s.fail = false := by simpa using hf
    have hpos : s.pos + n ≤ q := by
      rcases hq with h | h
      · exact absurd h hf
      · exact h
    have htake : (data.drop s.pos).take n = (s.data.drop s.pos).take n := by
      apply List.ext_getElem?
      intro k
      simp only [List.getElem?_take, List.getElem?_drop]
      split
      · exact hagree _ (by omega)
      · rfl
    simp only [hf', Bool.false_eq_true, if_false, htake]

theorem tellg_with_data (s : istream) (data : List byte) : (s.with_data data).tellg = s.tellg := rfl

theorem read_decrypt_buffer_with_data (s : istream) (key : byte) (n q : Nat) (data : List byte)
    (hagree : ∀ k, k < q → data[k]? = s.data[k]?)
    (hq : s.fail = true ∨ s.pos + n ≤ q) :
    read_decrypt_buffer (s.with_data data) key n
      = ((read_decrypt_buffer s key n).1, (read_decrypt_buffer s key n).2.with_data data) := by
  unfold read_decrypt_buffer
  simp only [read_with_data s n q data hagree hq, tellg_with_data]

theorem read_decrypt_buffer_snd (s : istream) (key : byte) (n : Nat) :
    (read_decrypt_buffer s key n).2 = (s.read n).2 := rfl

theorem read_decrypt_raw_value_with_data (s : istream) (key : byte) (n q : Nat) (data : List byte)
    (hagree : ∀ k, k < q → data[k]? = s.data[k]?)
    (hq : s.fail = true ∨ s.pos + n ≤ q) :
    read_decrypt_raw_value (s.with_data data) key n
      = ((read_decrypt_raw_value s key n).1, (read_decrypt_raw_value s key n).2.with_data data) := by
  unfold read_decrypt_raw_value
  simp only [read_decrypt_buffer_with_data s key n q data hagree hq]

theorem read_decrypt_raw_value_snd (s : istream) (key : byte) (n : Nat) :
    (read_decrypt_raw_value s key n).2 = (s.read n).2 := rfl

theorem read_decrypt_raw_array_with_data (s : istream) (key : byte) (m n q : Nat) (data : List byte)
    (hagree : ∀ k, k < q → data[k]? = s.data[k]?)
    (hq : s.fail = true ∨ s.pos + m * n ≤ q) :
    read_decrypt_raw_array (s.with_data data) key m n
      = ((read_decrypt_raw_array s key m n).1, (read_decrypt_raw_array s key m n).2.with_data data) := by
  unfold read_decrypt_raw_array
  simp only [read_decrypt_buffer_with_data s key (m * n) q data hagree hq]

/-- What a successful round of the chunk loop read: the header and the stream
it leaves. -/
theorem extract_chunk_ok (p : platform) (fuel : Nat) (key : byte) (file : file_data) (i : Nat)
    (s s1 : extract_state) (h : extract_chunk p fuel key file i s = .ok s1) :
    ∃ hdr, load_hpi_chunk (read_decrypt_raw_value s.stream key sizeof_hpi_chunk).1 0 = some hdr ∧
      s1.stream = (read_decrypt_buffer (read_decrypt_raw_value s.stream key sizeof_hpi_chunk).2 key
        hdr.compressed_size).2 := by
  unfold extract_chunk at h
  simp only [outcome_bind_eq_ok, load_eq_ok] at h
  obtain ⟨hdr, hload, h⟩ := h
  refine ⟨hdr, hload, ?_⟩
  split at h
  · cases h
  · split at h
    · cases h
    · split at h
      · cases h
      · simp only [outcome_bind_eq_ok] at h
        obtain ⟨buffer, _, h⟩ := h
        cases h
        rfl

theorem extract_chunk_stream (p : platform) (fuel : Nat) (key : byte) (file : file_data) (i : Nat)
    (s s1 : extract_state) (h : extract_chunk p fuel key file i s = .ok s1) :
    s1.stream.data = s.stream.data ∧
    (s1.stream.fail = false → s.stream.fail = false ∧ s.stream.pos ≤ s1.stream.pos) := by
  obtain ⟨hdr, _, hs⟩ := extract_chunk_ok _ _ _ _ _ _ _ h
  rw [hs, read_decrypt_buffer_snd, read_decrypt_raw_value_snd]
  refine ⟨by rw [read_data, read_data], ?_⟩
  intro hf
  obtain ⟨h1, h2, _⟩ := read_good _ _ hf
  obtain ⟨h3, h4, _⟩ := read_good _ _ h1
  exact ⟨h3, by omega⟩

theorem extract_chunks_stream (p : platform) (fuel : Nat) (key : byte) (file : file_data) :
    ∀ (n i : Nat) (s s1 : extract_state), extract_chunks p fuel key file n i s = .ok s1 →
      s1.stream.data = s.stream.data ∧
      (s1.stream.fail = false → s.stream.fail = false ∧ s.stream.pos ≤ s1.stream.pos) := by
  intro n
  induction n with
  | zero =>
    intro i s s1 h
    simp only [extract_chunks] at h
    cases h
    exact ⟨rfl, fun h => ⟨h, Nat.le_refl _⟩⟩
  | succ n ih =>
    intro i s s1 h
    rw [extract_chunks, outcome_bind_eq_ok] at h
    obtain ⟨sm, h1, h2⟩ := h
    obtain ⟨hd1, hm1⟩ := extract_chunk_stream _ _ _ _ _ _ _ h1
    obtain ⟨hd2, hm2⟩ := ih _ _ _ h2
    refine ⟨by rw [hd2, hd1], ?_⟩
    intro hf
    obtain ⟨h3, h4⟩ := hm2 hf
    obtain ⟨h5, h6⟩ := hm1 h3
    exact ⟨h5, by omega⟩

theorem extract_chunk_with_data (p : platform) (fuel : Nat) (key : byte) (file : file_data)
    (i q : Nat) (data : List byte) (s s1 : extract_state)
    (h : extract_chunk p fuel key file i s = .ok s1)
    (hagree : ∀ k, k < q → data[k]? = s.stream.data[k]?)
    (hf : s1.stream.fail = false) (hq : s1.stream.pos ≤ q) :
    extract_chunk p fuel key file i (s.with_data data) = .ok (s1.with_data data) := by
  obtain ⟨hdr, hload, hs⟩ := extract_chunk_ok _ _ _ _ _ _ _ h
  have hf2 := hf
  rw [hs, read_decrypt_buffer_snd] at hf2
  obtain ⟨g1, g2, _⟩ := read_good _ _ hf2
  have g1' := g1
  rw [read_decrypt_raw_value_snd] at g1'
  obtain ⟨g3, g4, _⟩ := read_good _ _ g1'
  have hpos : s1.stream.pos = s.stream.pos + sizeof_hpi_chunk + hdr.compressed_size := by
    rw [hs, read_decrypt_buffer_snd, g2, read_decrypt_raw_value_snd, g4]
  have e1 := read_decrypt_raw_value_with_data s.stream key sizeof_hpi_chunk q data hagree
    (Or.inr (by omega))
  have e2 := read_decrypt_buffer_with_data (read_decrypt_raw_value s.stream key sizeof_hpi_chunk).2
    key hdr.compressed_size q data
    (by rw [read_decrypt_raw_value_snd, read_data]; exact hagree)
    (Or.inr (by rw [read_decrypt_raw_value_snd, g4]; omega))
  unfold extract_chunk at h ⊢
  simp only [extract_state.with_data, e1, hload, load, Outcome.bind] at h ⊢
  by_cases hm : hdr.magic ≠ HPI_CHUNK_MAGIC_NUMBER
  · rw [if_pos hm] at h; cases h
  · rw [if_neg hm] at h ⊢
    by_cases hsz : s.buffer_offset + hdr.decompressed_size > file.size
    · rw [if_pos hsz] at h; cases h
    · rw [if_neg hsz] at h ⊢
      simp only [e2]
      split at h
      · cases h
      · rename_i hsum
        rw [if_neg hsum]
        cases hsw : chunk_switch p fuel i hdr
            (if hdr.encoded ≠ 0 then
              decode_chunk_buffer p.char_signed
                (object_bytes (read_decrypt_buffer
                  (read_decrypt_raw_value s.stream key sizeof_hpi_chunk).2 key hdr.compressed_size).1
                  hdr.compressed_size)
            else object_bytes (read_decrypt_buffer
                  (read_decrypt_raw_value s.stream key sizeof_hpi_chunk).2 key hdr.compressed_size).1
                  hdr.compressed_size) s.buffer s.buffer_offset with
        | ok buffer =>
          rw [hsw] at h
          simp only at h
          cases h
          rfl
        | throw e => rw [hsw] at h; cases h
        | oob => rw [hsw] at h; cases h
        | diverge => rw [hsw] at h; cases h

theorem extract_chunks_with_data (p : platform) (fuel : Nat) (key : byte) (file : file_data)
    (q : Nat) (data : List byte) :
    ∀ (n i : Nat) (s s1 : extract_state), extract_chunks p fuel key file n i s = .ok s1 →
      (∀ k, k < q → data[k]? = s.stream.data[k]?) → s1.stream.fail = false → s1.stream.pos ≤ q →
      extract_chunks p fuel key file n i (s.with_data data) = .ok (s1.with_data data) := by
  intro n
  induction n with
  | zero =>
    intro i s s1 h _ _ _
    simp only [extract_chunks] at h ⊢
    cases h
    rfl
  | succ n ih =>
    intro i s s1 h hagree hf hq
    rw [extract_chunks, outcome_bind_eq_ok] at h
    obtain ⟨sm, h1, h2⟩ := h
    obtain ⟨_, hm2⟩ := extract_chunks_stream _ _ _ _ _ _ _ _ h2
    obtain ⟨h3, h4⟩ := hm2 hf
    obtain ⟨hd1, _⟩ := extract_chunk_stream _ _ _ _ _ _ _ h1
    rw [extract_chunks, extract_chunk_with_data p fuel key file i q data s sm h1 hagree h3
      (by omega)]
    simp only [Outcome.bind]
    exact ih _ _ _ h2 (by rw [hd1]; exact hagree) hf hq

theorem extract_chunks_throw (p : platform) (fuel : Nat) (key : byte) (file : file_data)
    (e : exception) :
    ∀ (a k i0 : Nat) (s0 s : extract_state), extract_chunks p fuel key file a i0 s0 = .ok s →
      extract_chunk p fuel key file (i0 + a) s = .throw e →
      extract_chunks p fuel key file (a + (k + 1)) i0 s0 = .throw e := by
  intro a
  induction a with
  | zero =>
    intro k i0 s0 s h hthrow
    simp only [extract_chunks] at h
    cases h
    rw [Nat.zero_add, extract_chunks]
    rw [Nat.add_zero] at hthrow
    rw [hthrow]
    rfl
  | succ a ih =>
    intro k i0 s0 s h hthrow
    rw [extract_chunks, outcome_bind_eq_ok] at h
    obtain ⟨sm, h1, h2⟩ := h
    rw [show a + 1 + (k + 1) = (a + (k + 1)) + 1 by omega, extract_chunks, h1]
    simp only [Outcome.bind]
    exact ih k (i0 + 1) sm s h2 (by rwa [show i0 + 1 + a = i0 + (a + 1) by omega])

theorem checksum_foldl (l : List byte) (acc : Nat) :
    l.foldl (fun sum b => (sum + b.val) % U32) acc % U32 = (acc + (l.map Fin.val).sum) % U32 := by
  induction l generalizing acc with
  | nil => simp
  | cons b rest ih =>
    simp only [List.foldl_cons, List.map_cons, List.sum_cons]
    rw [ih]
    simp only [U32]
    omega

theorem checksum_foldl_lt (l : List byte) (acc : Nat) (h : acc < U32) :
    l.foldl (fun sum b => (sum + b.val) % U32) acc < U32 := by
  induction l generalizing acc with
  | nil => exact h
  | cons b rest ih =>
    simp only [List.foldl_cons]
    exact ih _ (Nat.mod_lt _ (by decide))

theorem compute_buffer_checksum_eq (l : List byte) :
    compute_buffer_checksum l = (l.map Fin.val).sum % U32 := by
  unfold compute_buffer_checksum
  rw [← Nat.mod_eq_of_lt (checksum_foldl_lt l 0 (by decide)), checksum_foldl, Nat.zero_add]

theorem checksum_change (X Y : List byte) (dx dy : byte) (h : dx ≠ dy) :
    compute_buffer_checksum (X ++ dx :: Y) ≠ compute_buffer_checksum (X ++ dy :: Y) := by
  rw [compute_buffer_checksum_eq, compute_buffer_checksum_eq]
  simp only [List.map_append, List.map_cons, List.sum_append, List.sum_cons, U32]
  have h1 := dx.isLt
  have h2 := dy.isLt
  have h3 : dx.val ≠ dy.val := fun hv => h (Fin.ext hv)
  omega

theorem decrypt_loop_append (key seed : byte) (l1 l2 : List byte) (i : Nat) :
    decrypt_loop key seed i (l1 ++ l2)
      = decrypt_loop key seed i l1 ++ decrypt_loop key seed (i + l1.length) l2 := by
  induction l1 generalizing i with
  | nil => simp [decrypt_loop]
  | cons b rest ih =>
    rw [List.cons_append, decrypt_loop, decrypt_loop, ih, List.length_cons,
      show i + 1 + rest.length = i + (rest.length + 1) by omega]
    rfl

theorem decrypt_byte_injective (c : Nat) (hc : c < 256) (x y : byte)
    (h : u8 (x.val ^^^ c) = u8 (y.val ^^^ c)) : x = y := by
  have hx : x.val ^^^ c < 256 := Nat.xor_lt_two_pow (n := 8) x.isLt hc
  have hy : y.val ^^^ c < 256 := Nat.xor_lt_two_pow (n := 8) y.isLt hc
  have hv := congrArg Fin.val h
  simp only [u8] at hv
  rw [Nat.mod_eq_of_lt hx, Nat.mod_eq_of_lt hy] at hv
  exact Fin.ext (Nat.xor_left_inj.1 hv)

theorem decrypt_buffer_change (key seed : byte) (A x y B : List byte) (a b : byte)
    (hx : x = A ++ a :: B) (hy : y = A ++ b :: B) (hab : a ≠ b) :
    ∃ X Y dx dy, dx ≠ dy ∧ X.length = A.length ∧ Y.length = B.length ∧
      (decrypt_buffer key seed x).2 = X ++ dx :: Y ∧
      (decrypt_buffer key seed y).2 = X ++ dy :: Y := by
  subst hx hy
  unfold decrypt_buffer
  by_cases hk : key = 0
  · simp only [hk, if_true]
    exact ⟨A, B, a, b, hab, rfl, rfl, rfl, rfl⟩
  · simp only [hk, if_false, decrypt_loop_append, decrypt_loop]
    refine ⟨_, _, _, _, ?_, ?_, ?_, rfl, rfl⟩
    · intro h
      apply hab
      refine decrypt_byte_injective _ ?_ a b h
      exact Nat.xor_lt_two_pow (n := 8) (Fin.isLt _) key.isLt
    · clear hab
      generalize (0 : Nat) = i
      induction A generalizing i with
      | nil => rfl
      | cons c rest ih => simp [decrypt_loop, ih]
    · clear hab
      generalize (0 + A.length + 1 : Nat) = i
      induction B generalizing i with
      | nil => rfl
      | cons c rest ih => simp [decrypt_loop, ih]

theorem take_drop_middle (pre post : List byte) (a : byte) (P n : Nat) (h1 : P ≤ pre.length)
    (h2 : pre.length < P + n) :
    ((pre ++ a :: post).drop P).take n
      = pre.drop P ++ a :: post.take (n - (pre.length - P) - 1) := by
  rw [List.drop_append_of_le_length h1, List.take_append_eq_append_take,
    List.take_of_length_le (by simp only [List.length_drop]; omega)]
  simp only [List.length_drop]
  obtain ⟨m, hm⟩ : ∃ m, n - (pre.length - P) = m + 1 := ⟨n - (pre.length - P) - 1, by omega⟩
  rw [hm, List.take_succ_cons]
  simp

theorem read_decrypt_buffer_change (data1 data2 pre post : List byte) (a b : byte) (key : byte)
    (P n : Nat) (hd1 : data1 = pre ++ a :: post) (hd2 : data2 = pre ++ b :: post) (hab : a ≠ b)
    (h1 : P ≤ pre.length) (h2 : pre.length < P + n) :
    ∃ X Y dx dy, dx ≠ dy ∧
      object_bytes (read_decrypt_buffer ⟨data1, P, false⟩ key n).1 n = X ++ dx :: Y ∧
      object_bytes (read_decrypt_buffer ⟨data2, P, false⟩ key n).1 n = X ++ dy :: Y := by
  subst hd1 hd2
  obtain ⟨X, Y, dx, dy, hne, hX, hY, e1, e2⟩ :=
    decrypt_buffer_change key (u8 ((⟨pre ++ a :: post, P, false⟩ : istream).tellg % 256).toNat)
      (pre.drop P) _ _ (post.take (n - (pre.length - P) - 1)) a b rfl rfl hab
  refine ⟨X, Y ++ List.replicate (n - (X.length + 1 + Y.length)) 0, dx, dy, hne, ?_, ?_⟩
  · simp only [read_decrypt_buffer, istream.read, Bool.false_eq_true, if_false,
      take_drop_middle _ _ _ _ _ h1 h2, object_bytes]
    rw [e1]
    simp [Nat.add_assoc]
    omega
  · simp only [read_decrypt_buffer, istream.read, Bool.false_eq_true, if_false,
      take_drop_middle _ _ _ _ _ h1 h2, object_bytes]
    have : (⟨pre ++ b :: post, P, false⟩ : istream).tellg
        = (⟨pre ++ a :: post, P, false⟩ : istream).tellg := rfl
    rw [this, e2]
    simp [Nat.add_assoc]
    omega

theorem read_failed (s : istream) (n : Nat) (h : s.fail = true) : s.read n = ([], s) := by
  simp [istream.read, h]

theorem read_decrypt_raw_value_failed (s : istream) (key : byte) (n : Nat) (h : s.fail = true) :
    (read_decrypt_raw_value s key n).1 = List.replicate n 0 := by
  simp only [read_decrypt_raw_value, read_decrypt_buffer, read_failed s n h, decrypt_buffer,
    object_bytes]
  split <;> simp [decrypt_loop]

theorem read_full (s : istream) (n : Nat) (hf : s.fail = false) (hn : s.pos + n ≤ s.data.length) :
    (s.read n).2 = ⟨s.data, s.pos + n, false⟩ := by
  have hl : ((s.data.drop s.pos).take n).length = n := by
    simp only [List.length_take, List.length_drop]; omega
  simp [istream.read, hf, hl]

theorem extract_start_stream (self : hpi_archive) (file : file_data) (buffer : List byte) :
    (extract_start self file buffer).stream
      = ((self.stream.seekg file.offset).read (4 * chunk_count file)).2 := rfl

theorem seekg_data (s : istream) (n : Nat) : (s.seekg n).data = s.data := by
  unfold istream.seekg
  split <;> rfl

theorem seekg_with_data (s : istream) (n : Nat) (data : List byte) :
    (s.with_data data).seekg n = (s.seekg n).with_data data := by
  unfold istream.seekg istream.with_data
  split <;> rfl

theorem extract_start_with_data (self : hpi_archive) (file : file_data) (buffer : List byte)
    (q : Nat) (data : List byte) (hagree : ∀ k, k < q → data[k]? = self.stream.data[k]?)
    (hf : (extract_start self file buffer).stream.fail = false)
    (hq : (extract_start self file buffer).stream.pos ≤ q) :
    extract_start (self.with_data data) file buffer
      = (extract_start self file buffer).with_data data := by
  rw [extract_start_stream] at hf hq
  obtain ⟨g1, g2, _⟩ := read_good _ _ hf
  unfold extract_start hpi_archive.with_data extract_state.with_data
  simp only [seekg_with_data]
  rw [read_decrypt_raw_array_with_data (self.stream.seekg file.offset) self.decrypt_key 4
    (chunk_count file) q data (by rw [seekg_data]; exact hagree) (Or.inr (by omega))]

theorem load_hpi_chunk_zero :
    load_hpi_chunk (List.replicate sizeof_hpi_chunk 0) 0 = some ⟨0, 0, 0, 0, 0, 0, 0⟩ := by
  decide

theorem append_cons_agree (pre post : List byte) (x y : byte) :
    ∀ k, k < pre.length → (pre ++ y :: post)[k]? = (pre ++ x :: post)[k]? := by
  intro k hk
  rw [List.getElem?_append_left hk, List.getElem?_append_left hk]

/-- C10: when the extraction of a compressed file reaches chunk `i` (the first
`i` rounds of the chunk loop return) and that chunk passes the magic, size and
checksum comparisons, changing any single byte of the chunk's stored payload
(the stream bytes from 19 bytes after the chunk header's start, for
`compressed_size` bytes), everything else unchanged, makes the extraction
throw the checksum exception at chunk `i`, whatever the encoded transform and
the decompressors would have done. -/
theorem chunk_checksum_guard (p : platform) (fuel : Nat) (self : hpi_archive) (file : file_data)
    (buffer : List byte) (i : Nat) (s : extract_state) (hdr : hpi_chunk)
    (pre post : List byte) (x y : byte)
    (hdata : self.stream.data = pre ++ x :: post)
    (hxy : y ≠ x)
    (hi : i < chunk_count file)
    (hreach : extract_chunks p fuel self.decrypt_key file i 0 (extract_start self file buffer)
      = .ok s)
    (hhdr : load_hpi_chunk
      (read_decrypt_raw_value s.stream self.decrypt_key sizeof_hpi_chunk).1 0 = some hdr)
    (hmagic : hdr.magic = HPI_CHUNK_MAGIC_NUMBER)
    (hsize : s.buffer_offset + hdr.decompressed_size ≤ file.size)
    (hsum : compute_buffer_checksum (object_bytes (read_decrypt_buffer
      (read_decrypt_raw_value s.stream self.decrypt_key sizeof_hpi_chunk).2 self.decrypt_key
      hdr.compressed_size).1 hdr.compressed_size) = hdr.checksum)
    (hq1 : s.stream.pos + sizeof_hpi_chunk ≤ pre.length)
    (hq2 : pre.length < s.stream.pos + sizeof_hpi_chunk + hdr.compressed_size) :
    ∃ c, c ≠ hdr.checksum ∧
      (self.with_data (pre ++ y :: post)).extract_compressed p fuel file buffer
        = .throw (.chunk_checksum c i) ∧
      (file.compression_type = COMPRESSION_TYPE_LZ77 ∨ file.compression_type = COMPRESSION_TYPE_ZLIB →
        (self.with_data (pre ++ y :: post)).extract p fuel file buffer
          = .throw (.chunk_checksum c i)) := by
  -- the stream is good when chunk `i` starts, and still holds the archive's bytes
  have hgood : s.stream.fail = false := by
    by_contra hbad
    have hbad : s.stream.fail = true := by simpa using hbad
    rw [read_decrypt_raw_value_failed _ _ _ hbad, load_hpi_chunk_zero] at hhdr
    cases hhdr
    exact absurd hmagic (by decide)
  obtain ⟨hsd, hmono⟩ := extract_chunks_stream _ _ _ _ _ _ _ _ hreach
  obtain ⟨hstart_good, hstart_pos⟩ := hmono hgood
  have hsdata : s.stream.data = pre ++ x :: post := by
    rw [hsd, extract_start_stream, read_data, seekg_data, hdata]
  have hagree : ∀ k, k < pre.length →
      (pre ++ y :: post)[k]? = self.stream.data[k]? := by
    rw [hdata]
    exact append_cons_agree pre post x y
  -- the rounds before chunk `i` run as before
  have hstart := extract_start_with_data self file buffer pre.length (pre ++ y :: post) hagree
    hstart_good (by omega)
  have hprefix := extract_chunks_with_data p fuel self.decrypt_key file pre.length
    (pre ++ y :: post) i 0 _ s hreach
    (by rw [extract_start_stream, read_data, seekg_data]; exact hagree) hgood (by omega)
  -- chunk `i` reads the same header and a payload that differs in one byte
  have hr1 := read_decrypt_raw_value_with_data s.stream self.decrypt_key sizeof_hpi_chunk
    pre.length (pre ++ y :: post) (by rw [hsdata]; exact append_cons_agree pre post x y)
    (Or.inr hq1)
  have hlen : s.stream.pos + sizeof_hpi_chunk ≤ s.stream.data.length := by
    rw [hsdata]; simp only [List.length_append, List.length_cons]; omega
  have hr1s : (read_decrypt_raw_value s.stream self.decrypt_key sizeof_hpi_chunk).2
      = ⟨pre ++ x :: post, s.stream.pos + sizeof_hpi_chunk, false⟩ := by
    rw [read_decrypt_raw_value_snd, read_full _ _ hgood hlen, hsdata]
  obtain ⟨X, Y, dx, dy, hne, e1, e2⟩ := read_decrypt_buffer_change (pre ++ x :: post)
    (pre ++ y :: post) pre post x y self.decrypt_key (s.stream.pos + sizeof_hpi_chunk)
    hdr.compressed_size rfl rfl (fun h => hxy h.symm) hq1 hq2
  rw [hr1s, e1] at hsum
  have hc : compute_buffer_checksum (X ++ dy :: Y) ≠ hdr.checksum := by
    rw [← hsum]
    exact fun h => checksum_change X Y dx dy hne h.symm
  have hthrow : extract_chunk p fuel self.decrypt_key file (0 + i) (s.with_data (pre ++ y :: post))
      = .throw (.chunk_checksum (compute_buffer_checksum (X ++ dy :: Y)) i) := by
    unfold extract_chunk
    simp only [extract_state.with_data, hr1, hhdr, load, Outcome.bind, Nat.zero_add]
    rw [if_neg (by simpa using hmagic), if_neg (by omega)]
    simp only [hr1s, istream.with_data, e2]
    rw [if_pos hc]
  have hmain : (self.with_data (pre ++ y :: post)).extract_compressed p fuel file buffer
      = .throw (.chunk_checksum (compute_buffer_checksum (X ++ dy :: Y)) i) := by
    unfold hpi_archive.extract_compressed
    obtain ⟨k, hk⟩ : ∃ k, chunk_count file = i + (k + 1) := ⟨chunk_count file - i - 1, by omega⟩
    have hcount : chunk_count (file) = i + (k + 1) := hk
    rw [hstart]
    have hkey : (self.with_data (pre ++ y :: post)).decrypt_key = self.decrypt_key := rfl
    rw [hkey, hcount, extract_chunks_throw p fuel self.decrypt_key file _ i k 0 _ _ hprefix hthrow]
    rfl
  refine ⟨_, hc, hmain, ?_⟩
  intro htype
  unfold hpi_archive.extract
  have hnull : ¬ file.compression_type = COMPRESSION_TYPE_NULL := by
    rcases htype with h | h <;> rw [h] <;> decide
  rw [if_neg hnull, if_pos htype]
  exact hmain

/-- Witness of C10: the chunk of Scenario D extracts to "AB"; with the stored
byte at offset 24 changed from 3 to 2 the extraction throws at chunk 0. -/
theorem chunk_checksum_guard_witness :
    scenario_D.extract scenario_platform 1 scenario_D_file [0, 0]
      = .ok ⟨true, ⟨scenario_D_pre ++ 3 :: scenario_D_post, 28, false⟩, [65, 66]⟩ ∧
    ∃ c, c ≠ 135 ∧
      (scenario_D.with_data (scenario_D_pre ++ 2 :: scenario_D_post)).extract_compressed
        scenario_platform 1 scenario_D_file [0, 0] = .throw (.chunk_checksum c 0) ∧
      (scenario_D_file.compression_type = COMPRESSION_TYPE_LZ77
          ∨ scenario_D_file.compression_type = COMPRESSION_TYPE_ZLIB →
        (scenario_D.with_data (scenario_D_pre ++ 2 :: scenario_D_post)).extract
          scenario_platform 1 scenario_D_file [0, 0] = .throw (.chunk_checksum c 0)) :=
  ⟨by decide!,
   chunk_checksum_guard scenario_platform 1 scenario_D scenario_D_file [0, 0] 0
    ⟨⟨scenario_D_pre ++ 3 :: scenario_D_post, 4, false⟩, [0, 0], 0⟩
    ⟨0x48535153, 2, 1, 0, 5, 2, 135⟩ scenario_D_pre scenario_D_post 3 2
    rfl (by decide) (by decide) rfl rfl rfl (by decide) rfl (by decide)
    (by decide)⟩

theorem outcome_rel_bind {α β : Type} {R : α → α → Prop} {S : β → β → Prop} {x y : Outcome α}
    {f g : α → Outcome β} (h : Outcome.Rel R x y)
    (hf : ∀ a b, R a b → Outcome.Rel S (f a) (g b)) : Outcome.Rel S (x.bind f) (y.bind g) := by
  cases h with
  | ok hab => exact hf _ _ hab
  | throw e => exact .throw e
  | oob => exact .oob
  | diverge => exact .diverge

theorem outcome_rel_same {α : Type} (x : Outcome α) : Outcome.Rel Eq x x := by
  cases x with
  | ok a => exact .ok rfl
  | throw e => exact .throw e
  | oob => exact .oob
  | diverge => exact .diverge

theorem outcome_rel_ok_iff {α : Type} {R : α → α → Prop} {a b : α} :
    Outcome.Rel R (.ok a) (.ok b) ↔ R a b :=
  ⟨fun h => by cases h; assumption, .ok⟩

theorem bufrel_refl (K : Nat → Prop) (a : List byte) : BufRel K a a := ⟨rfl, fun _ _ => rfl⟩

theorem store_byte_rel (K : Nat → Prop) (a b : List byte) (i : Nat) (v : byte) (h : BufRel K a b) :
    Outcome.Rel (BufRel K) (store_byte a i v) (store_byte b i v) := by
  unfold store_byte
  rw [h.1]
  split
  · refine .ok ⟨by simp [h.1], ?_⟩
    intro k hk
    by_cases hik : i = k
    · subst hik
      simp [List.getElem?_set, h.1]
    · rw [List.getElem?_set_ne hik, List.getElem?_set_ne hik]
      exact h.2 k hk
  · exact .oob

theorem store_get (mem bytes : List byte) (ofs k : Nat) (h : ofs + bytes.length ≤ mem.length) :
    (mem.take ofs ++ bytes ++ mem.drop (ofs + bytes.length))[k]?
      = if k < ofs then mem[k]? else if k < ofs + bytes.length then bytes[k - ofs]? else mem[k]? := by
  have hl : (mem.take ofs).length = ofs := by simp only [List.length_take]; omega
  by_cases h1 : k < ofs
  · rw [if_pos h1, List.append_assoc, List.getElem?_append_left (by omega), List.getElem?_take,
      if_pos h1]
  · rw [if_neg h1, List.append_assoc, List.getElem?_append_right (by omega), hl]
    by_cases h2 : k < ofs + bytes.length
    · rw [if_pos h2, List.getElem?_append_left (by omega)]
    · rw [if_neg h2, List.getElem?_append_right (by omega), List.getElem?_drop]
      congr 1
      omega

theorem store_rel (K : Nat → Prop) (a b bytes : List byte) (ofs : Nat) (h : BufRel K a b) :
    Outcome.Rel (BufRel K) (store a ofs bytes) (store b ofs bytes) := by
  unfold store
  rw [h.1]
  split
  · exact .ok h
  · split
    · rename_i hle
      refine .ok ⟨by simp [h.1], ?_⟩
      intro k hk
      rw [store_get _ _ _ _ (by rw [h.1]; exact hle), store_get _ _ _ _ hle]
      split
      · exact h.2 k hk
      · split
        · rfl
        · exact h.2 k hk
    · exact .oob

theorem bufrel_drop (K : Nat → Prop) (a b : List byte) (ofs : Nat) (h : BufRel K a b) :
    BufRel (fun k => K (k + min ofs a.length)) (a.drop ofs) (b.drop ofs) := by
  refine ⟨by simp [h.1], ?_⟩
  intro k hk
  rw [List.getElem?_drop, List.getElem?_drop]
  by_cases hle : ofs ≤ a.length
  · rw [Nat.min_eq_left hle, Nat.add_comm] at hk
    exact h.2 _ hk
  · rw [List.getElem?_eq_none (by omega), List.getElem?_eq_none (by rw [← h.1]; omega)]

theorem bufrel_take_append (K : Nat → Prop) (a b o1 o2 : List byte) (ofs : Nat) (h : BufRel K a b)
    (ho : BufRel (fun k => K (k + min ofs a.length)) o1 o2) :
    BufRel K (a.take ofs ++ o1) (b.take ofs ++ o2) := by
  have hl1 : (a.take ofs).length = min ofs a.length := by simp
  have hl2 : (b.take ofs).length = min ofs a.length := by simp [h.1]
  refine ⟨by simp [h.1, ho.1], ?_⟩
  intro k hk
  by_cases hlt : k < min ofs a.length
  · rw [List.getElem?_append_left (by omega), List.getElem?_append_left (by omega),
      List.getElem?_take, List.getElem?_take]
    have : k < ofs := by omega
    rw [if_pos this, if_pos this]
    exact h.2 k hk
  · rw [List.getElem?_append_right (by omega), List.getElem?_append_right (by omega), hl1, hl2]
    apply ho.2
    show K (k - min ofs a.length + min ofs a.length)
    rw [Nat.sub_add_cancel (by omega)]
    exact hk

theorem lz77_copy_rel (K : Nat → Prop) :
    ∀ (x offset : Nat) (s1 s2 : lz77_state), lz77_state.Rel K s1 s2 →
      Outcome.Rel (lz77_state.Rel K) (lz77_copy x offset s1) (lz77_copy x offset s2) := by
  intro x
  induction x with
  | zero => intro offset s1 s2 h; exact .ok h
  | succ x ih =>
    intro offset s1 s2 h
    obtain ⟨h1, h2, h3, h4, h5⟩ := h
    rw [lz77_copy, lz77_copy, h4, h2, h3]
    refine outcome_rel_bind (outcome_rel_same _) ?_
    rintro b _ rfl
    refine outcome_rel_bind (store_byte_rel K _ _ _ _ h5) ?_
    intro o1 o2 ho
    refine outcome_rel_bind (outcome_rel_same _) ?_
    rintro w _ rfl
    exact ih _ _ _ ⟨h1, rfl, rfl, rfl, ho⟩

theorem lz77_bits_rel (K : Nat → Prop) (input : List byte) (len max_bytes : Nat) :
    ∀ (n tag : Nat) (s1 s2 : lz77_state), lz77_state.Rel K s1 s2 →
      Outcome.Rel (lz77_flow.Rel K) (lz77_bits input len max_bytes n tag s1)
        (lz77_bits input len max_bytes n tag s2) := by
  intro n
  induction n with
  | zero => intro tag s1 s2 h; exact .ok (.next h)
  | succ n ih =>
    intro tag s1 s2 h
    obtain ⟨h1, h2, h3, h4, h5⟩ := h
    rw [lz77_bits, lz77_bits, h1, h2, h3, h4]
    by_cases ht : tag &&& 1 = 0
    · simp only [if_pos ht]
      by_cases hi : s2.in_pos ≥ len
      · simp only [if_pos hi]
        exact .throw _
      · simp only [if_neg hi]
        by_cases hm : s2.out_pos ≥ max_bytes
        · simp only [if_pos hm]
          exact .throw _
        · simp only [if_neg hm]
          refine outcome_rel_bind (outcome_rel_same _) ?_
          rintro b _ rfl
          refine outcome_rel_bind (store_byte_rel K _ _ _ _ h5) ?_
          intro o1 o2 ho
          refine outcome_rel_bind (outcome_rel_same _) ?_
          rintro w _ rfl
          exact ih _ _ _ ⟨rfl, rfl, rfl, rfl, ho⟩
    · simp only [if_neg ht]
      by_cases hw : s2.in_pos ≥ (len + SIZE - 1) % SIZE
      · simp only [if_pos hw]
        exact .throw _
      · simp only [if_neg hw]
        refine outcome_rel_bind (outcome_rel_same _) ?_
        rintro b0 _ rfl
        refine outcome_rel_bind (outcome_rel_same _) ?_
        rintro b1 _ rfl
        by_cases ho : le16 b0 b1 >>> 4 = 0
        · simp only [if_pos ho]
          exact .ok (.returned ⟨rfl, rfl, rfl, rfl, h5⟩)
        · simp only [if_neg ho]
          by_cases hm : (s2.out_pos + ((le16 b0 b1 &&& 0x0F) + 2)) % SIZE > max_bytes
          · simp only [if_pos hm]
            exact .throw _
          · simp only [if_neg hm]
            refine outcome_rel_bind (lz77_copy_rel K _ _ _ _ ⟨rfl, rfl, rfl, rfl, h5⟩) ?_
            intro t1 t2 ht
            exact ih _ _ _ ht

theorem lz77_loop_rel (K : Nat → Prop) (input : List byte) (len max_bytes : Nat) :
    ∀ (fuel : Nat) (s1 s2 : lz77_state), lz77_state.Rel K s1 s2 →
      Outcome.Rel (lz77_state.Rel K) (lz77_loop input len max_bytes fuel s1)
        (lz77_loop input len max_bytes fuel s2) := by
  intro fuel
  induction fuel with
  | zero => intro s1 s2 _; exact .diverge
  | succ fuel ih =>
    intro s1 s2 h
    obtain ⟨h1, h2, h3, h4, h5⟩ := h
    rw [lz77_loop, lz77_loop, h1]
    by_cases hi : s2.in_pos ≥ len
    · simp only [if_pos hi]
      exact .throw _
    · simp only [if_neg hi]
      refine outcome_rel_bind (outcome_rel_same _) ?_
      rintro tag _ rfl
      refine outcome_rel_bind (lz77_bits_rel K input len max_bytes 8 tag.val _ _
        ⟨rfl, h2, h3, h4, h5⟩) ?_
      intro r1 r2 hr
      cases hr with
      | next hs => exact ih _ _ hs
      | returned hs => exact .ok hs

theorem decompress_lz77_rel (K : Nat → Prop) (fuel : Nat) (window0 input : List byte)
    (len max_bytes : Nat) (out1 out2 : List byte) (h : BufRel K out1 out2) :
    Outcome.Rel (BufRel K) (decompress_lz77 fuel window0 input len out1 max_bytes)
      (decompress_lz77 fuel window0 input len out2 max_bytes) := by
  unfold decompress_lz77 decompress_lz77_run
  refine outcome_rel_bind (lz77_loop_rel K input len max_bytes fuel _ _ ⟨rfl, rfl, rfl, rfl, h⟩) ?_
  intro s1 s2 hs
  exact .ok hs.2.2.2.2

theorem decompress_zlib_rel (K : Nat → Prop) (p : platform) (input : List byte)
    (len max_bytes : Nat) (out1 out2 : List byte) (h : BufRel K out1 out2) :
    Outcome.Rel (BufRel K) (decompress_zlib p input len out1 max_bytes)
      (decompress_zlib p input len out2 max_bytes) := by
  unfold decompress_zlib
  cases p.inflate (input.take len) max_bytes with
  | init_failed => exact .throw _
  | stream_end produced => exact store_rel K _ _ _ _ h
  | other => exact .throw _

theorem chunk_switch_rel (K : Nat → Prop) (p : platform) (fuel i : Nat) (hdr : hpi_chunk)
    (chunk_buffer buf1 buf2 : List byte) (ofs : Nat) (h : BufRel K buf1 buf2) :
    Outcome.Rel (BufRel K) (chunk_switch p fuel i hdr chunk_buffer buf1 ofs)
      (chunk_switch p fuel i hdr chunk_buffer buf2 ofs) := by
  unfold chunk_switch
  split
  · split
    · exact .throw _
    · exact store_rel K _ _ _ _ h
  · split
    · refine outcome_rel_bind (decompress_lz77_rel _ _ _ _ _ _ _ _ (bufrel_drop K _ _ ofs h)) ?_
      intro o1 o2 ho
      exact .ok (bufrel_take_append K _ _ _ _ ofs h ho)
    · split
      · refine outcome_rel_bind (decompress_zlib_rel _ _ _ _ _ _ _ (bufrel_drop K _ _ ofs h)) ?_
        intro o1 o2 ho
        exact .ok (bufrel_take_append K _ _ _ _ ofs h ho)
      · exact .throw _

theorem extract_chunk_rel (K : Nat → Prop) (p : platform) (fuel : Nat) (key : byte)
    (file : file_data) (i : Nat) (s1 s2 : extract_state) (h : extract_state.Rel K s1 s2) :
    Outcome.Rel (extract_state.Rel K) (extract_chunk p fuel key file i s1)
      (extract_chunk p fuel key file i s2) := by
  obtain ⟨h1, h2, h3⟩ := h
  unfold extract_chunk
  rw [h1, h2]
  refine outcome_rel_bind (outcome_rel_same _) ?_
  rintro hdr _ rfl
  split
  · exact .throw _
  · split
    · exact .throw _
    · simp only
      split
      · exact .throw _
      · refine outcome_rel_bind (chunk_switch_rel K p fuel i hdr _ _ _ _ h3) ?_
        intro b1 b2 hb
        exact .ok ⟨rfl, rfl, hb⟩

theorem extract_chunks_rel (K : Nat → Prop) (p : platform) (fuel : Nat) (key : byte)
    (file : file_data) :
    ∀ (n i : Nat) (s1 s2 : extract_state), extract_state.Rel K s1 s2 →
      Outcome.Rel (extract_state.Rel K) (extract_chunks p fuel key file n i s1)
        (extract_chunks p fuel key file n i s2) := by
  intro n
  induction n with
  | zero => intro i s1 s2 h; exact .ok h
  | succ n ih =>
    intro i s1 s2 h
    rw [extract_chunks, extract_chunks]
    exact outcome_rel_bind (extract_chunk_rel K p fuel key file i s1 s2 h) (fun a b hab => ih _ _ _ hab)

theorem extract_rel (K : Nat → Prop) (p : platform) (fuel : Nat) (self : hpi_archive)
    (file : file_data) (buf1 buf2 : List byte) (h : BufRel K buf1 buf2) :
    Outcome.Rel (extract_result.Rel K) (self.extract p fuel file buf1)
      (self.extract p fuel file buf2) := by
  unfold hpi_archive.extract
  split
  · refine outcome_rel_bind (store_rel K _ _ _ _ h) ?_
    intro b1 b2 hb
    exact .ok ⟨rfl, rfl, hb⟩
  · split
    · unfold hpi_archive.extract_compressed
      refine outcome_rel_bind (extract_chunks_rel K p fuel _ file _ _ _ _ ⟨rfl, rfl, h⟩) ?_
      intro s1 s2 hs
      exact .ok ⟨rfl, hs.1, hs.2.2⟩
    · exact .throw _

theorem decrypt_loop_length (key seed : byte) (l : List byte) (i : Nat) :
    (decrypt_loop key seed i l).length = l.length := by
  induction l generalizing i with
  | nil => rfl
  | cons b rest ih => simp [decrypt_loop, ih]

theorem decrypt_buffer_length (key seed : byte) (l : List byte) :
    (decrypt_buffer key seed l).2.length = l.length := by
  unfold decrypt_buffer
  split
  · rfl
  · exact decrypt_loop_length _ _ _ _

theorem store_whole (buf bytes : List byte) (h : bytes.length = buf.length) :
    store buf 0 bytes = .ok bytes := by
  unfold store
  split
  · rename_i hb
    subst hb
    have : buf = [] := List.eq_nil_of_length_eq_zero h.symm
    rw [this]
  · rw [if_pos (by omega)]
    simp [h]

theorem bind_more_fuel {α β : Type} {x x1 : Outcome α} {f f1 : α → Outcome β}
    (hx : x ≠ .diverge → x1 = x) (hf : ∀ a, f a ≠ .diverge → f1 a = f a)
    (h : x.bind f ≠ .diverge) : x1.bind f1 = x.bind f := by
  cases x with
  | ok a =>
    rw [hx (by simp)]
    exact hf a h
  | throw e => rw [hx (by simp)]; rfl
  | oob => rw [hx (by simp)]; rfl
  | diverge => exact absurd rfl h

theorem lz77_loop_more_fuel (input : List byte) (len max_bytes k : Nat) :
    ∀ (fuel : Nat) (s : lz77_state), lz77_loop input len max_bytes fuel s ≠ .diverge →
      lz77_loop input len max_bytes (fuel + k) s = lz77_loop input len max_bytes fuel s := by
  intro fuel
  induction fuel with
  | zero => intro s h; exact absurd rfl h
  | succ fuel ih =>
    intro s h
    rw [show fuel + 1 + k = (fuel + k) + 1 by omega, lz77_loop]
    rw [lz77_loop] at h ⊢
    by_cases hi : s.in_pos ≥ len
    · simp only [if_pos hi]
    · simp only [if_neg hi] at h ⊢
      refine bind_more_fuel (fun _ => rfl) ?_ h
      intro tag htag
      refine bind_more_fuel (fun _ => rfl) ?_ htag
      intro r hr
      cases r with
      | next s1 => exact ih s1 hr
      | returned s1 => rfl

theorem decompress_lz77_more_fuel (fuel k : Nat) (window0 input : List byte) (len : Nat)
    (out : List byte) (max_bytes : Nat)
    (h : decompress_lz77 fuel window0 input len out max_bytes ≠ .diverge) :
    decompress_lz77 (fuel + k) window0 input len out max_bytes
      = decompress_lz77 fuel window0 input len out max_bytes := by
  unfold decompress_lz77 decompress_lz77_run at h ⊢
  exact bind_more_fuel (lz77_loop_more_fuel input len max_bytes k fuel _) (fun _ _ => rfl) h

theorem chunk_switch_more_fuel (p : platform) (fuel k i : Nat) (hdr : hpi_chunk)
    (chunk_buffer buffer : List byte) (ofs : Nat)
    (h : chunk_switch p fuel i hdr chunk_buffer buffer ofs ≠ .diverge) :
    chunk_switch p (fuel + k) i hdr chunk_buffer buffer ofs
      = chunk_switch p fuel i hdr chunk_buffer buffer ofs := by
  unfold chunk_switch at h ⊢
  split
  · rfl
  · rename_i h0
    rw [if_neg h0] at h
    split
    · rename_i h1
      rw [if_pos h1] at h
      exact bind_more_fuel (decompress_lz77_more_fuel fuel k _ _ _ _ _) (fun _ _ => rfl) h
    · rfl

theorem extract_chunk_more_fuel (p : platform) (fuel k : Nat) (key : byte) (file : file_data)
    (i : Nat) (s : extract_state) (h : extract_chunk p fuel key file i s ≠ .diverge) :
    extract_chunk p (fuel + k) key file i s = extract_chunk p fuel key file i s := by
  unfold extract_chunk at h ⊢
  refine bind_more_fuel (fun _ => rfl) ?_ h
  intro hdr hh
  split
  · rfl
  · rename_i h0
    rw [if_neg h0] at hh
    split
    · rfl
    · rename_i h1
      rw [if_neg h1] at hh
      simp only at hh ⊢
      split
      · rfl
      · rename_i h2
        rw [if_neg h2] at hh
        exact bind_more_fuel (chunk_switch_more_fuel p fuel k i hdr _ _ _) (fun _ _ => rfl) hh

theorem extract_chunks_more_fuel (p : platform) (fuel k : Nat) (key : byte) (file : file_data) :
    ∀ (n i : Nat) (s : extract_state), extract_chunks p fuel key file n i s ≠ .diverge →
      extract_chunks p (fuel + k) key file n i s = extract_chunks p fuel key file n i s := by
  intro n
  induction n with
  | zero => intro i s _; rfl
  | succ n ih =>
    intro i s h
    rw [extract_chunks] at h ⊢
    exact bind_more_fuel (extract_chunk_more_fuel p fuel k key file i s) (fun a ha => ih _ a ha) h

theorem extract_more_fuel (p : platform) (fuel k : Nat) (self : hpi_archive) (file : file_data)
    (buffer : List byte) (h : self.extract p fuel file buffer ≠ .diverge) :
    self.extract p (fuel + k) file buffer = self.extract p fuel file buffer := by
  unfold hpi_archive.extract at h ⊢
  split
  · rfl
  · rename_i h0
    rw [if_neg h0] at h
    split
    · rename_i h1
      rw [if_pos h1] at h
      unfold hpi_archive.extract_compressed at h ⊢
      exact bind_more_fuel (extract_chunks_more_fuel p fuel k _ file _ _ _) (fun _ _ => rfl) h
    · rfl


/-- Bytes `extract` does not write: on an archive whose one LZ77 chunk ends at its first
back-reference (offset 0) `extract` succeeds for the one-byte buffers [7] and
[9] and leaves each as it was; so does `extract` of an uncompressed file whose
bytes the stream does not hold. Two successful extractions of the same file
over the same archive bytes end with different buffers. -/
theorem extract_keeps_unwritten_bytes :
    early_sentinel.extract scenario_platform 1 ⟨0, 1, 1⟩ [7]
      = .ok ⟨true, ⟨early_sentinel.stream.data, 26, false⟩, [7]⟩ ∧
    early_sentinel.extract scenario_platform 1 ⟨0, 1, 1⟩ [9]
      = .ok ⟨true, ⟨early_sentinel.stream.data, 26, false⟩, [9]⟩ ∧
    empty_archive.extract scenario_platform 1 ⟨0, 1, 0⟩ [7] = .ok ⟨true, ⟨[], 0, true⟩, [7]⟩ ∧
    empty_archive.extract scenario_platform 1 ⟨0, 1, 0⟩ [9] = .ok ⟨true, ⟨[], 0, true⟩, [9]⟩ := by
  decide!

/-- With the same stack contents under the `window` array for both calls: for
two output buffers of length `file.size`, over the same archive bytes and
stream state, `extract` succeeds on one exactly
when it succeeds on the other, and then it leaves the same stream and buffers
that agree at every index at which they agreed before the call, so buffers
with equal initial contents end byte-identical; bytes that `extract` does not
write keep the caller's contents. For an uncompressed file whose `file.size`
bytes the stream holds, both extractions succeed and the buffers end
byte-identical whatever they held. -/
theorem extract_agrees_where_buffers_agree (p : platform) (fuel1 fuel2 : Nat)
    (self : hpi_archive) (file : file_data) (buf1 buf2 : List byte)
    (h1 : buf1.length = file.size) (h2 : buf2.length = file.size) :
    ((∃ r1, self.extract p fuel1 file buf1 = .ok r1) ↔
      (∃ r2, self.extract p fuel1 file buf2 = .ok r2)) ∧
    (∀ r1 r2, self.extract p fuel1 file buf1 = .ok r1 → self.extract p fuel2 file buf2 = .ok r2 →
      r1.stream = r2.stream ∧ r1.buffer.length = r2.buffer.length ∧
      (∀ k : Nat, buf1[k]? = buf2[k]? → r1.buffer[k]? = r2.buffer[k]?) ∧
      (buf1 = buf2 → r1.buffer = r2.buffer)) ∧
    (file.compression_type = COMPRESSION_TYPE_NULL → self.stream.fail = false →
      file.offset + file.size ≤ self.stream.data.length →
      ∃ r1 r2, self.extract p fuel1 file buf1 = .ok r1 ∧ self.extract p fuel2 file buf2 = .ok r2 ∧
        r1.buffer = r2.buffer) := by
  have hrel := fun fuel => extract_rel (fun k : Nat => buf1[k]? = buf2[k]?) p fuel self file
    buf1 buf2 ⟨by rw [h1, h2], fun _ hk => hk⟩
  refine ⟨?_, ?_, ?_⟩
  · have hrel := hrel fuel1
    constructor
    · rintro ⟨r1, hr1⟩
      rw [hr1] at hrel
      cases hr2 : self.extract p fuel1 file buf2 with
      | ok r2 => exact ⟨r2, rfl⟩
      | throw e => rw [hr2] at hrel; cases hrel
      | oob => rw [hr2] at hrel; cases hrel
      | diverge => rw [hr2] at hrel; cases hrel
    · rintro ⟨r2, hr2⟩
      rw [hr2] at hrel
      cases hr1 : self.extract p fuel1 file buf1 with
      | ok r1 => exact ⟨r1, rfl⟩
      | throw e => rw [hr1] at hrel; cases hrel
      | oob => rw [hr1] at hrel; cases hrel
      | diverge => rw [hr1] at hrel; cases hrel
  · intro r1 r2 hr1 hr2
    have e1 := extract_more_fuel p fuel1 fuel2 self file buf1 (by rw [hr1]; simp)
    have e2 := extract_more_fuel p fuel2 fuel1 self file buf2 (by rw [hr2]; simp)
    rw [Nat.add_comm] at e2
    have hrel := hrel (fuel1 + fuel2)
    rw [e1, e2, hr1, hr2, outcome_rel_ok_iff] at hrel
    obtain ⟨_, hs, hl, hb⟩ := hrel
    refine ⟨hs, hl, hb, ?_⟩
    intro heq
    apply List.ext_getElem?
    intro k
    exact hb k (by rw [heq])
  · intro hc hf hlen
    have hgot : ∀ (fuel : Nat) (buf : List byte), buf.length = file.size →
        self.extract p fuel file buf = .ok ⟨true,
          (read_decrypt_buffer (self.stream.seekg file.offset) self.decrypt_key file.size).2,
          (read_decrypt_buffer (self.stream.seekg file.offset) self.decrypt_key file.size).1⟩ := by
      intro fuel buf hbuf
      unfold hpi_archive.extract
      rw [if_pos hc]
      simp only
      rw [store_whole]
      · rfl
      · rw [hbuf]
        simp only [read_decrypt_buffer, decrypt_buffer_length, istream.read, istream.seekg, hf,
          Bool.false_eq_true, if_false, List.length_take, List.length_drop]
        omega
    exact ⟨_, _, hgot fuel1 buf1 h1, hgot fuel2 buf2 h2, rfl⟩

/-- An instance on Scenario D: the file of Scenario D extracts to "AB" into a buffer of
its size, and succeeds for one two-byte buffer exactly when for another. -/
theorem extract_agrees_where_buffers_agree_witness :
    scenario_D.extract scenario_platform 1 scenario_D_file [7, 7]
      = .ok ⟨true, ⟨scenario_D.stream.data, 28, false⟩, [65, 66]⟩ ∧
    ((∃ r1, scenario_D.extract scenario_platform 1 scenario_D_file [7, 7] = .ok r1) ↔
      (∃ r2, scenario_D.extract scenario_platform 1 scenario_D_file [9, 9] = .ok r2)) :=
  ⟨by decide!,
   (extract_agrees_where_buffers_agree scenario_platform 1 1 scenario_D scenario_D_file [7, 7]
    [9, 9] rfl rfl).1⟩

/-- Without `USE_STD_OPTIONAL` the lookups throw `boost::bad_get` where the
other build returns the empty optional: on the tree of Scenario F,
`find_file("a")` meets a directory as its last component and
`find_path("a/B/c.dat/x")` a file as an intermediate one. -/
theorem lookup_without_optional_throws :
    scenario_F.find_file false [97] = .throw .bad_get ∧
    scenario_F.find_path false [97, 47, 66, 47, 99, 46, 100, 97, 116, 47, 120] = .throw .bad_get ∧
    scenario_F.find_file true [97] = .ok none ∧
    scenario_F.find_path true [97, 47, 66, 47, 99, 46, 100, 97, 116, 47, 120] = .ok none :=
  ⟨rfl, rfl, rfl, rfl⟩

theorem store_byte_ok (mem : List byte) (i : Nat) (b : byte) (h : i < mem.length) :
    store_byte mem i b = .ok (mem.set i b) := by
  simp [store_byte, h]

theorem load_getElem (mem : List byte) (i : Nat) (h : i < mem.length) :
    load mem[i]? = .ok (mem.get ⟨i, h⟩) := by
  simp [load, List.getElem?_eq_getElem h]

theorem land_fff_lt (x : Nat) : x &&& 0xFFF < 4096 :=
  Nat.lt_succ_of_le Nat.and_le_right

theorem le16_lt (b0 b1 : byte) : le16 b0 b1 < 65536 := by
  have h0 := b0.isLt
  have h1 := b1.isLt
  unfold le16
  omega

theorem le16_offset_lt (b0 b1 : byte) : le16 b0 b1 >>> 4 < 4096 := by
  have := le16_lt b0 b1
  rw [Nat.shiftRight_eq_div_pow]
  omega

theorem le16_count_le (b0 b1 : byte) : (le16 b0 b1 &&& 0x0F) + 2 ≤ 17 := by
  have : le16 b0 b1 &&& 0x0F ≤ 0x0F := Nat.and_le_right
  omega

theorem lz77_copy_inv (len max_bytes : Nat) :
    ∀ (x offset : Nat) (s : lz77_state), offset < 4096 → lz77_state.Inv len max_bytes s →
      s.out_pos + x ≤ max_bytes →
      ∃ s1, lz77_copy x offset s = .ok s1 ∧ lz77_state.Inv len max_bytes s1 ∧
        s1.in_pos = s.in_pos ∧ s1.out_pos = s.out_pos + x := by
  intro x
  induction x with
  | zero => intro offset s _ hinv _; exact ⟨s, rfl, hinv, rfl, rfl⟩
  | succ x ih =>
    intro offset s hoff hinv hout
    obtain ⟨h1, h2, h3, h4, h5⟩ := hinv
    have hl : load s.window[offset]? = .ok (s.window.get ⟨offset, by omega⟩) :=
      load_getElem _ _ _
    have ho : ∀ b, store_byte s.out s.out_pos b = .ok (s.out.set s.out_pos b) :=
      fun b => store_byte_ok _ _ _ (by omega)
    have hw : ∀ b, store_byte s.window s.window_pos b = .ok (s.window.set s.window_pos b) :=
      fun b => store_byte_ok _ _ _ (by omega)
    simp only [lz77_copy, hl, ho, hw, Outcome.bind]
    obtain ⟨s1, e1, e2, e3, e4⟩ := ih ((offset + 1) &&& 0xFFF)
      { s with out_pos := s.out_pos + 1, window_pos := (s.window_pos + 1) &&& 0xFFF,
               out := s.out.set s.out_pos (s.window.get ⟨offset, by omega⟩),
               window := s.window.set s.window_pos (s.window.get ⟨offset, by omega⟩) }
      (land_fff_lt _)
      ⟨h1, by simp only; omega, land_fff_lt _, by simp [h4], by simp [h5]⟩
      (by simp only; omega)
    exact ⟨s1, e1, e2, e3, by rw [e4]; simp only; omega⟩


theorem size_pred_mod (len : Nat) (h0 : 0 < len) (hl : len < SIZE) :
    (len + SIZE - 1) % SIZE = len - 1 := by
  have h : len + SIZE - 1 = (len - 1) + SIZE := by omega
  rw [h, Nat.add_mod_right, Nat.mod_eq_of_lt (by omega)]

theorem lz77_bits_good (input : List byte) (len max_bytes : Nat)
    (hlen : input.length = len) (h0 : 0 < len) (hl : len < SIZE) (hm : max_bytes + 17 < SIZE) :
    ∀ (n tag : Nat) (s : lz77_state), lz77_state.Inv len max_bytes s →
      (∃ s1, lz77_bits input len max_bytes n tag s = .ok (.next s1) ∧
          lz77_state.Inv len max_bytes s1 ∧ s.in_pos ≤ s1.in_pos) ∨
      (∃ s1, lz77_bits input len max_bytes n tag s = .ok (.returned s1) ∧
          lz77_state.Inv len max_bytes s1 ∧ s.in_pos + 2 ≤ s1.in_pos ∧
          sentinel_at input (s1.in_pos - 2)) ∨
      (∃ e, lz77_bits input len max_bytes n tag s = .throw e ∧ e.of_lz77 = true ∧
          e ≠ .lz77_expected_tag) := by
  have hlm := size_pred_mod len h0 hl
  intro n
  induction n with
  | zero => intro tag s hinv; exact Or.inl ⟨s, rfl, hinv, le_refl _⟩
  | succ n ih =>
    intro tag s hinv
    obtain ⟨h1, h2, h3, h4, h5⟩ := hinv
    rw [lz77_bits]
    by_cases ht : tag &&& 1 = 0
    · simp only [if_pos ht]
      by_cases ha : s.in_pos ≥ len
      · simp only [if_pos ha]
        exact Or.inr (Or.inr ⟨_, rfl, rfl, by decide⟩)
      · simp only [if_neg ha]
        by_cases hb : s.out_pos ≥ max_bytes
        · simp only [if_pos hb]
          exact Or.inr (Or.inr ⟨_, rfl, rfl, by decide⟩)
        · simp only [if_neg hb]
          have hi : load input[s.in_pos]? = .ok (input.get ⟨s.in_pos, by omega⟩) :=
            load_getElem _ _ _
          have ho : ∀ b, store_byte s.out s.out_pos b = .ok (s.out.set s.out_pos b) :=
            fun b => store_byte_ok _ _ _ (by omega)
          have hw : ∀ b, store_byte s.window s.window_pos b =
              .ok (s.window.set s.window_pos b) :=
            fun b => store_byte_ok _ _ _ (by omega)
          simp only [hi, ho, hw, Outcome.bind]
          have hinv1 : lz77_state.Inv len max_bytes
              { in_pos := s.in_pos + 1, out_pos := s.out_pos + 1,
                window_pos := (s.window_pos + 1) &&& 0xFFF,
                out := s.out.set s.out_pos (input.get ⟨s.in_pos, by omega⟩),
                window := s.window.set s.window_pos (input.get ⟨s.in_pos, by omega⟩) } :=
            ⟨by simp only; omega, by simp only; omega, land_fff_lt _, by simp [h4], by simp [h5]⟩
          rcases ih (tag >>> 1) _ hinv1 with ⟨s1, e, i, l⟩ | ⟨s1, e, i, l, st⟩ | ⟨x, e, hx⟩
          · exact Or.inl ⟨s1, e, i, by simp only at l; omega⟩
          · exact Or.inr (Or.inl ⟨s1, e, i, by simp only at l; omega, st⟩)
          · exact Or.inr (Or.inr ⟨x, e, hx⟩)
    · simp only [if_neg ht, hlm]
      by_cases ha : s.in_pos ≥ len - 1
      · simp only [if_pos ha]
        exact Or.inr (Or.inr ⟨_, rfl, rfl, by decide⟩)
      · simp only [if_neg ha]
        have hi0 : load input[s.in_pos]? = .ok (input.get ⟨s.in_pos, by omega⟩) :=
          load_getElem _ _ _
        have hi1 : load input[s.in_pos + 1]? = .ok (input.get ⟨s.in_pos + 1, by omega⟩) :=
          load_getElem _ _ _
        simp only [hi0, hi1, Outcome.bind]
        generalize hb0 : input.get ⟨s.in_pos, by omega⟩ = b0
        generalize hb1 : input.get ⟨s.in_pos + 1, by omega⟩ = b1
        by_cases hz : le16 b0 b1 >>> 4 = 0
        · simp only [if_pos hz]
          refine Or.inr (Or.inl ⟨_, rfl, ⟨by simp only; omega, h2, h3, h4, h5⟩,
            by simp only; omega, b0, b1, ?_, ?_, hz⟩)
          · simp only [Nat.add_sub_cancel]
            rw [← hb0]; exact List.getElem?_eq_getElem _
          · simp only [Nat.add_sub_cancel]
            rw [← hb1]
            have : s.in_pos + 2 - 2 + 1 = s.in_pos + 1 := by omega
            exact List.getElem?_eq_getElem _
        · simp only [if_neg hz]
          have hc := le16_count_le b0 b1
          have hmod : (s.out_pos + ((le16 b0 b1 &&& 0x0F) + 2)) % SIZE =
              s.out_pos + ((le16 b0 b1 &&& 0x0F) + 2) := Nat.mod_eq_of_lt (by omega)
          simp only [hmod]
          by_cases hov : s.out_pos + ((le16 b0 b1 &&& 0x0F) + 2) > max_bytes
          · simp only [if_pos hov]
            exact Or.inr (Or.inr ⟨_, rfl, rfl, by decide⟩)
          · simp only [if_neg hov]
            obtain ⟨s2, e2, i2, p2, q2⟩ := lz77_copy_inv len max_bytes
              ((le16 b0 b1 &&& 0x0F) + 2) (le16 b0 b1 >>> 4)
              { s with in_pos := s.in_pos + 2 } (le16_offset_lt b0 b1)
              ⟨by simp only; omega, h2, h3, h4, h5⟩ (by simp only; omega)
            simp only [e2, Outcome.bind]
            rcases ih (tag >>> 1) s2 i2 with ⟨s1, e, i, l⟩ | ⟨s1, e, i, l, st⟩ | ⟨x, e, hx⟩
            · exact Or.inl ⟨s1, e, i, by simp only at p2; omega⟩
            · exact Or.inr (Or.inl ⟨s1, e, i, by simp only at p2; omega, st⟩)
            · exact Or.inr (Or.inr ⟨x, e, hx⟩)

theorem lz77_loop_good (input : List byte) (len max_bytes : Nat)
    (hlen : input.length = len) (hl : len < SIZE) (hm : max_bytes + 17 < SIZE) :
    ∀ (fuel : Nat) (s : lz77_state), lz77_state.Inv len max_bytes s →
      (∃ s1, lz77_loop input len max_bytes fuel s = .ok s1 ∧
          lz77_state.Inv len max_bytes s1 ∧ s.in_pos + 3 ≤ s1.in_pos ∧
          sentinel_at input (s1.in_pos - 2)) ∨
      (∃ e, lz77_loop input len max_bytes fuel s = .throw e ∧ e.of_lz77 = true) ∨
      (lz77_loop input len max_bytes fuel s = .diverge ∧ fuel + s.in_pos ≤ len) := by
  intro fuel
  induction fuel with
  | zero => intro s hinv; exact Or.inr (Or.inr ⟨rfl, by have := hinv.1; omega⟩)
  | succ fuel ih =>
    intro s hinv
    obtain ⟨h1, h2, h3, h4, h5⟩ := hinv
    rw [lz77_loop]
    by_cases ha : s.in_pos ≥ len
    · simp only [if_pos ha]
      exact Or.inr (Or.inl ⟨_, rfl, rfl⟩)
    · simp only [if_neg ha]
      have hi : load input[s.in_pos]? = .ok (input.get ⟨s.in_pos, by omega⟩) :=
        load_getElem _ _ _
      simp only [hi, Outcome.bind]
      have hinv1 : lz77_state.Inv len max_bytes { s with in_pos := s.in_pos + 1 } :=
        ⟨by simp only; omega, h2, h3, h4, h5⟩
      rcases lz77_bits_good input len max_bytes hlen (by omega) hl hm 8
          (input.get ⟨s.in_pos, by omega⟩).val _ hinv1 with
        ⟨s1, e, i, l⟩ | ⟨s1, e, i, l, st⟩ | ⟨x, e, hx, _⟩
      · simp only [e]
        simp only at l
        rcases ih s1 i with ⟨s2, e2, i2, l2, st2⟩ | ⟨x, e2, hx⟩ | ⟨e2, l2⟩
        · exact Or.inl ⟨s2, e2, i2, by omega, st2⟩
        · exact Or.inr (Or.inl ⟨x, e2, hx⟩)
        · exact Or.inr (Or.inr ⟨e2, by omega⟩)
      · simp only [e]
        exact Or.inl ⟨s1, rfl, i, by simp only at l; omega, st⟩
      · simp only [e]
        exact Or.inr (Or.inl ⟨x, rfl, hx⟩)

theorem lz77_run_good (window0 input out : List byte) (len max_bytes : Nat)
    (hwin : window0.length = 4096) (hin : input.length = len) (hout : out.length = max_bytes)
    (hl : len < SIZE) (hm : max_bytes + 17 < SIZE) (fuel : Nat) :
    (∃ s1, decompress_lz77_run fuel window0 input len out max_bytes = .ok s1 ∧
        lz77_state.Inv len max_bytes s1 ∧ 3 ≤ s1.in_pos ∧ sentinel_at input (s1.in_pos - 2)) ∨
    (∃ e, decompress_lz77_run fuel window0 input len out max_bytes = .throw e ∧
        e.of_lz77 = true) ∨
    (decompress_lz77_run fuel window0 input len out max_bytes = .diverge ∧ fuel ≤ len) := by
  have h := lz77_loop_good input len max_bytes hin hl hm fuel ⟨0, 0, 1, out, window0⟩
    ⟨Nat.zero_le _, Nat.zero_le _, by simp only; omega, hwin, hout⟩
  simpa only [decompress_lz77_run, Nat.zero_add, Nat.add_zero] using h

theorem lz77_literal_guard (input : List byte) (len max_bytes n tag : Nat) (s : lz77_state)
    (ht : tag &&& 1 = 0) (ho : s.out_pos ≥ max_bytes) :
    lz77_bits input len max_bytes (n + 1) tag s = .throw .lz77_expected_byte ∨
    lz77_bits input len max_bytes (n + 1) tag s = .throw .lz77_literal_overflow := by
  rw [lz77_bits]
  simp only [if_pos ht]
  by_cases ha : s.in_pos ≥ len
  · simp only [if_pos ha, true_or]
  · simp only [if_neg ha, if_pos ho, or_true]

theorem lz77_window_guard (input : List byte) (len max_bytes n tag : Nat) (s : lz77_state)
    (b0 b1 : byte) (h0 : 0 < len) (hl : len < SIZE) (hm : max_bytes + 17 < SIZE)
    (ht : tag &&& 1 ≠ 0) (hi : s.in_pos + 1 < len) (hop : s.out_pos ≤ max_bytes)
    (hb0 : input[s.in_pos]? = some b0) (hb1 : input[s.in_pos + 1]? = some b1)
    (hz : le16 b0 b1 >>> 4 ≠ 0) (hov : s.out_pos + ((le16 b0 b1 &&& 0x0F) + 2) > max_bytes) :
    lz77_bits input len max_bytes (n + 1) tag s = .throw .lz77_window_overflow := by
  have hlm := size_pred_mod len h0 hl
  have hc := le16_count_le b0 b1
  have hmod : (s.out_pos + ((le16 b0 b1 &&& 0x0F) + 2)) % SIZE =
      s.out_pos + ((le16 b0 b1 &&& 0x0F) + 2) := Nat.mod_eq_of_lt (by omega)
  have ha : ¬ s.in_pos ≥ len - 1 := by omega
  rw [lz77_bits]
  simp only [if_neg ht, hlm, if_neg ha, hb0, hb1, load, Outcome.bind, if_neg hz, hmod, if_pos hov]

/-- C13: when `in` points to `len` bytes, `out` to `max_bytes` bytes and the
window is the 4096-byte array, `decompress_lz77` makes no access outside these
three objects, whatever the input bytes and however long it runs (every load
and store of the model is checked, and the outcome is never `oob`); a state it
returns has its cursors within bounds. A literal item met with
`out_pos ≥ max_bytes` throws, and so does a back-reference with a non-zero
offset and `out_pos + count > max_bytes`; both throw whatever memory `out` and
`window` are, even none at all, so no store of the item precedes the throw. -/
theorem lz77_memory_safety (window0 input out : List byte) (len max_bytes : Nat)
    (hwin : window0.length = 4096) (hin : input.length = len) (hout : out.length = max_bytes)
    (hl : len < SIZE) (hm : max_bytes + 17 < SIZE) :
    (∀ fuel, decompress_lz77_run fuel window0 input len out max_bytes ≠ .oob ∧
      decompress_lz77 fuel window0 input len out max_bytes ≠ .oob ∧
      ∀ s, decompress_lz77_run fuel window0 input len out max_bytes = .ok s →
        lz77_state.Inv len max_bytes s) ∧
    (∀ (n tag : Nat) (s : lz77_state), tag &&& 1 = 0 → s.out_pos ≥ max_bytes →
      lz77_bits input len max_bytes (n + 1) tag s = .throw .lz77_expected_byte ∨
      lz77_bits input len max_bytes (n + 1) tag s = .throw .lz77_literal_overflow) ∧
    (∀ (n tag : Nat) (s : lz77_state) (b0 b1 : byte), tag &&& 1 ≠ 0 →
      s.in_pos + 1 < len → s.out_pos ≤ max_bytes →
      input[s.in_pos]? = some b0 → input[s.in_pos + 1]? = some b1 →
      le16 b0 b1 >>> 4 ≠ 0 → s.out_pos + ((le16 b0 b1 &&& 0x0F) + 2) > max_bytes →
      lz77_bits input len max_bytes (n + 1) tag s = .throw .lz77_window_overflow) := by
  refine ⟨fun fuel => ?_, fun n tag s ht ho => lz77_literal_guard input len max_bytes n tag s ht ho,
    fun n tag s b0 b1 ht hi hop hb0 hb1 hz hov =>
      lz77_window_guard input len max_bytes n tag s b0 b1 (by omega) hl hm ht hi hop hb0 hb1
        hz hov⟩
  rcases lz77_run_good window0 input out len max_bytes hwin hin hout hl hm fuel with
    ⟨s1, e, i, _⟩ | ⟨x, e, _⟩ | ⟨e, _⟩
  · refine ⟨by rw [e]; exact fun h => Outcome.noConfusion h,
      by rw [decompress_lz77, e]; exact fun h => Outcome.noConfusion h, fun s hs => ?_⟩
    rw [e] at hs
    cases hs
    exact i
  · refine ⟨by rw [e]; exact fun h => Outcome.noConfusion h,
      by rw [decompress_lz77, e]; exact fun h => Outcome.noConfusion h, fun s hs => ?_⟩
    rw [e] at hs
    cases hs
  · refine ⟨by rw [e]; exact fun h => Outcome.noConfusion h,
      by rw [decompress_lz77, e]; exact fun h => Outcome.noConfusion h, fun s hs => ?_⟩
    rw [e] at hs
    cases hs

/-- Witness of C13: a literal 'A' followed by a sentinel, decoded into one byte
of output with a zeroed window. -/
theorem lz77_memory_safety_witness :
    (List.replicate 4096 (0 : byte)).length = 4096 ∧ ([2, 65, 0, 0] : List byte).length = 4 ∧
    ([0] : List byte).length = 1 ∧ 4 < SIZE ∧ 1 + 17 < SIZE ∧
    ∀ fuel, decompress_lz77 fuel (List.replicate 4096 0) [2, 65, 0, 0] 4 [0] 1 ≠ .oob :=
  ⟨List.length_replicate _ _, rfl, rfl, by decide, by decide,
   fun fuel => ((lz77_memory_safety (List.replicate 4096 0) [2, 65, 0, 0] [0] 4 1
      (List.length_replicate _ _) rfl rfl (by decide) (by decide)).1 fuel).2.1⟩

theorem lz77_tag_guard (input : List byte) (len max_bytes fuel : Nat) (s : lz77_state)
    (ha : s.in_pos ≥ len) :
    lz77_loop input len max_bytes (fuel + 1) s = .throw .lz77_expected_tag := by
  rw [lz77_loop]
  simp only [if_pos ha]

theorem lz77_byte_guard (input : List byte) (len max_bytes n tag : Nat) (s : lz77_state)
    (ht : tag &&& 1 = 0) (ha : s.in_pos ≥ len) :
    lz77_bits input len max_bytes (n + 1) tag s = .throw .lz77_expected_byte := by
  rw [lz77_bits]
  simp only [if_pos ht, if_pos ha]

theorem lz77_pair_guard (input : List byte) (len max_bytes n tag : Nat) (s : lz77_state)
    (h0 : 0 < len) (hl : len < SIZE) (ht : tag &&& 1 ≠ 0) (ha : s.in_pos + 1 ≥ len) :
    lz77_bits input len max_bytes (n + 1) tag s = .throw .lz77_expected_window := by
  have hlm := size_pred_mod len h0 hl
  have ha1 : s.in_pos ≥ len - 1 := by omega
  rw [lz77_bits]
  simp only [if_neg ht, hlm, if_pos ha1]

theorem lz77_sentinel_step (input : List byte) (len max_bytes n tag : Nat) (s : lz77_state)
    (b0 b1 : byte) (h0 : 0 < len) (hl : len < SIZE) (ht : tag &&& 1 ≠ 0)
    (hi : s.in_pos + 1 < len) (hb0 : input[s.in_pos]? = some b0)
    (hb1 : input[s.in_pos + 1]? = some b1) (hz : le16 b0 b1 >>> 4 = 0) :
    lz77_bits input len max_bytes (n + 1) tag s
      = .ok (.returned { s with in_pos := s.in_pos + 2 }) := by
  have hlm := size_pred_mod len h0 hl
  have ha : ¬ s.in_pos ≥ len - 1 := by omega
  rw [lz77_bits]
  simp only [if_neg ht, hlm, if_neg ha, hb0, hb1, load, Outcome.bind, if_pos hz]

theorem lz77_loop_returned (input : List byte) (len max_bytes fuel : Nat) (s s1 : lz77_state)
    (tag : byte) (ha : s.in_pos < len) (hb : input[s.in_pos]? = some tag)
    (hr : lz77_bits input len max_bytes 8 tag.val { s with in_pos := s.in_pos + 1 }
      = .ok (.returned s1)) :
    lz77_loop input len max_bytes (fuel + 1) s = .ok s1 := by
  have ha1 : ¬ s.in_pos ≥ len := by omega
  rw [lz77_loop]
  simp only [if_neg ha1, hb, load, Outcome.bind, hr]

/-- C15: run on `len` bytes of input with more rounds of fuel than input bytes,
`decompress_lz77` either returns or throws one of its five errors. It returns
only having just consumed, as a back-reference lying wholly inside the input,
two bytes whose offset field is 0; so the empty input throws "expected tag" and
an input holding no such pair throws. Step by step: a back-reference with
offset field 0 that has its two bytes makes the tag loop execute `return`, and
the function then returns; the input running out at a tag byte, at a literal
byte or with fewer than two bytes left for a back-reference throws. -/
theorem lz77_returns_only_at_sentinel (window0 input out : List byte)
    (len max_bytes fuel : Nat)
    (hwin : window0.length = 4096) (hin : input.length = len) (hout : out.length = max_bytes)
    (hl : len < SIZE) (hm : max_bytes + 17 < SIZE) (hfuel : len < fuel) :
    ((∃ s, decompress_lz77_run fuel window0 input len out max_bytes = .ok s ∧
        decompress_lz77 fuel window0 input len out max_bytes = .ok s.out ∧
        3 ≤ s.in_pos ∧ s.in_pos ≤ len ∧ sentinel_at input (s.in_pos - 2)) ∨
      (∃ e, decompress_lz77 fuel window0 input len out max_bytes = .throw e ∧
        e.of_lz77 = true)) ∧
    (len = 0 →
      decompress_lz77 fuel window0 input len out max_bytes = .throw .lz77_expected_tag) ∧
    ((∀ j, ¬ sentinel_at input j) →
      ∃ e, decompress_lz77 fuel window0 input len out max_bytes = .throw e ∧
        e.of_lz77 = true) ∧
    (∀ (fuel1 : Nat) (s : lz77_state), s.in_pos ≥ len →
      lz77_loop input len max_bytes (fuel1 + 1) s = .throw .lz77_expected_tag) ∧
    (∀ (n tag : Nat) (s : lz77_state), tag &&& 1 = 0 → s.in_pos ≥ len →
      lz77_bits input len max_bytes (n + 1) tag s = .throw .lz77_expected_byte) ∧
    (∀ (n tag : Nat) (s : lz77_state), tag &&& 1 ≠ 0 → 0 < len → s.in_pos + 1 ≥ len →
      lz77_bits input len max_bytes (n + 1) tag s = .throw .lz77_expected_window) ∧
    (∀ (n tag : Nat) (s : lz77_state) (b0 b1 : byte), tag &&& 1 ≠ 0 → s.in_pos + 1 < len →
      input[s.in_pos]? = some b0 → input[s.in_pos + 1]? = some b1 → le16 b0 b1 >>> 4 = 0 →
      lz77_bits input len max_bytes (n + 1) tag s
        = .ok (.returned { s with in_pos := s.in_pos + 2 })) ∧
    (∀ (fuel1 : Nat) (s s1 : lz77_state) (tag : byte), s.in_pos < len →
      input[s.in_pos]? = some tag →
      lz77_bits input len max_bytes 8 tag.val { s with in_pos := s.in_pos + 1 }
        = .ok (.returned s1) →
      lz77_loop input len max_bytes (fuel1 + 1) s = .ok s1) := by
  have main : (∃ s, decompress_lz77_run fuel window0 input len out max_bytes = .ok s ∧
        decompress_lz77 fuel window0 input len out max_bytes = .ok s.out ∧
        3 ≤ s.in_pos ∧ s.in_pos ≤ len ∧ sentinel_at input (s.in_pos - 2)) ∨
      (∃ e, decompress_lz77 fuel window0 input len out max_bytes = .throw e ∧
        e.of_lz77 = true) := by
    rcases lz77_run_good window0 input out len max_bytes hwin hin hout hl hm fuel with
      ⟨s1, e, i, l, st⟩ | ⟨x, e, hx⟩ | ⟨_, hf⟩
    · exact Or.inl ⟨s1, e, by rw [decompress_lz77, e]; rfl, l, i.1, st⟩
    · exact Or.inr ⟨x, by rw [decompress_lz77, e]; rfl, hx⟩
    · omega
  refine ⟨main, fun h0 => ?_, fun hno => ?_,
    fun fuel1 s ha => lz77_tag_guard input len max_bytes fuel1 s ha,
    fun n tag s ht ha => lz77_byte_guard input len max_bytes n tag s ht ha,
    fun n tag s ht h0 ha => lz77_pair_guard input len max_bytes n tag s h0 hl ht ha,
    fun n tag s b0 b1 ht hi hb0 hb1 hz =>
      lz77_sentinel_step input len max_bytes n tag s b0 b1 (by omega) hl ht hi hb0 hb1 hz,
    fun fuel1 s s1 tag ha hb hr => lz77_loop_returned input len max_bytes fuel1 s s1 tag ha hb hr⟩
  · obtain ⟨f, rfl⟩ : ∃ f, fuel = f + 1 := ⟨fuel - 1, by omega⟩
    rw [decompress_lz77, decompress_lz77_run,
      lz77_tag_guard input len max_bytes f _ (by simp only; omega)]
    rfl
  · rcases main with ⟨s, _, _, _, _, st⟩ | h
    · exact absurd st (hno _)
    · exact h

/-- Witness of C15: a literal 'A' followed by a sentinel returns; the run has
consumed the four bytes. -/
theorem lz77_returns_only_at_sentinel_witness :
    (List.replicate 4096 (0 : byte)).length = 4096 ∧ ([2, 65, 0, 0] : List byte).length = 4 ∧
    ([0] : List byte).length = 1 ∧ 4 < SIZE ∧ 1 + 17 < SIZE ∧ 4 < 5 ∧
    ((∃ s, decompress_lz77_run 5 (List.replicate 4096 0) [2, 65, 0, 0] 4 [0] 1 = .ok s ∧
        decompress_lz77 5 (List.replicate 4096 0) [2, 65, 0, 0] 4 [0] 1 = .ok s.out ∧
        3 ≤ s.in_pos ∧ s.in_pos ≤ 4 ∧ sentinel_at [2, 65, 0, 0] (s.in_pos - 2)) ∨
      (∃ e, decompress_lz77 5 (List.replicate 4096 0) [2, 65, 0, 0] 4 [0] 1 = .throw e ∧
        e.of_lz77 = true)) :=
  ⟨List.length_replicate _ _, rfl, rfl, by decide, by decide, by decide,
   (lz77_returns_only_at_sentinel (List.replicate 4096 0) [2, 65, 0, 0] [0] 4 1 5
      (List.length_replicate _ _) rfl rfl (by decide) (by decide) (by decide)).1⟩

theorem bind_append_step {α β : Type} (x : Outcome α) (f g : α → Outcome β) (e1 e2 : exception)
    (h : ∀ a, g a = .throw e1 ∨ g a = .throw e2 ∨ f a = g a) :
    x.bind g = .throw e1 ∨ x.bind g = .throw e2 ∨ x.bind f = x.bind g := by
  cases x with
  | ok a => exact h a
  | throw e => exact Or.inr (Or.inr rfl)
  | oob => exact Or.inr (Or.inr rfl)
  | diverge => exact Or.inr (Or.inr rfl)

theorem lz77_bits_append (input t : List byte) (len len1 max_bytes : Nat)
    (hin : input.length = len) (h0 : 0 < len) (hle : len ≤ len1) (hl : len1 < SIZE) :
    ∀ (n tag : Nat) (s : lz77_state),
      lz77_bits input len max_bytes n tag s = .throw .lz77_expected_byte ∨
      lz77_bits input len max_bytes n tag s = .throw .lz77_expected_window ∨
      lz77_bits (input ++ t) len1 max_bytes n tag s = lz77_bits input len max_bytes n tag s := by
  have hlm := size_pred_mod len h0 (by omega)
  have hlm1 := size_pred_mod len1 (by omega) hl
  intro n
  induction n with
  | zero => intro tag s; exact Or.inr (Or.inr rfl)
  | succ n ih =>
    intro tag s
    simp only [lz77_bits]
    by_cases ht : tag &&& 1 = 0
    · simp only [if_pos ht]
      by_cases ha : s.in_pos ≥ len
      · simp only [if_pos ha, true_or]
      · have ha1 : ¬ s.in_pos ≥ len1 := by omega
        have hi : (input ++ t)[s.in_pos]? = input[s.in_pos]? :=
          List.getElem?_append_left (by omega)
        simp only [if_neg ha, if_neg ha1, hi]
        by_cases hb : s.out_pos ≥ max_bytes
        · simp only [if_pos hb, or_true]
        · simp only [if_neg hb]
          refine bind_append_step _ _ _ _ _ (fun b => ?_)
          refine bind_append_step _ _ _ _ _ (fun o => ?_)
          refine bind_append_step _ _ _ _ _ (fun w => ?_)
          exact ih _ _
    · simp only [if_neg ht, hlm, hlm1]
      by_cases ha : s.in_pos ≥ len - 1
      · simp only [if_pos ha, true_or, or_true]
      · have ha1 : ¬ s.in_pos ≥ len1 - 1 := by omega
        have hi0 : (input ++ t)[s.in_pos]? = input[s.in_pos]? :=
          List.getElem?_append_left (by omega)
        have hi1 : (input ++ t)[s.in_pos + 1]? = input[s.in_pos + 1]? :=
          List.getElem?_append_left (by omega)
        simp only [if_neg ha, if_neg ha1, hi0, hi1]
        refine bind_append_step _ _ _ _ _ (fun b0 => ?_)
        refine bind_append_step _ _ _ _ _ (fun b1 => ?_)
        by_cases hz : le16 b0 b1 >>> 4 = 0
        · simp only [if_pos hz, or_true]
        · simp only [if_neg hz]
          by_cases hov : (s.out_pos + ((le16 b0 b1 &&& 0x0F) + 2)) % SIZE > max_bytes
          · simp only [if_pos hov, or_true]
          · simp only [if_neg hov]
            refine bind_append_step _ _ _ _ _ (fun s2 => ?_)
            exact ih _ _

theorem lz77_loop_append (input t : List byte) (len len1 max_bytes : Nat)
    (hin : input.length = len) (hle : len ≤ len1) (hl : len1 < SIZE) :
    ∀ (fuel : Nat) (s s1 : lz77_state),
      lz77_loop input len max_bytes fuel s = .ok s1 →
      lz77_loop (input ++ t) len1 max_bytes fuel s = .ok s1 := by
  intro fuel
  induction fuel with
  | zero => intro s s1 h; exact Outcome.noConfusion h
  | succ fuel ih =>
    intro s s1
    simp only [lz77_loop]
    by_cases ha : s.in_pos ≥ len
    · simp only [if_pos ha]
      intro h
      exact Outcome.noConfusion h
    · have ha1 : ¬ s.in_pos ≥ len1 := by omega
      have hi : (input ++ t)[s.in_pos]? = input[s.in_pos]? :=
        List.getElem?_append_left (by omega)
      have hld : load input[s.in_pos]? = .ok (input.get ⟨s.in_pos, by omega⟩) :=
        load_getElem _ _ _
      simp only [if_neg ha, if_neg ha1, hi, hld, Outcome.bind]
      rcases lz77_bits_append input t len len1 max_bytes hin (by omega) hle hl 8
          (input.get ⟨s.in_pos, by omega⟩).val { s with in_pos := s.in_pos + 1 } with
        e | e | e
      · rw [e]; intro h; exact Outcome.noConfusion h
      · rw [e]; intro h; exact Outcome.noConfusion h
      · rw [e]
        cases lz77_bits input len max_bytes 8 (input.get ⟨s.in_pos, by omega⟩).val
            { s with in_pos := s.in_pos + 1 } with
        | ok r =>
          cases r with
          | next s2 => exact ih s2 s1
          | returned s2 => exact id
        | throw e => exact id
        | oob => exact id
        | diverge => exact id

/-- C14: if `decompress_lz77` returns on an input, it returns in the same state
(same output, same cursors, so nothing past the sentinel is consumed) on that
input followed by any bytes `t`, with the same `max_bytes`, window and output
memory. The return happens at a back-reference whose offset field is 0: the
tag loop executes `return` there whatever bits remain in the tag and however
many of its eight rounds remain. -/
theorem lz77_ignores_input_after_sentinel (fuel : Nat) (window0 input t out : List byte)
    (max_bytes : Nat) (hl : (input ++ t).length < SIZE) :
    (∀ s, decompress_lz77_run fuel window0 input input.length out max_bytes = .ok s →
      decompress_lz77_run fuel window0 (input ++ t) (input ++ t).length out max_bytes = .ok s) ∧
    (∀ o, decompress_lz77 fuel window0 input input.length out max_bytes = .ok o →
      decompress_lz77 fuel window0 (input ++ t) (input ++ t).length out max_bytes = .ok o) ∧
    (∀ (n tag : Nat) (s : lz77_state) (b0 b1 : byte), tag &&& 1 ≠ 0 →
      s.in_pos + 1 < input.length →
      input[s.in_pos]? = some b0 → input[s.in_pos + 1]? = some b1 → le16 b0 b1 >>> 4 = 0 →
      lz77_bits input input.length max_bytes (n + 1) tag s
        = .ok (.returned { s with in_pos := s.in_pos + 2 })) := by
  have hlen : input.length ≤ (input ++ t).length := by
    rw [List.length_append]; exact Nat.le_add_right _ _
  have hrun : ∀ s, decompress_lz77_run fuel window0 input input.length out max_bytes = .ok s →
      decompress_lz77_run fuel window0 (input ++ t) (input ++ t).length out max_bytes = .ok s :=
    fun s h => lz77_loop_append input t input.length (input ++ t).length max_bytes rfl hlen hl
      fuel _ s h
  refine ⟨hrun, fun o h => ?_, fun n tag s b0 b1 ht hi hb0 hb1 hz =>
    lz77_sentinel_step input input.length max_bytes n tag s b0 b1 (by omega) (by omega) ht hi
      hb0 hb1 hz⟩
  rw [decompress_lz77] at h ⊢
  cases hr : decompress_lz77_run fuel window0 input input.length out max_bytes with
  | ok s => rw [hr] at h; rw [hrun s hr]; exact h
  | throw e => rw [hr] at h; exact Outcome.noConfusion h
  | oob => rw [hr] at h; exact Outcome.noConfusion h
  | diverge => rw [hr] at h; exact Outcome.noConfusion h

/-- Witness of C14: the input "literal 'A', sentinel" followed by two more
bytes still decodes to "A". -/
theorem lz77_ignores_input_after_sentinel_witness :
    (([2, 65, 0, 0] : List byte) ++ [9, 9]).length < SIZE ∧
    decompress_lz77 5 (List.replicate 4096 0) ([2, 65, 0, 0] ++ [9, 9])
      (([2, 65, 0, 0] : List byte) ++ [9, 9]).length [0] 1 = .ok [65] :=
  ⟨by decide,
   (lz77_ignores_input_after_sentinel 5 (List.replicate 4096 0) [2, 65, 0, 0] [9, 9] [0] 1
      (by decide)).2.1 [65] (by decide!)⟩

theorem decrypt_loop_get (key seed : byte) :
    ∀ (l : List byte) (i j : Nat) (b : byte), l[j]? = some b →
      (decrypt_loop key seed i l)[j]?
        = some (u8 (b.val ^^^ ((u8 (seed.val + (u8 (i + j)).val)).val ^^^ key.val))) := by
  intro l
  induction l with
  | nil => intro i j b h; simp at h
  | cons a rest ih =>
    intro i j b h
    cases j with
    | zero =>
      simp only [List.getElem?_cons_zero, Option.some.injEq] at h
      subst h
      simp only [decrypt_loop, List.getElem?_cons_zero, Nat.add_zero]
    | succ j =>
      simp only [List.getElem?_cons_succ] at h
      have := ih (i + 1) j b h
      simp only [decrypt_loop, List.getElem?_cons_succ]
      rw [this, show i + 1 + j = i + (j + 1) by omega]

theorem seed_val (data : List byte) (P : Nat) :
    (u8 ((⟨data, P, false⟩ : istream).tellg % 256).toNat).val = P % 256 := by
  simp only [istream.tellg, u8, Bool.false_eq_true, if_false]
  omega

theorem decrypt_byte_val (b key : byte) (P i : Nat) :
    (u8 (b.val ^^^ ((u8 (P % 256 + (u8 (0 + i)).val)).val ^^^ key.val))).val
      = b.val ^^^ ((P + i) % 256) ^^^ key.val := by
  have hp : (u8 (P % 256 + (u8 (0 + i)).val)).val = (P + i) % 256 := by
    simp only [u8]
    omega
  have h1 : (P + i) % 256 < 2 ^ 8 := Nat.mod_lt _ (by decide)
  have h2 : (P + i) % 256 ^^^ key.val < 2 ^ 8 := Nat.xor_lt_two_pow h1 key.isLt
  have h3 : b.val ^^^ ((P + i) % 256 ^^^ key.val) < 256 :=
    Nat.xor_lt_two_pow (n := 8) b.isLt h2
  rw [hp]
  simp only [u8]
  rw [Nat.mod_eq_of_lt h3, Nat.xor_assoc]

theorem read_bytes (data : List byte) (P N i : Nat) (hi : i < N) :
    ((⟨data, P, false⟩ : istream).read N).1[i]? = data[P + i]? := by
  simp only [istream.read, Bool.false_eq_true, if_false, List.getElem?_take, hi, if_true,
    List.getElem?_drop]


/-- C17: a decrypting read of `N` bytes at position `P` of a good stream that
holds them returns `N` bytes and leaves the stream at `P + N`; byte `i` is
`stream[P + i] xor ((P + i) mod 256) xor K` when `K ≠ 0` and `stream[P + i]`
itself when `K = 0` (the seed is the position before the read, not after). With
`K = 0` a decrypting read is the plain read on every stream. -/
theorem read_decrypt_bytes (data : List byte) (key : byte) (P N : Nat)
    (h : P + N ≤ data.length) :
    (read_decrypt_buffer ⟨data, P, false⟩ key N).1.length = N ∧
    (read_decrypt_buffer ⟨data, P, false⟩ key N).2 = ⟨data, P + N, false⟩ ∧
    (∀ (i : Nat) (b : byte), i < N → data[P + i]? = some b →
      ∃ d, (read_decrypt_buffer ⟨data, P, false⟩ key N).1[i]? = some d ∧
        d.val = if key = 0 then b.val else b.val ^^^ ((P + i) % 256) ^^^ key.val) ∧
    (∀ (s : istream) (n : Nat), read_decrypt_buffer s 0 n = s.read n) := by
  have hfull := read_full ⟨data, P, false⟩ N rfl h
  refine ⟨?_, hfull, fun i b hi hb => ?_, fun s n => rfl⟩
  · have hg : ((⟨data, P, false⟩ : istream).read N).2.fail = false := by rw [hfull]
    simp only [read_decrypt_buffer, decrypt_buffer_length]
    exact (read_good _ _ hg).2.2
  · have hr : ((⟨data, P, false⟩ : istream).read N).1[i]? = some b := by
      rw [read_bytes data P N i hi, hb]
    by_cases hk : key = 0
    · refine ⟨b, ?_, by simp only [if_pos hk]⟩
      simp only [read_decrypt_buffer, decrypt_buffer, if_pos hk, hr]
    · refine ⟨u8 (b.val ^^^ ((u8 ((u8 ((⟨data, P, false⟩ : istream).tellg % 256).toNat).val
        + (u8 (0 + i)).val)).val ^^^ key.val)), ?_, ?_⟩
      · simp only [read_decrypt_buffer, decrypt_buffer, if_neg hk]
        exact decrypt_loop_get key _ _ 0 i b hr
      · simp only [if_neg hk]
        have hs := seed_val data P
        have hseed : u8 ((⟨data, P, false⟩ : istream).tellg % 256).toNat = u8 (P % 256) :=
          Fin.ext (by rw [hs]; simp only [u8, Nat.mod_mod])
        rw [hseed]
        have hv : (u8 (P % 256)).val = P % 256 := by simp only [u8, Nat.mod_mod]
        rw [hv]
        exact decrypt_byte_val b key P i

/-- Witness of C17: three bytes read at position 1 of a five-byte stream with
key 0x5A. -/
theorem read_decrypt_bytes_witness :
    1 + 3 ≤ ([10, 20, 30, 40, 50] : List byte).length ∧
    (read_decrypt_buffer ⟨[10, 20, 30, 40, 50], 1, false⟩ 0x5A 3).1.length = 3 ∧
    (read_decrypt_buffer ⟨[10, 20, 30, 40, 50], 1, false⟩ 0x5A 3).1 = [79, 70, 113] :=
  ⟨by decide,
   (read_decrypt_bytes [10, 20, 30, 40, 50] 0x5A 1 3 (by decide)).1, by decide⟩

theorem decrypt_loop_shift (key : byte) (P a : Nat) :
    ∀ (l : List byte) (i : Nat),
      decrypt_loop key (u8 (P % 256)) (a + i) l = decrypt_loop key (u8 ((P + a) % 256)) i l := by
  intro l
  induction l with
  | nil => intro i; rfl
  | cons x rest ih =>
    intro i
    have hp : u8 ((u8 (P % 256)).val + (u8 (a + i)).val)
        = u8 ((u8 ((P + a) % 256)).val + (u8 i).val) :=
      Fin.ext (by simp only [u8]; omega)
    simp only [decrypt_loop, hp]
    rw [show a + i + 1 = a + (i + 1) by omega, ih (i + 1)]

theorem tellg_seed (data : List byte) (P : Nat) :
    u8 ((⟨data, P, false⟩ : istream).tellg % 256).toNat = u8 (P % 256) :=
  Fin.ext (by rw [seed_val]; simp only [u8, Nat.mod_mod])

theorem decrypt_buffer_split (key : byte) (P : Nat) (l1 l2 : List byte) :
    (decrypt_buffer key (u8 (P % 256)) (l1 ++ l2)).2
      = (decrypt_buffer key (u8 (P % 256)) l1).2
        ++ (decrypt_buffer key (u8 ((P + l1.length) % 256)) l2).2 := by
  by_cases hk : key = 0
  · simp only [decrypt_buffer, if_pos hk]
  · simp only [decrypt_buffer, if_neg hk, decrypt_loop_append]
    rw [← decrypt_loop_shift key P l1.length l2 0, Nat.add_zero, Nat.zero_add]

theorem decrypt_buffer_nil (key seed : byte) : (decrypt_buffer key seed []).2 = [] := by
  by_cases hk : key = 0
  · simp only [decrypt_buffer, if_pos hk]
  · simp only [decrypt_buffer, if_neg hk, decrypt_loop]

theorem read_failed_mk (data : List byte) (pos n : Nat) :
    (⟨data, pos, true⟩ : istream).read n = ([], ⟨data, pos, true⟩) :=
  read_failed _ _ rfl

/-- C18: on every stream and for every key, one decrypting read of `a + b`
bytes leaves the same bytes and the same stream as a decrypting read of `a`
bytes followed by one of `b` bytes (which starts where the first one ended,
`a` bytes further when the first is complete). This holds too when the stream
is short or has failed, and wherever the range lies with respect to the
multiples of 256. -/
theorem read_decrypt_split (s : istream) (key : byte) (a b : Nat) :
    read_decrypt_buffer s key (a + b)
      = ((read_decrypt_buffer s key a).1
            ++ (read_decrypt_buffer (read_decrypt_buffer s key a).2 key b).1,
         (read_decrypt_buffer (read_decrypt_buffer s key a).2 key b).2) := by
  obtain ⟨data, pos, fail⟩ := s
  cases fail with
  | true =>
    simp only [read_decrypt_buffer, read_failed_mk, decrypt_buffer_nil, List.append_nil]
  | false =>
    simp only [read_decrypt_buffer, tellg_seed]
    generalize hD : data.drop pos = D
    by_cases h1 : D.length < a
    · have e1 : (⟨data, pos, false⟩ : istream).read a = (D, ⟨data, pos + D.length, true⟩) := by
        simp only [istream.read, Bool.false_eq_true, if_false, hD,
          List.take_of_length_le (Nat.le_of_lt h1), h1, decide_True]
      have e2 : (⟨data, pos, false⟩ : istream).read (a + b)
          = (D, ⟨data, pos + D.length, true⟩) := by
        have h2 : D.length < a + b := by omega
        simp only [istream.read, Bool.false_eq_true, if_false, hD,
          List.take_of_length_le (Nat.le_of_lt h2), h2, decide_True]
      simp only [e1, e2, read_failed_mk, decrypt_buffer_nil, List.append_nil]
    · have hl : (D.take a).length = a := by
        rw [List.length_take]; omega
      have e1 : (⟨data, pos, false⟩ : istream).read a = (D.take a, ⟨data, pos + a, false⟩) := by
        simp only [istream.read, Bool.false_eq_true, if_false, hD, hl, Nat.lt_irrefl,
          decide_False]
      have hdrop : data.drop (pos + a) = D.drop a := by
        rw [← hD, List.drop_drop, Nat.add_comm]
      have e3 : (⟨data, pos + a, false⟩ : istream).read b
          = ((D.drop a).take b,
             ⟨data, pos + a + ((D.drop a).take b).length,
               decide (((D.drop a).take b).length < b)⟩) := by
        simp only [istream.read, Bool.false_eq_true, if_false, hdrop]
      have htake : D.take (a + b) = D.take a ++ (D.drop a).take b := List.take_add _ _ _
      have e2 : (⟨data, pos, false⟩ : istream).read (a + b)
          = (D.take a ++ (D.drop a).take b,
             ⟨data, pos + a + ((D.drop a).take b).length,
               decide (((D.drop a).take b).length < b)⟩) := by
        simp only [istream.read, Bool.false_eq_true, if_false, hD, htake, List.length_append,
          hl, Nat.add_assoc, Nat.add_lt_add_iff_left]
      simp only [e1, e2, e3, tellg_seed]
      rw [decrypt_buffer_split, hl]

theorem rotate_key (h : byte) :
    (u8 ((u8 ((0 : byte).val ||| (h.val <<< 2))).val ||| (h.val >>> 6))).val
        = ((h.val <<< 2) ||| (h.val >>> 6)) &&& 0xFF ∧
      (u8 ((u8 ((0 : byte).val ||| (h.val <<< 2))).val ||| (h.val >>> 6)) = 0 ↔ h = 0) := by
  revert h
  decide!

theorem header_key_low (data : List byte) :
    u8 (u32_at ((read_raw_value (istream.fresh data) sizeof_hpi_version).2.read
      sizeof_hpi_header).1 4) = u8 (u32_at data 12) := by
  have hlow : ∀ l : List byte, ∀ i, u8 (u32_at l i) = l.getD i 0 := by
    intro l i
    apply Fin.ext
    have := (l.getD i 0).isLt
    simp only [u8, u32_at, le32]
    omega
  rw [hlow, hlow]
  by_cases hlen : 8 ≤ data.length
  · have e : (read_raw_value (istream.fresh data) sizeof_hpi_version).2 = ⟨data, 8, false⟩ := by
      simp only [read_raw_value, sizeof_hpi_version]
      exact read_full (istream.fresh data) 8 rfl (by simpa [istream.fresh] using hlen)
    rw [e]
    simp only [istream.read, Bool.false_eq_true, if_false, sizeof_hpi_header,
      List.getD_eq_getElem?_getD, List.getElem?_take, List.getElem?_drop]
    simp
  · have hlt : data.length < 8 := by omega
    have hshort : (data.take 8).length < 8 := by
      rw [List.length_take]; omega
    have e : (read_raw_value (istream.fresh data) sizeof_hpi_version).2
        = ⟨data, (data.take 8).length, true⟩ := by
      simp [read_raw_value, sizeof_hpi_version, istream.read, istream.fresh, hlt]
    have h1 : data[12]? = none := List.getElem?_eq_none (by omega)
    rw [e, read_failed_mk]
    simp [List.getD_eq_getElem?_getD, h1]

theorem open_key (fuel : Nat) (self : hpi_archive) (data : List byte) (a : hpi_archive)
    (h : self.open_ fuel (istream.fresh data) = .ok a) :
    a.decrypt_key = u8 ((u8 (self.decrypt_key.val ||| ((u8 (u32_at data 12)).val <<< 2))).val
      ||| ((u8 (u32_at data 12)).val >>> 6)) := by
  rw [← header_key_low data]
  generalize hh : (⟨u32_at ((read_raw_value (istream.fresh data) sizeof_hpi_version).2.read
        sizeof_hpi_header).1 0,
      u32_at ((read_raw_value (istream.fresh data) sizeof_hpi_version).2.read sizeof_hpi_header).1 4,
      u32_at ((read_raw_value (istream.fresh data) sizeof_hpi_version).2.read
        sizeof_hpi_header).1 8⟩ : hpi_header) = hdr
  generalize hs : ((read_raw_value (istream.fresh data) sizeof_hpi_version).2.read
    sizeof_hpi_header).2 = s2
  rw [open_fresh_unfold fuel self data hdr s2 hs.symm hh.symm] at h
  have hk : hdr.header_key = u32_at ((read_raw_value (istream.fresh data)
      sizeof_hpi_version).2.read sizeof_hpi_header).1 4 := by rw [← hh]
  rw [← hk]
  by_cases hm : u32_at data 0 ≠ HPI_MAGIC_NUMBER
  · rw [if_pos hm] at h; exact Outcome.noConfusion h
  · rw [if_neg hm] at h
    by_cases hv : u32_at data 4 ≠ HPI_VERSION_NUMBER
    · rw [if_pos hv] at h; exact Outcome.noConfusion h
    · rw [if_neg hv] at h
      dsimp only at h
      obtain ⟨buffer, _, h⟩ := (outcome_bind_eq_ok _ _ _).1 h
      by_cases hr : hdr.start + sizeof_hpi_path_data > hdr.directory_size
      · rw [if_pos hr] at h; exact Outcome.noConfusion h
      · rw [if_neg hr] at h
        obtain ⟨hpd, _, h⟩ := (outcome_bind_eq_ok _ _ _).1 h
        obtain ⟨root, _, h⟩ := (outcome_bind_eq_ok _ _ _).1 h
        cases h
        rfl

/-- C16: when `open` succeeds on a default-constructed archive (key 0), the
key it leaves is `((h << 2) | (h >> 6)) & 0xFF`, where `h` is the low byte of
the `header_key` field (the little-endian u32 at offset 12 of the stream); the
other 24 bits of the field do not enter. The key is 0 exactly when `h = 0`. -/
theorem open_derives_key (fuel : Nat) (data : List byte) (a : hpi_archive)
    (h : hpi_archive.fresh.open_ fuel (istream.fresh data) = .ok a) :
    a.decrypt_key.val
        = (((u32_at data 12 % 256) <<< 2) ||| ((u32_at data 12 % 256) >>> 6)) &&& 0xFF ∧
      (a.decrypt_key = 0 ↔ u32_at data 12 % 256 = 0) := by
  rw [open_key fuel _ data a h]
  have hr := rotate_key (u8 (u32_at data 12))
  have hv : (u8 (u32_at data 12)).val = u32_at data 12 % 256 := rfl
  have hz : u8 (u32_at data 12) = 0 ↔ u32_at data 12 % 256 = 0 :=
    ⟨fun e => by rw [← hv, e]; rfl, fun e => Fin.ext (by rw [hv, e]; rfl)⟩
  rw [hv] at hr
  exact ⟨hr.1, hr.2.trans hz⟩

/-- Witness of C16: an archive whose `header_key` is 0xEFCDAB96 opens with the
key 0x5A, the rotation of 0x96. -/
theorem open_derives_key_witness :
    hpi_archive.fresh.open_ 1 (istream.fresh keyed_root_archive)
        = .ok ⟨⟨keyed_root_archive, 28, false⟩, .mk [], 0x5A⟩ ∧
      u32_at keyed_root_archive 12 = 0xEFCDAB96 ∧
      (0x5A : byte).val
        = (((u32_at keyed_root_archive 12 % 256) <<< 2)
            ||| ((u32_at keyed_root_archive 12 % 256) >>> 6)) &&& 0xFF :=
  ⟨rfl, by decide,
   (open_derives_key 1 keyed_root_archive ⟨⟨keyed_root_archive, 28, false⟩, .mk [], 0x5A⟩
      rfl).1⟩

theorem land_fff (x : Nat) (h : x < 4096) : x &&& 0xFFF = x := by
  have e : (0xFFF : Nat) = 2 ^ 12 - 1 := by decide
  rw [e, Nat.and_pow_two_sub_one_eq_mod, Nat.mod_eq_of_lt (by omega)]

theorem lz77_literal_step (input : List byte) (len max_bytes n tag : Nat) (s : lz77_state)
    (b : byte) (ht : tag &&& 1 = 0) (hi : s.in_pos < len) (ho : s.out_pos < max_bytes)
    (hb : input[s.in_pos]? = some b) (hol : s.out_pos < s.out.length)
    (hwl : s.window_pos < s.window.length) :
    lz77_bits input len max_bytes (n + 1) tag s
      = lz77_bits input len max_bytes n (tag >>> 1)
          { in_pos := s.in_pos + 1, out_pos := s.out_pos + 1,
            window_pos := (s.window_pos + 1) &&& 0xFFF, out := s.out.set s.out_pos b,
            window := s.window.set s.window_pos b } := by
  have hi1 : ¬ s.in_pos ≥ len := by omega
  have ho1 : ¬ s.out_pos ≥ max_bytes := by omega
  rw [lz77_bits]
  simp only [if_pos ht, if_neg hi1, if_neg ho1, hb, load, store_byte, if_pos hol, if_pos hwl,
    Outcome.bind]

theorem lz77_backref_step (input : List byte) (len max_bytes n tag : Nat) (s s2 : lz77_state)
    (b0 b1 : byte) (h0 : 0 < len) (hl : len < SIZE) (hm : max_bytes + 17 < SIZE)
    (ht : tag &&& 1 ≠ 0) (hi : s.in_pos + 1 < len)
    (hb0 : input[s.in_pos]? = some b0) (hb1 : input[s.in_pos + 1]? = some b1)
    (hz : le16 b0 b1 >>> 4 ≠ 0) (hov : s.out_pos + ((le16 b0 b1 &&& 0x0F) + 2) ≤ max_bytes)
    (hc : lz77_copy ((le16 b0 b1 &&& 0x0F) + 2) (le16 b0 b1 >>> 4)
      { s with in_pos := s.in_pos + 2 } = .ok s2) :
    lz77_bits input len max_bytes (n + 1) tag s
      = lz77_bits input len max_bytes n (tag >>> 1) s2 := by
  have hlm := size_pred_mod len h0 hl
  have hcnt := le16_count_le b0 b1
  have hmod : (s.out_pos + ((le16 b0 b1 &&& 0x0F) + 2)) % SIZE =
      s.out_pos + ((le16 b0 b1 &&& 0x0F) + 2) := Nat.mod_eq_of_lt (by omega)
  have ha : ¬ s.in_pos ≥ len - 1 := by omega
  have hov1 : ¬ s.out_pos + ((le16 b0 b1 &&& 0x0F) + 2) > max_bytes := by omega
  rw [lz77_bits]
  simp only [if_neg ht, hlm, if_neg ha, hb0, hb1, load, Outcome.bind, if_neg hz, hmod,
    if_neg hov1, hc]

theorem lz77_copy_run (b : byte) :
    ∀ (x offset : Nat) (s : lz77_state), offset + x + 1 < 4096 → s.window_pos = offset + 1 →
      s.window[offset]? = some b → s.window.length = 4096 → s.out_pos + x ≤ s.out.length →
      ∃ s1, lz77_copy x offset s = .ok s1 ∧ s1.in_pos = s.in_pos ∧
        s1.out_pos = s.out_pos + x ∧ s1.out.length = s.out.length ∧
        (∀ k : Nat, k < s.out_pos → s1.out[k]? = s.out[k]?) ∧
        (∀ k : Nat, s.out_pos ≤ k → k < s.out_pos + x → s1.out[k]? = some b) := by
  intro x
  induction x with
  | zero =>
    intro offset s _ _ _ _ _
    exact ⟨s, rfl, rfl, rfl, rfl, fun _ _ => rfl, fun k h1 h2 => by omega⟩
  | succ x ih =>
    intro offset s hoff hwp hb hwl hol
    have hol1 : s.out_pos < s.out.length := by omega
    have hwl1 : s.window_pos < s.window.length := by omega
    have e1 : (offset + 1) &&& 0xFFF = offset + 1 := land_fff _ (by omega)
    have e2 : (s.window_pos + 1) &&& 0xFFF = offset + 1 + 1 := by
      rw [hwp]; exact land_fff _ (by omega)
    rw [lz77_copy]
    simp only [hb, load, store_byte, if_pos hol1, if_pos hwl1, Outcome.bind, e1, e2]
    obtain ⟨s1, c1, c2, c3, c4, c5, c6⟩ := ih (offset + 1)
      { s with out_pos := s.out_pos + 1, window_pos := offset + 1 + 1,
               out := s.out.set s.out_pos b, window := s.window.set s.window_pos b }
      (by omega) rfl
      (by simp only [hwp]; rw [List.getElem?_set_self (by omega)])
      (by simp only [List.length_set]; exact hwl)
      (by simp only [List.length_set]; omega)
    refine ⟨s1, c1, c2, by rw [c3]; simp only; omega,
      by rw [c4]; simp only [List.length_set], fun k hk => ?_, fun k h1 h2 => ?_⟩
    · rw [c5 k (by simp only; omega)]
      simp only
      rw [List.getElem?_set_ne (by omega)]
    · by_cases hk : k = s.out_pos
      · rw [c5 k (by simp only; omega), hk]
        simp only
        rw [List.getElem?_set_self hol1]
      · exact c6 k (by simp only; omega) (by simp only; omega)

/-- C19, with the tag byte that makes the first item a literal: the chunk
`0b00000110, 'A', {offset 1, count 7}, {offset 0}` decoded with
`max_bytes = 8` returns and leaves "AAAAAAAA" in the output, whatever the
window and the output memory held before and for any fuel of at least one
round. -/
theorem scenario_C_tag6_decodes (fuel : Nat) (window0 out : List byte)
    (hwin : window0.length = 4096) (hout : out.length = 8) :
    decompress_lz77 (fuel + 1) window0 scenario_C_tag6 6 out 8
      = .ok [65, 65, 65, 65, 65, 65, 65, 65] := by
  have hs : (8 : Nat) + 17 < SIZE := by decide
  have hl : (6 : Nat) < SIZE := by decide
  have st1 := lz77_literal_step scenario_C_tag6 6 8 7 6 ⟨1, 0, 1, out, window0⟩ 65
    (by decide) (show (1 : Nat) < 6 by decide) (show (0 : Nat) < 8 by decide) rfl
    (show 0 < out.length by omega) (show 1 < window0.length by omega)
  have hcount : (le16 (0x15 : byte) (0 : byte) &&& 0x0F) + 2 = 7 := by decide
  have hoffset : le16 (0x15 : byte) (0 : byte) >>> 4 = 1 := by decide
  obtain ⟨s2, c1, c2, c3, c4, c5, c6⟩ := lz77_copy_run 65 7 1
    ⟨4, 1, 2, out.set 0 65, window0.set 1 65⟩ (by decide) rfl
    (List.getElem?_set_self (by omega)) (by simp only [List.length_set]; exact hwin)
    (show 1 + 7 ≤ (out.set 0 65).length by simp only [List.length_set]; omega)
  have c1a : lz77_copy ((le16 (0x15 : byte) (0 : byte) &&& 0x0F) + 2)
      (le16 (0x15 : byte) (0 : byte) >>> 4)
      { (⟨2, 1, (1 + 1) &&& 0xFFF, out.set 0 65, window0.set 1 65⟩ : lz77_state) with
        in_pos := 2 + 2 } = .ok s2 := by
    rw [hcount, hoffset]
    exact c1
  have st2 := lz77_backref_step scenario_C_tag6 6 8 6 (6 >>> 1)
    ⟨2, 1, (1 + 1) &&& 0xFFF, out.set 0 65, window0.set 1 65⟩ s2 0x15 0
    (by decide) hl hs (by decide) (show 2 + 1 < 6 by decide) rfl rfl (by decide)
    (show 1 + ((le16 (0x15 : byte) (0 : byte) &&& 0x0F) + 2) ≤ 8 by decide) c1a
  have hin : s2.in_pos = 4 := c2
  have st3 := lz77_sentinel_step scenario_C_tag6 6 8 5 (6 >>> 1 >>> 1) s2 0 0
    (by decide) hl (by decide) (by rw [hin]; decide) (by rw [hin]; rfl) (by rw [hin]; rfl)
    (by decide)
  have hbits : lz77_bits scenario_C_tag6 6 8 8 (6 : byte).val
      { (⟨0, 0, 1, out, window0⟩ : lz77_state) with in_pos := 0 + 1 }
      = .ok (.returned { s2 with in_pos := s2.in_pos + 2 }) := by
    rw [← st3, ← st2]
    exact st1
  have hloop := lz77_loop_returned scenario_C_tag6 6 8 fuel ⟨0, 0, 1, out, window0⟩ _ 6
    (show (0 : Nat) < 6 by decide) rfl hbits
  have hlen : s2.out.length = 8 := by rw [c4]; simp only [List.length_set]; exact hout
  have hall : ∀ k : Nat, k < 8 → s2.out[k]? = some 65 := by
    intro k hk
    by_cases h0 : k < 1
    · rw [c5 k h0]
      have : k = 0 := by omega
      subst this
      exact List.getElem?_set_self (by omega)
    · exact c6 k (by simp only; omega) (by simp only; omega)
  have hout2 : s2.out = [65, 65, 65, 65, 65, 65, 65, 65] := by
    apply List.ext_getElem?
    intro k
    by_cases hk : k < 8
    · rw [hall k hk]
      have h8 : k = 0 ∨ k = 1 ∨ k = 2 ∨ k = 3 ∨ k = 4 ∨ k = 5 ∨ k = 6 ∨ k = 7 := by omega
      rcases h8 with h | h | h | h | h | h | h | h <;> subst h <;> rfl
    · rw [List.getElem?_eq_none (by omega), List.getElem?_eq_none (by simp only [List.length]; omega)]
  rw [decompress_lz77, decompress_lz77_run, hloop]
  simp only [Outcome.bind, hout2]

/-- Witness of C19: the window holding 0xAA throughout and a zeroed output. -/
theorem scenario_C_tag6_decodes_witness :
    (List.replicate 4096 (0xAA : byte)).length = 4096 ∧
    (List.replicate 8 (0 : byte)).length = 8 ∧
    decompress_lz77 (0 + 1) (List.replicate 4096 0xAA) scenario_C_tag6 6 (List.replicate 8 0) 8
      = .ok [65, 65, 65, 65, 65, 65, 65, 65] :=
  ⟨List.length_replicate _ _, List.length_replicate _ _,
   scenario_C_tag6_decodes 0 (List.replicate 4096 0xAA) (List.replicate 8 0)
     (List.length_replicate _ _) (List.length_replicate _ _)⟩

/-- C19 as stated: under the tag `0b00000001` the first item is a pair, not a
literal ('A' and 0x15 are read as `{offset 0x154, count 3}`), the next bits
are literals, and the input runs out: the call throws "expected byte". -/
theorem scenario_C_tag1_throws :
    decompress_lz77 2 (List.replicate 4096 0) scenario_C_tag1 6 (List.replicate 8 0) 8
      = .throw .lz77_expected_byte := by
  decide!

/-- C20: the window is not initialised. The input `tag 0b00000011, {offset 2,
count 2}, {offset 0}` copies two window bytes that the call has not written:
with a zeroed array it emits `0, 0`, with an array holding 0xAA it emits
`0xAA, 0xAA`. The output is not a function of the input and `max_bytes`. -/
theorem lz77_output_depends_on_window :
    decompress_lz77 2 (List.replicate 4096 0) [0b00000011, 0x20, 0x00, 0x00, 0x00] 5 [0, 0] 2
        = .ok [0, 0] ∧
      decompress_lz77 2 (List.replicate 4096 0xAA) [0b00000011, 0x20, 0x00, 0x00, 0x00] 5
        [0, 0] 2 = .ok [0xAA, 0xAA] := by
  decide!

theorem intercalate_cons_of_ne_nil (sep a : List byte) (l : List (List byte)) (h : l ≠ []) :
    List.intercalate sep (a :: l) = a ++ sep ++ List.intercalate sep l := by
  cases l with
  | nil => exact absurd rfl h
  | cons b rest => simp [List.intercalate, List.intersperse]

theorem str_split_internal_ne_nil (chrs rest cur : List byte) :
    str_split_internal chrs cur rest ≠ [] := by
  obtain ⟨comps, back, h⟩ := str_split_internal_last chrs rest cur
  rw [h]
  simp

theorem str_split_internal_slash (rest : List byte) :
    ∀ cur : List byte, (47 : byte) ∉ cur →
      (str_split_internal [47] cur rest).length = rest.count 47 + 1 ∧
      (∀ comp ∈ str_split_internal [47] cur rest, (47 : byte) ∉ comp) ∧
      List.intercalate [47] (str_split_internal [47] cur rest) = cur ++ rest := by
  induction rest with
  | nil =>
    intro cur hcur
    refine ⟨rfl, ?_, ?_⟩
    · intro comp hc
      simp only [str_split_internal, List.mem_singleton] at hc
      rw [hc]; exact hcur
    · simp [str_split_internal, List.intercalate]
  | cons c rest ih =>
    intro cur hcur
    by_cases hc : c = 47
    · subst hc
      obtain ⟨h1, h2, h3⟩ := ih [] (by simp)
      have e : str_split_internal [47] cur (47 :: rest)
          = cur :: str_split_internal [47] [] rest := by
        simp [str_split_internal]
      rw [e]
      refine ⟨by rw [List.length_cons, h1, List.count_cons_self], ?_, ?_⟩
      · intro comp hm
        rcases List.mem_cons.1 hm with h | h
        · rw [h]; exact hcur
        · exact h2 comp h
      · rw [intercalate_cons_of_ne_nil _ _ _ (str_split_internal_ne_nil _ _ _), h3]
        simp
    · have hcur1 : (47 : byte) ∉ cur ++ [c] := by
        simp only [List.mem_append, List.mem_singleton, not_or]
        exact ⟨hcur, fun h => hc h.symm⟩
      obtain ⟨h1, h2, h3⟩ := ih (cur ++ [c]) hcur1
      have e : str_split_internal [47] cur (c :: rest)
          = str_split_internal [47] (cur ++ [c]) rest := by
        simp [str_split_internal, hc]
      rw [e]
      refine ⟨by rw [h1, List.count_cons_of_ne (fun h => hc h.symm)], h2, ?_⟩
      rw [h3]
      simp

/-- C27: for every string `s`, `str_split(s, "/")` is not empty, has one
component more than `s` has '/' characters, no component contains '/', and
the components joined with '/' are `s`. The empty string gives the single
component ""; "/a//b/" gives "", "a", "", "b", "". -/
theorem str_split_slash (s : List byte) :
    str_split s [47] ≠ [] ∧
    (str_split s [47]).length = s.count 47 + 1 ∧
    (∀ comp ∈ str_split s [47], (47 : byte) ∉ comp) ∧
    List.intercalate [47] (str_split s [47]) = s ∧
    str_split [] [47] = [[]] ∧
    str_split [47, 97, 47, 47, 98, 47] [47] = [[], [97], [], [98], []] := by
  obtain ⟨h1, h2, h3⟩ := str_split_internal_slash s [] (by simp)
  exact ⟨str_split_internal_ne_nil _ _ _, h1, h2, by simpa using h3, rfl, by decide⟩

theorem store_byte_cases (mem : List byte) (i : Nat) (b : byte) :
    store_byte mem i b = .ok (mem.set i b) ∨ store_byte mem i b = .oob := by
  unfold store_byte
  by_cases h : i < mem.length
  · simp only [if_pos h, true_or]
  · simp only [if_neg h, or_true]

theorem lz77_copy_progress :
    ∀ (x offset : Nat) (s : lz77_state),
      (∃ s1, lz77_copy x offset s = .ok s1 ∧ s1.in_pos = s.in_pos) ∨
      lz77_copy x offset s = .oob := by
  intro x
  induction x with
  | zero => intro offset s; exact Or.inl ⟨s, rfl, rfl⟩
  | succ x ih =>
    intro offset s
    rw [lz77_copy]
    cases hl : s.window[offset]? with
    | none => exact Or.inr rfl
    | some b =>
      simp only [load, Outcome.bind]
      rcases store_byte_cases s.out s.out_pos b with ho | ho
      · rcases store_byte_cases s.window s.window_pos b with hw | hw
        · simp only [ho, hw, Outcome.bind]
          rcases ih ((offset + 1) &&& 0xFFF)
              { s with out_pos := s.out_pos + 1, window_pos := (s.window_pos + 1) &&& 0xFFF,
                       out := s.out.set s.out_pos b, window := s.window.set s.window_pos b } with
            ⟨s1, e, hp⟩ | e
          · exact Or.inl ⟨s1, e, hp⟩
          · exact Or.inr e
        · simp only [ho, hw, Outcome.bind, or_true]
      · simp only [ho, Outcome.bind, or_true]

theorem size_pred_mod_le (len : Nat) (h0 : 0 < len) : (len + SIZE - 1) % SIZE ≤ len - 1 := by
  have h : len + SIZE - 1 = (len - 1) + SIZE := by omega
  rw [h, Nat.add_mod_right]
  exact Nat.mod_le _ _

theorem lz77_bits_progress (input : List byte) (len max_bytes : Nat) (h0 : 0 < len) :
    ∀ (n tag : Nat) (s : lz77_state),
      (∃ s1, lz77_bits input len max_bytes n tag s = .ok (.next s1) ∧ s.in_pos + n ≤ s1.in_pos ∧
        (s.in_pos ≤ len → s1.in_pos ≤ len)) ∨
      (∃ s1, lz77_bits input len max_bytes n tag s = .ok (.returned s1)) ∨
      (∃ e, lz77_bits input len max_bytes n tag s = .throw e ∧ e.of_lz77 = true) ∨
      lz77_bits input len max_bytes n tag s = .oob := by
  intro n
  induction n with
  | zero => intro tag s; exact Or.inl ⟨s, rfl, Nat.le_refl _, id⟩
  | succ n ih =>
    intro tag s
    have hle := size_pred_mod_le len h0
    rw [lz77_bits]
    by_cases ht : tag &&& 1 = 0
    · simp only [if_pos ht]
      by_cases ha : s.in_pos ≥ len
      · simp only [if_pos ha]
        exact Or.inr (Or.inr (Or.inl ⟨_, rfl, rfl⟩))
      · simp only [if_neg ha]
        by_cases hb : s.out_pos ≥ max_bytes
        · simp only [if_pos hb]
          exact Or.inr (Or.inr (Or.inl ⟨_, rfl, rfl⟩))
        · simp only [if_neg hb]
          cases hl : input[s.in_pos]? with
          | none => exact Or.inr (Or.inr (Or.inr rfl))
          | some b =>
            simp only [load, Outcome.bind]
            rcases store_byte_cases s.out s.out_pos b with ho | ho
            · rcases store_byte_cases s.window s.window_pos b with hw | hw
              · simp only [ho, hw, Outcome.bind]
                rcases ih (tag >>> 1)
                    { in_pos := s.in_pos + 1, out_pos := s.out_pos + 1,
                      window_pos := (s.window_pos + 1) &&& 0xFFF,
                      out := s.out.set s.out_pos b, window := s.window.set s.window_pos b } with
                  ⟨s1, e, hp, hq⟩ | ⟨s1, e⟩ | ⟨x, e, hx⟩ | e
                · exact Or.inl ⟨s1, e, by simp only at hp; omega,
                    fun _ => hq (by simp only; omega)⟩
                · exact Or.inr (Or.inl ⟨s1, e⟩)
                · exact Or.inr (Or.inr (Or.inl ⟨x, e, hx⟩))
                · exact Or.inr (Or.inr (Or.inr e))
              · simp only [ho, hw, Outcome.bind, or_true]
            · simp only [ho, Outcome.bind, or_true]
    · simp only [if_neg ht]
      by_cases ha : s.in_pos ≥ (len + SIZE - 1) % SIZE
      · simp only [if_pos ha]
        exact Or.inr (Or.inr (Or.inl ⟨_, rfl, rfl⟩))
      · simp only [if_neg ha]
        cases hl0 : input[s.in_pos]? with
        | none => exact Or.inr (Or.inr (Or.inr rfl))
        | some b0 =>
          cases hl1 : input[s.in_pos + 1]? with
          | none => exact Or.inr (Or.inr (Or.inr rfl))
          | some b1 =>
            simp only [load, Outcome.bind]
            by_cases hz : le16 b0 b1 >>> 4 = 0
            · simp only [if_pos hz]
              exact Or.inr (Or.inl ⟨_, rfl⟩)
            · simp only [if_neg hz]
              by_cases hov : (s.out_pos + ((le16 b0 b1 &&& 0x0F) + 2)) % SIZE > max_bytes
              · simp only [if_pos hov]
                exact Or.inr (Or.inr (Or.inl ⟨_, rfl, rfl⟩))
              · simp only [if_neg hov]
                rcases lz77_copy_progress ((le16 b0 b1 &&& 0x0F) + 2) (le16 b0 b1 >>> 4)
                    { s with in_pos := s.in_pos + 2 } with ⟨s2, e2, p2⟩ | e2
                · simp only [e2, Outcome.bind]
                  rcases ih (tag >>> 1) s2 with ⟨s1, e, hp, hq⟩ | ⟨s1, e⟩ | ⟨x, e, hx⟩ | e
                  · exact Or.inl ⟨s1, e, by simp only at p2; omega,
                      fun _ => hq (by simp only at p2; omega)⟩
                  · exact Or.inr (Or.inl ⟨s1, e⟩)
                  · exact Or.inr (Or.inr (Or.inl ⟨x, e, hx⟩))
                  · exact Or.inr (Or.inr (Or.inr e))
                · simp only [e2, Outcome.bind, or_true]

theorem lz77_loop_terminates (input : List byte) (len max_bytes : Nat) :
    ∀ (fuel : Nat) (s : lz77_state), len < 9 * fuel + s.in_pos → s.in_pos ≤ len →
      lz77_loop input len max_bytes fuel s ≠ .diverge := by
  intro fuel
  induction fuel with
  | zero => intro s h1 h2; omega
  | succ fuel ih =>
    intro s h _
    rw [lz77_loop]
    by_cases ha : s.in_pos ≥ len
    · simp only [if_pos ha]
      exact fun h => Outcome.noConfusion h
    · simp only [if_neg ha]
      cases hl : input[s.in_pos]? with
      | none => exact fun h => Outcome.noConfusion h
      | some tag =>
        simp only [load, Outcome.bind]
        rcases lz77_bits_progress input len max_bytes (by omega) 8 tag.val
            { s with in_pos := s.in_pos + 1 } with ⟨s1, e, hp, hq⟩ | ⟨s1, e⟩ | ⟨x, e, hx⟩ | e
        · simp only [e]
          simp only at hp hq
          exact ih s1 (by omega) (hq (by omega))
        · simp only [e]
          exact fun h => Outcome.noConfusion h
        · simp only [e]
          exact fun h => Outcome.noConfusion h
        · simp only [e]
          exact fun h => Outcome.noConfusion h

/-- C25: `decompress_lz77` terminates, whatever the input bytes, `len`,
`max_bytes` and the memory are: `len / 9 + 1` rounds of the outer loop always
suffice (more fuel changes nothing), because a tag loop that runs through `n`
bits without returning or throwing has advanced `in_pos` by at least `n` (for
`len > 0`; with `len = 0` no tag loop starts), and the round has read the tag
byte before. When the memory is as large as the
arguments say, the call ends by returning or by throwing. -/
theorem lz77_terminates (window0 input out : List byte) (len max_bytes k : Nat) :
    decompress_lz77 (len / 9 + 1 + k) window0 input len out max_bytes ≠ .diverge ∧
    decompress_lz77 (len / 9 + 1 + k) window0 input len out max_bytes
      = decompress_lz77 (len / 9 + 1) window0 input len out max_bytes ∧
    (∀ (n tag : Nat) (s s1 : lz77_state), 0 < len →
      lz77_bits input len max_bytes n tag s = .ok (.next s1) → s.in_pos + n ≤ s1.in_pos) ∧
    (window0.length = 4096 → input.length = len → out.length = max_bytes → len < SIZE →
      max_bytes + 17 < SIZE →
      (∃ o, decompress_lz77 (len / 9 + 1 + k) window0 input len out max_bytes = .ok o) ∨
      (∃ e, decompress_lz77 (len / 9 + 1 + k) window0 input len out max_bytes = .throw e)) := by
  have hbase : decompress_lz77 (len / 9 + 1) window0 input len out max_bytes ≠ .diverge := by
    have h := lz77_loop_terminates input len max_bytes (len / 9 + 1) ⟨0, 0, 1, out, window0⟩
      (by simp only; omega) (Nat.zero_le _)
    unfold decompress_lz77 decompress_lz77_run
    cases hr : lz77_loop input len max_bytes (len / 9 + 1) ⟨0, 0, 1, out, window0⟩ with
    | ok s => exact fun h => Outcome.noConfusion h
    | throw e => exact fun h => Outcome.noConfusion h
    | oob => exact fun h => Outcome.noConfusion h
    | diverge => exact absurd hr h
  have hmore := decompress_lz77_more_fuel (len / 9 + 1) k window0 input len out max_bytes hbase
  refine ⟨by rw [hmore]; exact hbase, hmore, fun n tag s s1 h0 h => ?_, fun hw hi ho hl hm => ?_⟩
  · rcases lz77_bits_progress input len max_bytes h0 n tag s with
      ⟨s2, e, hp, _⟩ | ⟨s2, e⟩ | ⟨x, e, _⟩ | e
    · rw [e] at h
      cases h
      exact hp
    · rw [e] at h; cases h
    · rw [e] at h; cases h
    · rw [e] at h; cases h
  · rcases lz77_run_good window0 input out len max_bytes hw hi ho hl hm (len / 9 + 1 + k) with
      ⟨s1, e, _⟩ | ⟨x, e, _⟩ | ⟨e, _⟩
    · exact Or.inl ⟨s1.out, by rw [decompress_lz77, e]; rfl⟩
    · exact Or.inr ⟨x, by rw [decompress_lz77, e]; rfl⟩
    · have hd : decompress_lz77 (len / 9 + 1 + k) window0 input len out max_bytes = .diverge := by
        rw [decompress_lz77, e]; rfl
      rw [hmore] at hd
      exact absurd hd hbase

theorem xor_mod_256 (a b : Nat) : (a ^^^ b) % 256 = (a % 256) ^^^ (b % 256) := by
  have e : (256 : Nat) = 2 ^ 8 := rfl
  rw [e]
  apply Nat.eq_of_testBit_eq
  intro i
  simp only [Nat.testBit_mod_two_pow, Nat.testBit_xor]
  by_cases h : i < 8 <;> simp [h]

theorem compl_byte (c : byte) : 255 - c.val = 255 ^^^ c.val := by
  revert c
  decide!

theorem compl_xor (a b : Nat) (ha : a < 256) (hb : b < 256) :
    (255 - a) ^^^ b = 255 - (a ^^^ b) := by
  have hab : a ^^^ b < 256 := Nat.xor_lt_two_pow (n := 8) ha hb
  have h1 := compl_byte ⟨a, ha⟩
  have h2 := compl_byte ⟨a ^^^ b, hab⟩
  simp only at h1 h2
  rw [h1, h2, Nat.xor_assoc]

theorem int_xor_mod (x : Int) (n : Nat) :
    Int.xor x (n : Int) % 256 = (((x % 256).toNat ^^^ (n % 256) : Nat) : Int) := by
  cases x with
  | ofNat m =>
    have h0 : Int.xor (Int.ofNat m) (n : Int) = ((m ^^^ n : Nat) : Int) := rfl
    have h1 : (Int.ofNat m % 256).toNat = m % 256 := by
      have : Int.ofNat m = (m : Int) := rfl
      omega
    rw [h0, h1, ← xor_mod_256]
    omega
  | negSucc m =>
    have h0 : Int.xor (Int.negSucc m) (n : Int) = Int.negSucc (m ^^^ n) := rfl
    have h1 : (Int.negSucc m % 256).toNat = 255 - m % 256 := by
      rw [Int.negSucc_eq]
      omega
    have hm : m % 256 < 256 := Nat.mod_lt _ (by decide)
    have hn : n % 256 < 256 := Nat.mod_lt _ (by decide)
    have hx : m % 256 ^^^ n % 256 < 256 := Nat.xor_lt_two_pow (n := 8) hm hn
    rw [h0, h1, compl_xor _ _ hm hn, ← xor_mod_256, Int.negSucc_eq]
    rw [← xor_mod_256] at hx
    omega

theorem to_char_xor (cs : Bool) (b : byte) (i : Nat) :
    to_char (Int.xor (char_value cs b - (i : Int)) (i : Int)) = decode_byte_spec i b := by
  apply Fin.ext
  have hb := b.isLt
  have hx : ((char_value cs b - (i : Int)) % 256).toNat = (b.val + 256 - i % 256) % 256 := by
    unfold char_value
    split <;> omega
  have hi : i % 256 < 256 := Nat.mod_lt _ (by decide)
  have hy : (b.val + 256 - i % 256) % 256 < 256 := Nat.mod_lt _ (by decide)
  have hlt : (b.val + 256 - i % 256) % 256 ^^^ i % 256 < 256 :=
    Nat.xor_lt_two_pow (n := 8) hy hi
  simp only [to_char, decode_byte_spec, u8, int_xor_mod, hx, Int.toNat_ofNat, Nat.mod_mod]

theorem decode_chunk_loop_spec (cs : Bool) :
    ∀ (l : List byte) (i : Nat), decode_chunk_loop cs i l = decode_chunk_spec i l := by
  intro l
  induction l with
  | nil => intro i; rfl
  | cons b rest ih =>
    intro i
    rw [decode_chunk_loop, decode_chunk_spec, to_char_xor, ih]

theorem decode_byte_spec_mod (i : Nat) (b : byte) :
    decode_byte_spec (i % 256) b = decode_byte_spec i b := by
  simp only [decode_byte_spec, Nat.mod_mod]

theorem decode_chunk_loop_else_spec (cs : Bool) :
    ∀ (l : List byte) (i : Nat), decode_chunk_loop_else cs i l = decode_chunk_spec i l := by
  intro l
  induction l with
  | nil => intro i; rfl
  | cons b rest ih =>
    intro i
    have hp : (u8 i).val = i % 256 := rfl
    rw [decode_chunk_loop_else, decode_chunk_spec, ih]
    simp only [hp, to_char_xor, decode_byte_spec_mod]

theorem decode_chunk_spec_get :
    ∀ (l : List byte) (i k : Nat) (b : byte), l[k]? = some b →
      (decode_chunk_spec i l)[k]? = some (decode_byte_spec (i + k) b) := by
  intro l
  induction l with
  | nil => intro i k b h; simp at h
  | cons a rest ih =>
    intro i k b h
    cases k with
    | zero =>
      simp only [List.getElem?_cons_zero, Option.some.injEq] at h
      subst h
      simp only [decode_chunk_spec, List.getElem?_cons_zero, Nat.add_zero]
    | succ k =>
      simp only [List.getElem?_cons_succ] at h
      simp only [decode_chunk_spec, List.getElem?_cons_succ]
      rw [ih (i + 1) k b h, show i + 1 + k = i + (k + 1) by omega]

theorem decode_chunk_spec_length : ∀ (l : List byte) (i : Nat),
    (decode_chunk_spec i l).length = l.length := by
  intro l
  induction l with
  | nil => intro i; rfl
  | cons a rest ih => intro i; simp only [decode_chunk_spec, List.length_cons, ih]

/-- C21: for every buffer, of any length, and either signedness of `char`,
`decode_chunk_buffer` (the active `std::transform`, computing with the whole
pointer difference and the `char` value) leaves at every index `i` the byte
`((b_i - (i mod 256)) mod 256) xor (i mod 256)`, and so does the disabled
explicit loop, which truncates the index to eight bits first: the two
branches compute the same buffer. -/
theorem decode_chunk_buffer_refines (char_signed : Bool) (buffer : List byte) :
    decode_chunk_buffer char_signed buffer = decode_chunk_spec 0 buffer ∧
    decode_chunk_buffer_else char_signed buffer = decode_chunk_spec 0 buffer ∧
    decode_chunk_buffer char_signed buffer = decode_chunk_buffer_else char_signed buffer ∧
    (decode_chunk_buffer char_signed buffer).length = buffer.length ∧
    (∀ (i : Nat) (b : byte), buffer[i]? = some b →
      (decode_chunk_buffer char_signed buffer)[i]?
        = some (u8 (((b.val + 256 - i % 256) % 256) ^^^ (i % 256)))) ∧
    (∀ (i : Nat) (b : byte), buffer[i]? = some b →
      (decode_chunk_buffer_else char_signed buffer)[i]?
        = some (u8 (((b.val + 256 - i % 256) % 256) ^^^ (i % 256)))) := by
  have h1 : decode_chunk_buffer char_signed buffer = decode_chunk_spec 0 buffer :=
    decode_chunk_loop_spec char_signed buffer 0
  have h2 : decode_chunk_buffer_else char_signed buffer = decode_chunk_spec 0 buffer :=
    decode_chunk_loop_else_spec char_signed buffer 0
  have h3 : ∀ (i : Nat) (b : byte), buffer[i]? = some b →
      (decode_chunk_spec 0 buffer)[i]?
        = some (u8 (((b.val + 256 - i % 256) % 256) ^^^ (i % 256))) := by
    intro i b h
    rw [decode_chunk_spec_get buffer 0 i b h, Nat.zero_add]
    rfl
  refine ⟨h1, h2, by rw [h1, h2], by rw [h1, decode_chunk_spec_length], ?_, ?_⟩
  · rw [h1]; exact h3
  · rw [h2]; exact h3

theorem decode_encode_byte (i : Nat) (p : byte) :
    decode_byte_spec i (encode_byte_spec i p) = p := by
  apply Fin.ext
  have hi : i % 256 < 256 := Nat.mod_lt _ (by decide)
  have hx : p.val ^^^ i % 256 < 256 := Nat.xor_lt_two_pow (n := 8) p.isLt hi
  have h1 : ((p.val ^^^ i % 256) + i % 256) % 256 + 256 - i % 256 = (p.val ^^^ i % 256) + 256
      ∨ ((p.val ^^^ i % 256) + i % 256) % 256 + 256 - i % 256 = (p.val ^^^ i % 256) := by
    omega
  have h2 : (((p.val ^^^ i % 256) + i % 256) % 256 + 256 - i % 256) % 256
      = p.val ^^^ i % 256 := by
    rcases h1 with h | h <;> rw [h] <;> omega
  simp only [decode_byte_spec, encode_byte_spec, u8, h2, Nat.xor_assoc, Nat.xor_self,
    Nat.xor_zero]
  exact Nat.mod_eq_of_lt p.isLt

theorem encode_decode_byte (i : Nat) (b : byte) :
    encode_byte_spec i (decode_byte_spec i b) = b := by
  apply Fin.ext
  have hb := b.isLt
  have hi : i % 256 < 256 := Nat.mod_lt _ (by decide)
  have hy : (b.val + 256 - i % 256) % 256 < 256 := Nat.mod_lt _ (by decide)
  have hx : (b.val + 256 - i % 256) % 256 ^^^ i % 256 < 256 :=
    Nat.xor_lt_two_pow (n := 8) hy hi
  simp only [decode_byte_spec, encode_byte_spec, u8, Nat.mod_eq_of_lt hx, Nat.xor_assoc,
    Nat.xor_self, Nat.xor_zero]
  omega

theorem decode_encode_spec : ∀ (l : List byte) (i : Nat),
    decode_chunk_spec i (encode_chunk_spec i l) = l := by
  intro l
  induction l with
  | nil => intro i; rfl
  | cons a rest ih =>
    intro i
    simp only [encode_chunk_spec, decode_chunk_spec, decode_encode_byte, ih]

theorem encode_decode_spec : ∀ (l : List byte) (i : Nat),
    encode_chunk_spec i (decode_chunk_spec i l) = l := by
  intro l
  induction l with
  | nil => intro i; rfl
  | cons a rest ih =>
    intro i
    simp only [encode_chunk_spec, decode_chunk_spec, encode_decode_byte, ih]

/-- C22: with `encode` the per-byte map `((p xor (i mod 256)) + (i mod 256))
mod 256`, encoding what `decode_chunk_buffer` returns gives the buffer back,
and decoding an encoded buffer gives it back; `decode_chunk_buffer` keeps the
length and is a bijection on byte sequences, for either signedness of
`char`. -/
theorem decode_chunk_buffer_reversible (char_signed : Bool) :
    (∀ s, encode_chunk_spec 0 (decode_chunk_buffer char_signed s) = s) ∧
    (∀ s, decode_chunk_buffer char_signed (encode_chunk_spec 0 s) = s) ∧
    (∀ s, (decode_chunk_buffer char_signed s).length = s.length) ∧
    Function.Bijective (decode_chunk_buffer char_signed) := by
  have h1 : ∀ s, encode_chunk_spec 0 (decode_chunk_buffer char_signed s) = s := by
    intro s
    rw [show decode_chunk_buffer char_signed s = decode_chunk_spec 0 s from
      decode_chunk_loop_spec char_signed s 0]
    exact encode_decode_spec s 0
  have h2 : ∀ s, decode_chunk_buffer char_signed (encode_chunk_spec 0 s) = s := by
    intro s
    rw [show decode_chunk_buffer char_signed (encode_chunk_spec 0 s)
      = decode_chunk_spec 0 (encode_chunk_spec 0 s) from decode_chunk_loop_spec char_signed _ 0]
    exact decode_encode_spec s 0
  refine ⟨h1, h2, fun s => ?_, Function.bijective_iff_has_inverse.2 ⟨encode_chunk_spec 0, h1, h2⟩⟩
  rw [show decode_chunk_buffer char_signed s = decode_chunk_spec 0 s from
    decode_chunk_loop_spec char_signed s 0]
  exact decode_chunk_spec_length s 0

theorem to_char_char_value (cs : Bool) (b : byte) : (char_value cs b % 256).toNat = b.val := by
  have hb := b.isLt
  unfold char_value
  split <;> omega

/-- C23: `compute_buffer_checksum` is the sum of the bytes, each as the value
`static_cast<uint8_t>` gives it (0..255, the same for signed and unsigned
`char`), modulo 2^32. In the chunk loop, for a chunk that passes the magic
and size comparisons, the sum compared with the header's `checksum` is that of
the decrypted payload as read: a different sum throws "invalid buffer
checksum" with that sum, an equal one lets the round go on, and only then is
the encoded transform applied to what the `switch` receives. -/
theorem checksum_of_decrypted_payload (p : platform) (fuel : Nat) (key : byte) (file : file_data)
    (i : Nat) (s : extract_state) (hdr : hpi_chunk)
    (hhdr : load_hpi_chunk (read_decrypt_raw_value s.stream key sizeof_hpi_chunk).1 0 = some hdr)
    (hmagic : hdr.magic = HPI_CHUNK_MAGIC_NUMBER)
    (hsize : s.buffer_offset + hdr.decompressed_size ≤ file.size) :
    (∀ (cs : Bool) (buffer : List byte), compute_buffer_checksum buffer
      = (buffer.map fun b => (char_value cs b % 256).toNat).sum % 2 ^ 32) ∧
    (∀ buffer : List byte, compute_buffer_checksum buffer = (buffer.map Fin.val).sum % 2 ^ 32) ∧
    (compute_buffer_checksum (object_bytes (read_decrypt_buffer
        (read_decrypt_raw_value s.stream key sizeof_hpi_chunk).2 key
        hdr.compressed_size).1 hdr.compressed_size) ≠ hdr.checksum →
      extract_chunk p fuel key file i s
        = .throw (.chunk_checksum (compute_buffer_checksum (object_bytes (read_decrypt_buffer
            (read_decrypt_raw_value s.stream key sizeof_hpi_chunk).2 key
            hdr.compressed_size).1 hdr.compressed_size)) i)) ∧
    (compute_buffer_checksum (object_bytes (read_decrypt_buffer
        (read_decrypt_raw_value s.stream key sizeof_hpi_chunk).2 key
        hdr.compressed_size).1 hdr.compressed_size) = hdr.checksum →
      extract_chunk p fuel key file i s
        = (chunk_switch p fuel i hdr
            (if hdr.encoded ≠ 0 then
              decode_chunk_buffer p.char_signed (object_bytes (read_decrypt_buffer
                (read_decrypt_raw_value s.stream key sizeof_hpi_chunk).2 key
                hdr.compressed_size).1 hdr.compressed_size)
            else object_bytes (read_decrypt_buffer
              (read_decrypt_raw_value s.stream key sizeof_hpi_chunk).2 key
              hdr.compressed_size).1 hdr.compressed_size)
            s.buffer s.buffer_offset).bind fun buffer =>
          .ok ⟨(read_decrypt_buffer (read_decrypt_raw_value s.stream key sizeof_hpi_chunk).2 key
            hdr.compressed_size).2, buffer, s.buffer_offset + hdr.decompressed_size⟩) := by
  have hsize1 : ¬ s.buffer_offset + hdr.decompressed_size > file.size := by omega
  have hmagic1 : ¬ hdr.magic ≠ HPI_CHUNK_MAGIC_NUMBER := by
    simp only [hmagic, ne_eq, not_true_eq_false, not_false_eq_true]
  refine ⟨fun cs buffer => ?_, fun buffer => compute_buffer_checksum_eq buffer,
    fun hne => ?_, fun heq => ?_⟩
  · rw [compute_buffer_checksum_eq]
    have hf : (fun b : byte => (char_value cs b % 256).toNat) = Fin.val :=
      funext fun b => to_char_char_value cs b
    rw [hf]
    rfl
  · unfold extract_chunk
    simp only [hhdr, load, Outcome.bind, if_neg hmagic1, if_neg hsize1, if_pos hne]
  · have heq1 : ¬ compute_buffer_checksum (object_bytes (read_decrypt_buffer
        (read_decrypt_raw_value s.stream key sizeof_hpi_chunk).2 key
        hdr.compressed_size).1 hdr.compressed_size) ≠ hdr.checksum := by
      simp only [heq, ne_eq, not_true_eq_false, not_false_eq_true]
    unfold extract_chunk
    simp only [hhdr, load, Outcome.bind, if_neg hmagic1, if_neg hsize1, if_neg heq1]

/-- Witness of C23: Scenario D with the `encoded` flag set. The payload as
read sums to the stored 135 and the comparison passes; the transformed
payload (sum 637) is what the decoder then receives, and it throws. -/
theorem checksum_of_decrypted_payload_witness :
    compute_buffer_checksum [4, 65, 66, 0, 0] = 135 ∧
    compute_buffer_checksum (decode_chunk_buffer true [4, 65, 66, 0, 0]) = 637 ∧
    extract_chunk scenario_platform 1 0x5A scenario_D_file 0
        ⟨⟨scenario_D_pre.set 10 81 ++ 3 :: scenario_D_post, 4, false⟩, [0, 0], 0⟩
      = .throw .lz77_window_overflow ∧
    scenario_D_encoded.extract scenario_platform 1 scenario_D_file [0, 0]
      = .throw .lz77_window_overflow :=
  ⟨by decide, by decide,
   ((checksum_of_decrypted_payload scenario_platform 1 0x5A scenario_D_file 0
      ⟨⟨scenario_D_pre.set 10 81 ++ 3 :: scenario_D_post, 4, false⟩, [0, 0], 0⟩
      ⟨0x48535153, 2, 1, 1, 5, 2, 135⟩ rfl (by decide) (by decide)).2.2.2 (by decide)).trans
      (by decide!),
   by decide!⟩

theorem lz77_loop_throw (input : List byte) (len max_bytes : Nat) :
    ∀ (fuel : Nat) (s : lz77_state) (e : exception),
      lz77_loop input len max_bytes fuel s = .throw e → e.of_lz77 = true := by
  intro fuel
  induction fuel with
  | zero => intro s e h; exact Outcome.noConfusion h
  | succ fuel ih =>
    intro s e
    rw [lz77_loop]
    by_cases ha : s.in_pos ≥ len
    · simp only [if_pos ha]
      intro h
      cases h
      rfl
    · simp only [if_neg ha]
      cases hl : input[s.in_pos]? with
      | none => intro h; exact Outcome.noConfusion h
      | some tag =>
        simp only [load, Outcome.bind]
        rcases lz77_bits_progress input len max_bytes (by omega) 8 tag.val
            { s with in_pos := s.in_pos + 1 } with ⟨s1, e1, _⟩ | ⟨s1, e1⟩ | ⟨x, e1, hx⟩ | e1
        · simp only [e1]
          exact ih s1 e
        · simp only [e1]
          intro h; exact Outcome.noConfusion h
        · simp only [e1]
          intro h; cases h; exact hx
        · simp only [e1]
          intro h; exact Outcome.noConfusion h

theorem decompress_lz77_throw (fuel : Nat) (window0 input : List byte) (len : Nat)
    (out : List byte) (max_bytes : Nat) (e : exception)
    (h : decompress_lz77 fuel window0 input len out max_bytes = .throw e) : e.of_lz77 = true := by
  unfold decompress_lz77 decompress_lz77_run at h
  rcases (outcome_bind_eq_throw _ _ _).1 h with h1 | ⟨a, _, h2⟩
  · exact lz77_loop_throw _ _ _ _ _ _ h1
  · exact Outcome.noConfusion h2

theorem decompress_zlib_throw (p : platform) (input : List byte) (len : Nat) (out : List byte)
    (max_bytes : Nat) (e : exception) (h : decompress_zlib p input len out max_bytes = .throw e) :
    e = .zlib_init_failed ∨ e = .zlib_inflation_failed := by
  unfold decompress_zlib at h
  split at h
  · cases h; exact Or.inl rfl
  · exact absurd h (store_ne_throw _ _ _ _)
  · cases h; exact Or.inr rfl

theorem chunk_switch_mismatch (p : platform) (fuel i : Nat) (hdr : hpi_chunk)
    (chunk_buffer buffer : List byte) (buffer_offset d c k : Nat)
    (h : chunk_switch p fuel i hdr chunk_buffer buffer buffer_offset
      = .throw (.chunk_size_mismatch d c k)) :
    k = i ∧ hdr.compression_type = COMPRESSION_TYPE_NULL ∧
      hdr.compressed_size ≠ hdr.decompressed_size := by
  unfold chunk_switch at h
  by_cases h0 : hdr.compression_type = COMPRESSION_TYPE_NULL
  · simp only [if_pos h0] at h
    by_cases hs : hdr.compressed_size ≠ hdr.decompressed_size
    · simp only [if_pos hs] at h
      cases h
      exact ⟨rfl, h0, hs⟩
    · simp only [if_neg hs] at h
      exact absurd h (store_ne_throw _ _ _ _)
  · simp only [if_neg h0] at h
    by_cases h1 : hdr.compression_type = COMPRESSION_TYPE_LZ77
    · simp only [if_pos h1] at h
      rcases (outcome_bind_eq_throw _ _ _).1 h with hx | ⟨a, _, hx⟩
      · have := decompress_lz77_throw _ _ _ _ _ _ _ hx
        exact absurd this (by simp [exception.of_lz77])
      · exact Outcome.noConfusion hx
    · simp only [if_neg h1] at h
      by_cases h2 : hdr.compression_type = COMPRESSION_TYPE_ZLIB
      · simp only [if_pos h2] at h
        rcases (outcome_bind_eq_throw _ _ _).1 h with hx | ⟨a, _, hx⟩
        · rcases decompress_zlib_throw _ _ _ _ _ _ hx with hz | hz <;> cases hz
        · exact Outcome.noConfusion hx
      · simp only [if_neg h2] at h
        cases h

theorem extract_chunk_mismatch (p : platform) (fuel : Nat) (key : byte) (file : file_data)
    (i : Nat) (s : extract_state) (d c k : Nat)
    (h : extract_chunk p fuel key file i s = .throw (.chunk_size_mismatch d c k)) : k = i := by
  unfold extract_chunk at h
  rcases (outcome_bind_eq_throw _ _ _).1 h with hx | ⟨hdr, _, hx⟩
  · exact absurd hx (load_ne_throw _ _)
  · by_cases hm : hdr.magic ≠ HPI_CHUNK_MAGIC_NUMBER
    · simp only [if_pos hm] at hx; cases hx
    · simp only [if_neg hm] at hx
      by_cases hs : s.buffer_offset + hdr.decompressed_size > file.size
      · simp only [if_pos hs] at hx; cases hx
      · simp only [if_neg hs] at hx
        split at hx
        · cases hx
        · rcases (outcome_bind_eq_throw _ _ _).1 hx with hy | ⟨a, _, hy⟩
          · exact (chunk_switch_mismatch _ _ _ _ _ _ _ _ _ _ hy).1
          · exact Outcome.noConfusion hy

theorem extract_chunks_mismatch (p : platform) (fuel : Nat) (key : byte) (file : file_data) :
    ∀ (n i0 : Nat) (s : extract_state) (d c k : Nat),
      extract_chunks p fuel key file n i0 s = .throw (.chunk_size_mismatch d c k) → i0 ≤ k := by
  intro n
  induction n with
  | zero => intro i0 s d c k h; exact Outcome.noConfusion h
  | succ n ih =>
    intro i0 s d c k h
    rw [extract_chunks] at h
    rcases (outcome_bind_eq_throw _ _ _).1 h with hx | ⟨s1, _, hx⟩
    · rw [extract_chunk_mismatch _ _ _ _ _ _ _ _ _ hx]
    · have := ih _ _ _ _ _ hx
      omega

theorem extract_chunks_split (p : platform) (fuel : Nat) (key : byte) (file : file_data) :
    ∀ (a b i0 : Nat) (s0 : extract_state),
      extract_chunks p fuel key file (a + b) i0 s0
        = (extract_chunks p fuel key file a i0 s0).bind
            (extract_chunks p fuel key file b (i0 + a)) := by
  intro a
  induction a with
  | zero => intro b i0 s0; rw [Nat.zero_add]; rfl
  | succ a ih =>
    intro b i0 s0
    rw [show a + 1 + b = (a + b) + 1 by omega, extract_chunks, extract_chunks]
    cases extract_chunk p fuel key file i0 s0 with
    | ok s1 =>
      simp only [Outcome.bind]
      rw [ih b (i0 + 1) s1, show i0 + 1 + a = i0 + (a + 1) by omega]
      rfl
    | throw e => rfl
    | oob => rfl
    | diverge => rfl

theorem store_cases (mem : List byte) (ofs : Nat) (bytes : List byte) :
    (∃ m, store mem ofs bytes = .ok m) ∨ store mem ofs bytes = .oob := by
  unfold store
  by_cases h1 : bytes = []
  · simp only [if_pos h1]; exact Or.inl ⟨_, rfl⟩
  · simp only [if_neg h1]
    by_cases h2 : ofs + bytes.length ≤ mem.length
    · simp only [if_pos h2]; exact Or.inl ⟨_, rfl⟩
    · simp only [if_neg h2, or_true]

theorem store_fits (mem : List byte) (ofs : Nat) (bytes : List byte)
    (h : ofs + bytes.length ≤ mem.length) :
    store mem ofs bytes = .ok (mem.take ofs ++ bytes ++ mem.drop (ofs + bytes.length)) := by
  unfold store
  by_cases h1 : bytes = []
  · subst h1
    simp only [if_true, List.append_nil, List.length_nil, Nat.add_zero, List.take_append_drop]
  · simp only [if_neg h1, if_pos h]

theorem extract_chunk_null (p : platform) (fuel : Nat) (key : byte) (file : file_data)
    (i : Nat) (s : extract_state) (hdr : hpi_chunk)
    (hhdr : load_hpi_chunk (read_decrypt_raw_value s.stream key sizeof_hpi_chunk).1 0 = some hdr)
    (hmagic : hdr.magic = HPI_CHUNK_MAGIC_NUMBER)
    (hsize : s.buffer_offset + hdr.decompressed_size ≤ file.size)
    (hsum : compute_buffer_checksum (object_bytes (read_decrypt_buffer
      (read_decrypt_raw_value s.stream key sizeof_hpi_chunk).2 key
      hdr.compressed_size).1 hdr.compressed_size) = hdr.checksum)
    (htype : hdr.compression_type = COMPRESSION_TYPE_NULL) :
    extract_chunk p fuel key file i s
      = if hdr.compressed_size ≠ hdr.decompressed_size then
          .throw (.chunk_size_mismatch hdr.decompressed_size hdr.compressed_size i)
        else
          (store s.buffer s.buffer_offset
            (if hdr.encoded ≠ 0 then
              decode_chunk_buffer p.char_signed (object_bytes (read_decrypt_buffer
                (read_decrypt_raw_value s.stream key sizeof_hpi_chunk).2 key
                hdr.compressed_size).1 hdr.compressed_size)
            else object_bytes (read_decrypt_buffer
              (read_decrypt_raw_value s.stream key sizeof_hpi_chunk).2 key
              hdr.compressed_size).1 hdr.compressed_size)).bind fun buffer =>
          .ok ⟨(read_decrypt_buffer (read_decrypt_raw_value s.stream key sizeof_hpi_chunk).2 key
            hdr.compressed_size).2, buffer, s.buffer_offset + hdr.decompressed_size⟩ := by
  rw [(checksum_of_decrypted_payload p fuel key file i s hdr hhdr hmagic hsize).2.2.2 hsum]
  unfold chunk_switch
  simp only [if_pos htype]
  by_cases hs : hdr.compressed_size ≠ hdr.decompressed_size
  · simp only [if_pos hs]
    rfl
  · simp only [if_neg hs]

theorem decoded_payload_length (cs : Bool) (enc n : Nat) (got : List byte)
    (h : got.length ≤ n) :
    (if enc ≠ 0 then decode_chunk_buffer cs (object_bytes got n)
      else object_bytes got n).length = n := by
  have hl : (object_bytes got n).length = n := by
    unfold object_bytes
    rw [List.length_append, List.length_replicate]
    omega
  by_cases he : enc ≠ 0
  · simp only [if_pos he]
    rw [(decode_chunk_buffer_reversible cs).2.2.1, hl]
  · simp only [if_neg he, hl]

theorem read_decrypt_buffer_length_le (s : istream) (key : byte) (n : Nat) :
    (read_decrypt_buffer s key n).1.length ≤ n := by
  simp only [read_decrypt_buffer, decrypt_buffer_length]
  exact read_length_le s n

/-- C24: when the extraction of a compressed file reaches chunk `i` and that
chunk has `compression_type = 0` and passes the magic, size and checksum
comparisons, `extract_compressed` throws the size-mismatch exception for chunk
`i` exactly when `compressed_size ≠ decompressed_size`. When the two are equal
and the caller's buffer has room, the round stores the payload (transformed
first if `encoded ≠ 0`) at `buffer_offset`, the other bytes of the buffer
unchanged, and advances `buffer_offset` by `decompressed_size`. -/
theorem null_chunk_size_check (p : platform) (fuel : Nat) (self : hpi_archive)
    (file : file_data) (buffer : List byte) (i : Nat) (s : extract_state) (hdr : hpi_chunk)
    (hi : i < chunk_count file)
    (hreach : extract_chunks p fuel self.decrypt_key file i 0 (extract_start self file buffer)
      = .ok s)
    (hhdr : load_hpi_chunk
      (read_decrypt_raw_value s.stream self.decrypt_key sizeof_hpi_chunk).1 0 = some hdr)
    (hmagic : hdr.magic = HPI_CHUNK_MAGIC_NUMBER)
    (hsize : s.buffer_offset + hdr.decompressed_size ≤ file.size)
    (hsum : compute_buffer_checksum (object_bytes (read_decrypt_buffer
      (read_decrypt_raw_value s.stream self.decrypt_key sizeof_hpi_chunk).2 self.decrypt_key
      hdr.compressed_size).1 hdr.compressed_size) = hdr.checksum)
    (htype : hdr.compression_type = 0) :
    ((∃ d c, self.extract_compressed p fuel file buffer = .throw (.chunk_size_mismatch d c i))
      ↔ hdr.compressed_size ≠ hdr.decompressed_size) ∧
    (hdr.compressed_size ≠ hdr.decompressed_size →
      self.extract_compressed p fuel file buffer
        = .throw (.chunk_size_mismatch hdr.decompressed_size hdr.compressed_size i)) ∧
    (hdr.compressed_size = hdr.decompressed_size →
      s.buffer_offset + hdr.compressed_size ≤ s.buffer.length →
      extract_chunk p fuel self.decrypt_key file i s
        = .ok ⟨(read_decrypt_buffer
              (read_decrypt_raw_value s.stream self.decrypt_key sizeof_hpi_chunk).2
              self.decrypt_key hdr.compressed_size).2,
            s.buffer.take s.buffer_offset
              ++ (if hdr.encoded ≠ 0 then
                  decode_chunk_buffer p.char_signed (object_bytes (read_decrypt_buffer
                    (read_decrypt_raw_value s.stream self.decrypt_key sizeof_hpi_chunk).2
                    self.decrypt_key hdr.compressed_size).1 hdr.compressed_size)
                else object_bytes (read_decrypt_buffer
                  (read_decrypt_raw_value s.stream self.decrypt_key sizeof_hpi_chunk).2
                  self.decrypt_key hdr.compressed_size).1 hdr.compressed_size)
              ++ s.buffer.drop (s.buffer_offset + hdr.compressed_size),
            s.buffer_offset + hdr.decompressed_size⟩) := by
  have hround := extract_chunk_null p fuel self.decrypt_key file i s hdr hhdr hmagic hsize hsum
    htype
  have hplen := decoded_payload_length p.char_signed hdr.encoded hdr.compressed_size
    (read_decrypt_buffer (read_decrypt_raw_value s.stream self.decrypt_key sizeof_hpi_chunk).2
      self.decrypt_key hdr.compressed_size).1 (read_decrypt_buffer_length_le _ _ _)
  have hcount : i + (chunk_count file - i - 1 + 1) = chunk_count file := by omega
  have hne : hdr.compressed_size ≠ hdr.decompressed_size →
      self.extract_compressed p fuel file buffer
        = .throw (.chunk_size_mismatch hdr.decompressed_size hdr.compressed_size i) := by
    intro hs
    have hthrow : extract_chunk p fuel self.decrypt_key file (0 + i) s
        = .throw (.chunk_size_mismatch hdr.decompressed_size hdr.compressed_size i) := by
      rw [Nat.zero_add, hround, if_pos hs]
    have hloop := extract_chunks_throw p fuel self.decrypt_key file _ i
      (chunk_count file - i - 1) 0 _ s hreach hthrow
    rw [hcount] at hloop
    unfold hpi_archive.extract_compressed
    rw [hloop]
    rfl
  refine ⟨⟨fun hex => ?_, fun hs => ⟨_, _, hne hs⟩⟩, hne, fun heq hroom => ?_⟩
  · by_contra hs
    have heq : ¬ hdr.compressed_size ≠ hdr.decompressed_size := fun h => h (by simpa using hs)
    obtain ⟨d, c, hthrow⟩ := hex
    unfold hpi_archive.extract_compressed at hthrow
    rcases (outcome_bind_eq_throw _ _ _).1 hthrow with hx | ⟨a, _, hx⟩
    · rw [← hcount, extract_chunks_split, hreach] at hx
      simp only [Outcome.bind, Nat.zero_add] at hx
      rw [extract_chunks, hround, if_neg heq] at hx
      rcases store_cases s.buffer s.buffer_offset
          (if hdr.encoded ≠ 0 then
            decode_chunk_buffer p.char_signed (object_bytes (read_decrypt_buffer
              (read_decrypt_raw_value s.stream self.decrypt_key sizeof_hpi_chunk).2
              self.decrypt_key hdr.compressed_size).1 hdr.compressed_size)
          else object_bytes (read_decrypt_buffer
            (read_decrypt_raw_value s.stream self.decrypt_key sizeof_hpi_chunk).2
            self.decrypt_key hdr.compressed_size).1 hdr.compressed_size) with ⟨m, hm⟩ | hm
      · rw [hm] at hx
        simp only [Outcome.bind] at hx
        have := extract_chunks_mismatch _ _ _ _ _ _ _ _ _ _ hx
        omega
      · rw [hm] at hx
        exact Outcome.noConfusion hx
    · exact Outcome.noConfusion hx
  · have heq1 : ¬ hdr.compressed_size ≠ hdr.decompressed_size := fun h => h heq
    rw [hround, if_neg heq1, store_fits _ _ _ (by rw [hplen]; exact hroom), hplen]
    rfl

/-- Witness of C24: Scenario D as an uncompressed chunk. With sizes 5 and 2
the extraction throws the size mismatch for chunk 0; with both sizes 5 the
five payload bytes land in the buffer. -/
theorem null_chunk_size_check_witness :
    scenario_D_null.extract_compressed scenario_platform 1 scenario_D_file [0, 0]
        = .throw (.chunk_size_mismatch 2 5 0) ∧
      scenario_D_null5.extract scenario_platform 1 ⟨0, 5, 1⟩ [9, 9, 9, 9, 9]
        = .ok ⟨true, ⟨(scenario_D_pre.set 9 83).set 15 80 ++ 3 :: scenario_D_post, 28, false⟩,
            [4, 65, 66, 0, 0]⟩ :=
  ⟨(null_chunk_size_check scenario_platform 1 scenario_D_null scenario_D_file [0, 0] 0
      ⟨⟨scenario_D_pre.set 9 83 ++ 3 :: scenario_D_post, 4, false⟩, [0, 0], 0⟩
      ⟨0x48535153, 2, 0, 0, 5, 2, 135⟩ (by decide) rfl (by decide) rfl (by decide) (by decide)
      rfl).2.1 (by decide),
   by decide⟩

theorem or_mod_256 (a b : Nat) : (a ||| b) % 256 = (a % 256) ||| (b % 256) := by
  have e : (256 : Nat) = 2 ^ 8 := rfl
  rw [e]
  apply Nat.eq_of_testBit_eq
  intro i
  simp only [Nat.testBit_mod_two_pow, Nat.testBit_or]
  by_cases h : i < 8 <;> simp [h]

theorem and_255 (x : Nat) : x &&& 0xFF = x % 256 := by
  have e : (0xFF : Nat) = 2 ^ 8 - 1 := by decide
  rw [e, Nat.and_pow_two_sub_one_eq_mod]

theorem or_rotate_key (k h : byte) :
    (u8 ((u8 (k.val ||| (h.val <<< 2))).val ||| (h.val >>> 6))).val
      = k.val ||| (((h.val <<< 2) ||| (h.val >>> 6)) &&& 0xFF) := by
  have hk : k.val % 256 = k.val := Nat.mod_eq_of_lt k.isLt
  have hs : h.val >>> 6 < 256 := by
    have := h.isLt
    rw [Nat.shiftRight_eq_div_pow]
    omega
  have hs1 : (h.val >>> 6) % 256 = h.val >>> 6 := Nat.mod_eq_of_lt hs
  simp only [u8, and_255, or_mod_256, Nat.mod_mod, hk, hs1, Nat.or_assoc]

/-- C26: a successful `open` leaves the key `k0 | rotl8(h, 2)`, where `k0` is
the key the handle held before the call and `h` the low byte of `header_key`:
the rotation is ORed into the old key, not assigned. That is the rotation
itself for every `h` exactly when `k0 = 0`. Opening `keyed_root_archive`
(rotation 0x5A) and then `keyed_root_archive_B` (rotation 0xA5) on the same
handle succeeds and leaves the key 0xFF, which is neither. -/
theorem open_ors_into_key (fuel : Nat) (self : hpi_archive) (data : List byte)
    (a : hpi_archive) (h : self.open_ fuel (istream.fresh data) = .ok a) :
    a.decrypt_key.val = self.decrypt_key.val
        ||| ((((u32_at data 12 % 256) <<< 2) ||| ((u32_at data 12 % 256) >>> 6)) &&& 0xFF) ∧
    ((∀ hb : byte, self.decrypt_key.val ||| (((hb.val <<< 2) ||| (hb.val >>> 6)) &&& 0xFF)
        = ((hb.val <<< 2) ||| (hb.val >>> 6)) &&& 0xFF) ↔ self.decrypt_key = 0) ∧
    ((hpi_archive.fresh.open_ 1 (istream.fresh keyed_root_archive)).bind fun a1 =>
        a1.open_ 1 (istream.fresh keyed_root_archive_B))
      = .ok ⟨⟨keyed_root_archive_B, 28, false⟩, .mk [], 0xFF⟩ ∧
    (((u32_at keyed_root_archive 12 % 256) <<< 2)
        ||| ((u32_at keyed_root_archive 12 % 256) >>> 6)) &&& 0xFF = 0x5A ∧
    (((u32_at keyed_root_archive_B 12 % 256) <<< 2)
        ||| ((u32_at keyed_root_archive_B 12 % 256) >>> 6)) &&& 0xFF = 0xA5 := by
  refine ⟨?_, ⟨fun hall => ?_, fun hz hb => ?_⟩, rfl, by decide, by decide⟩
  · rw [open_key fuel self data a h]
    exact or_rotate_key self.decrypt_key (u8 (u32_at data 12))
  · have h0 := hall 0
    apply Fin.ext
    simpa using h0
  · rw [hz]
    exact Nat.zero_or _

/-- Witness of C26: a handle holding the key 0x5A opens `keyed_root_archive_B`
and holds 0xFF afterwards. -/
theorem open_ors_into_key_witness :
    (⟨istream.fresh [], .mk [], 0x5A⟩ : hpi_archive).open_ 1 (istream.fresh keyed_root_archive_B)
        = .ok ⟨⟨keyed_root_archive_B, 28, false⟩, .mk [], 0xFF⟩ ∧
      (0xFF : byte).val = (0x5A : byte).val
        ||| ((((u32_at keyed_root_archive_B 12 % 256) <<< 2)
          ||| ((u32_at keyed_root_archive_B 12 % 256) >>> 6)) &&& 0xFF) :=
  ⟨rfl,
   (open_ors_into_key 1 ⟨istream.fresh [], .mk [], 0x5A⟩ keyed_root_archive_B
      ⟨⟨keyed_root_archive_B, 28, false⟩, .mk [], 0xFF⟩ rfl).1⟩

theorem descend_reaches (opt : Bool) {d t : path_data} {comps : List (List byte)}
    (h : Reaches d comps t) : descend opt d comps = .ok (some t) := by
  induction h with
  | here d => rfl
  | step hf hd _ ih =>
    rw [descend, (find_eq_some_iff _ _ _).2 hf]
    simp only [hd]
    exact ih

theorem descend_default_file {d m : path_data} {pre : List (List byte)} (c : List byte)
    (post : List (List byte)) {e : arch_entry} {fd : file_data} (hpre : Reaches d pre m)
    (hm : FirstMatch m c e) (hd : e.data = .file fd) :
    descend false d (pre ++ c :: post) = .throw .bad_get := by
  induction hpre with
  | here d =>
    rw [List.nil_append, descend, (find_eq_some_iff _ _ _).2 hm]
    simp only [hd]
    rfl
  | step hf hd1 _ ih =>
    rw [List.cons_append, descend, (find_eq_some_iff _ _ _).2 hf]
    simp only [hd1]
    exact ih hm

theorem find_file_inner_default_dir {d : path_data} {back : List byte} {e : arch_entry}
    {sub : path_data} (hm : FirstMatch d back e) (hd : e.data = .path sub) :
    find_file_inner false d back = .throw .bad_get := by
  unfold find_file_inner
  rw [(find_eq_some_iff _ _ _).2 hm]
  simp only [hd]
  rfl

theorem descend_builds (d : path_data) (comps : List (List byte)) :
    descend false d comps = descend true d comps ∨
      (descend false d comps = .throw .bad_get ∧ descend true d comps = .ok none) := by
  induction comps generalizing d with
  | nil => exact Or.inl rfl
  | cons c rest ih =>
    rw [descend, descend]
    cases hf : d.entries.find? (name_pred c) with
    | none => exact Or.inl rfl
    | some e =>
      simp only
      cases e.data with
      | file fd => exact Or.inr ⟨rfl, rfl⟩
      | path sub => exact ih sub

theorem find_file_inner_builds (d : path_data) (name : List byte) :
    find_file_inner false d name = find_file_inner true d name ∨
      (find_file_inner false d name = .throw .bad_get ∧ find_file_inner true d name = .ok none) := by
  unfold find_file_inner
  cases hf : d.entries.find? (name_pred name) with
  | none => exact Or.inl rfl
  | some e =>
    simp only
    cases e.data with
    | file fd => exact Or.inl rfl
    | path sub => exact Or.inr ⟨rfl, rfl⟩

theorem find_file_builds (self : hpi_archive) (p : List byte) :
    self.find_file false p = self.find_file true p ∨
      (self.find_file false p = .throw .bad_get ∧ self.find_file true p = .ok none) := by
  obtain ⟨comps, back, h⟩ := str_split_last p [47]
  rw [find_file_split false self p comps back h, find_file_split true self p comps back h]
  rcases descend_builds self.root_path comps with hd | ⟨hd1, hd2⟩
  · rw [hd]
    cases descend true self.root_path comps with
    | ok r =>
      cases r with
      | none => exact Or.inl rfl
      | some d => exact find_file_inner_builds d back
    | throw e => exact Or.inl rfl
    | oob => exact Or.inl rfl
    | diverge => exact Or.inl rfl
  · rw [hd1, hd2]
    exact Or.inr ⟨rfl, rfl⟩

/-- C7: in the build the sources select (`USE_STD_OPTIONAL` is defined
nowhere) `find_file` throws `boost::bad_get` where the other build returns the
empty optional: when the first match of an intermediate component is a file
entry, and when the first match of the last component is a directory entry.
On the tree of Scenario F, `find_file("a")` and `find_file("a/B/c.dat/x")`
throw. Whenever the two builds differ, this one throws `bad_get` and the other
returns not-found. -/
theorem find_file_default_build_throws (self : hpi_archive) (p : List byte) :
    (scenario_F.find_file false [97] = .throw .bad_get ∧
      scenario_F.find_file true [97] = .ok none) ∧
    (scenario_F.find_file false [97, 47, 66, 47, 99, 46, 100, 97, 116, 47, 120]
        = .throw .bad_get ∧
      scenario_F.find_file true [97, 47, 66, 47, 99, 46, 100, 97, 116, 47, 120] = .ok none) ∧
    (self.find_file false p = self.find_file true p ∨
      (self.find_file false p = .throw .bad_get ∧ self.find_file true p = .ok none)) ∧
    (∀ comps back, str_split p [47] = comps ++ [back] →
      (∀ pre c post d e fd, comps = pre ++ c :: post → Reaches self.root_path pre d →
        FirstMatch d c e → e.data = .file fd → self.find_file false p = .throw .bad_get) ∧
      (∀ d e sub, Reaches self.root_path comps d → FirstMatch d back e → e.data = .path sub →
        self.find_file false p = .throw .bad_get)) := by
  refine ⟨⟨rfl, rfl⟩, ⟨rfl, rfl⟩, find_file_builds self p, fun comps back h => ⟨?_, ?_⟩⟩
  · intro pre c post d e fd hc hr hm hd
    rw [find_file_split false self p comps back h, hc, descend_default_file c post hr hm hd]
    rfl
  · intro d e sub hr hm hd
    rw [find_file_split false self p comps back h, descend_reaches false hr]
    exact find_file_inner_default_dir hm hd

/-- C8: in the build the sources select (`USE_STD_OPTIONAL` is defined
nowhere) `find_path` throws `boost::bad_get`, instead of returning not-found,
when the first match of an intermediate component is a file entry; on the tree
of Scenario F `find_path("a/B/c.dat/x")` throws. Whenever the two builds
differ, this one throws `bad_get` and the other returns not-found. -/
theorem find_path_default_build_throws (self : hpi_archive) (p : List byte) :
    (scenario_F.find_path false [97, 47, 66, 47, 99, 46, 100, 97, 116, 47, 120]
        = .throw .bad_get ∧
      scenario_F.find_path true [97, 47, 66, 47, 99, 46, 100, 97, 116, 47, 120] = .ok none) ∧
    (self.find_path false p = self.find_path true p ∨
      (self.find_path false p = .throw .bad_get ∧ self.find_path true p = .ok none)) ∧
    (∀ comps back, str_split p [47] = comps ++ [back] →
      ∀ pre c post d e fd, comps = pre ++ c :: post → Reaches self.root_path pre d →
        FirstMatch d c e → e.data = .file fd → self.find_path false p = .throw .bad_get) := by
  refine ⟨⟨rfl, rfl⟩, ?_, fun comps back h pre c post d e fd hc hr hm hd => ?_⟩
  · unfold hpi_archive.find_path
    exact descend_builds _ _
  · unfold hpi_archive.find_path
    simp only [h, List.dropLast_concat]
    rw [hc]
    exact descend_default_file c post hr hm hd

/-- C9: two extractions of the same file over the same archive bytes into
equal, zero-filled buffers both succeed and end with different buffers. The
chunk `03 20 00 00 00` copies `window[2]` and `window[3]`, which
`decompress_lz77` has not written and its uninitialised `window` array takes
from the stack: with zeros there the buffer ends `0, 0`, with 0xAA there it
ends `0xAA, 0xAA`. -/
theorem extract_depends_on_window :
    window_reader.extract scenario_platform 1 ⟨0, 2, 1⟩ [0, 0]
      = .ok ⟨true, ⟨window_reader.stream.data, 28, false⟩, [0, 0]⟩ ∧
    window_reader.extract scenario_platform_AA 1 ⟨0, 2, 1⟩ [0, 0]
      = .ok ⟨true, ⟨window_reader.stream.data, 28, false⟩, [0xAA, 0xAA]⟩ := by
  decide!

end util
